import Mathlib

/-!
# Hadrons `A2AMatrixNucleon.hpp`

A shallow embedding of the nucleon all-to-all contraction kernels
(`A2AContractionNucleon`), the block I/O handle (`A2AMatrixNucIo`) and the blocked
engine (`A2AMatrixNucleonBlockComputation`).

Conventions of the embedding.

* Scalars live in an arbitrary commutative ring `R` with a conjugation `star`
  (`ℂ` is one instance, the Gaussian integers are used for evaluation), so a
  statement over `R` is one of exact arithmetic. The spin projectors, which scale by
  `0.5`, live in an arbitrary field (`ℂ` and `ℚ` are instances). The three-point
  contraction, whose summand is a local of type `ComplexD`, only uses the operations
  of its scalars, and is also run in the rounded arithmetic of `ComplexD`, modelled
  on the values of `double` that are integers.
* An Eigen tensor or matrix is its extents together with its coefficient function;
  an access whose index is not below the extent is undefined in C++ and is `none`
  here.
* Loops are folds over their iteration lists, in the order of the source;
  `thread_for` is a fold as well, every cell of the result being written by one
  iteration of the parallel index only. A loop with a step is run with fuel, so
  that a statement on its iterations is also one on its termination.
* Extents and loop counters are natural numbers (the `int` counters of the source
  do not wrap as long as an extent plus the step stays below `2^31`); products that
  the source takes in `unsigned int`, and extents of a file that it stores in an
  `unsigned int`, are reduced modulo `2^32`.
* Memory is a buffer of cells; a cell without a determined value (never written, or
  read past the end of the buffer) is `none`. Precisions (`ComplexD`, `ComplexF`)
  are not distinguished, timers and logs are left out.
-/

namespace Hadrons

/-! ## Data model -/

/-- Modelled from the spec: the spin extent `Ns` is a constant of the Grid library,
which is declared outside this repository; the spec fixes it to 4. -/
def Ns : Nat := 4

/-- The type `A2AMatrix<T>`: a dynamically sized Eigen matrix. -/
structure A2AMatrix (R : Type) where
  rows : Nat
  cols : Nat
  coeff : Nat → Nat → R

/-- The type `A2AMatrixNuc<T>`: a rank 4 Eigen tensor with modes `(mu, i, j, k)`. -/
structure A2AMatrixNuc (R : Type) where
  dim0 : Nat
  dim1 : Nat
  dim2 : Nat
  dim3 : Nat
  coeff : Nat → Nat → Nat → Nat → R

/-- Read access `a(mu, i, j, k)`; `none` when an index is out of range. -/
def A2AMatrixNuc.at? {R : Type} (a : A2AMatrixNuc R) (mu i j k : Nat) : Option R :=
  if mu < a.dim0 ∧ i < a.dim1 ∧ j < a.dim2 ∧ k < a.dim3 then some (a.coeff mu i j k) else none

/-- Read access `m(r, c)`; `none` when an index is out of range. -/
def A2AMatrix.at? {R : Type} (m : A2AMatrix R) (r c : Nat) : Option R :=
  if r < m.rows ∧ c < m.cols then some (m.coeff r c) else none

/-- The matrix `m` after `m(r, c) += v`, without the range check. -/
def A2AMatrix.addAt {R : Type} [Add R] (m : A2AMatrix R) (r c : Nat) (v : R) : A2AMatrix R :=
  { rows := m.rows
    cols := m.cols
    coeff := fun r2 c2 => if r2 = r ∧ c2 = c then m.coeff r2 c2 + v else m.coeff r2 c2 }

/-- The statement `m(r, c) += v`; `none` when an index is out of range. -/
def A2AMatrix.addAt? {R : Type} [Add R] (m : A2AMatrix R) (r c : Nat) (v : R) :
    Option (A2AMatrix R) :=
  if r < m.rows ∧ c < m.cols then some (m.addAt r c v) else none

/-- A matrix of the given size with every entry equal to `v`. -/
def A2AMatrix.const {R : Type} (rows cols : Nat) (v : R) : A2AMatrix R :=
  { rows := rows, cols := cols, coeff := fun _ _ => v }

/-- A tensor of the given shape with every entry equal to `v`. -/
def A2AMatrixNuc.const {R : Type} (d0 d1 d2 d3 : Nat) (v : R) : A2AMatrixNuc R :=
  { dim0 := d0, dim1 := d1, dim2 := d2, dim3 := d3, coeff := fun _ _ _ _ => v }

/-! ## Contraction kernels (`A2AContractionNucleon`) -/

/-- The locals `nRow_i, nRow_j, nRow_k` of `contNucTen` and `contNuc3ptUp` after the
second dimension check. They are assigned in the `else` branch only; the mismatch
branch is an empty block, so the locals keep their indeterminate initial values,
here the argument `uninit`. -/
def modeBounds {R : Type} (uninit : Nat × Nat × Nat) (a b : A2AMatrixNuc R) : Nat × Nat × Nat :=
  if a.dim1 ≠ b.dim1 ∨ a.dim2 ≠ b.dim2 ∨ a.dim3 ≠ b.dim3 then uninit
  else (a.dim1, a.dim2, a.dim3)

/-- The body of the innermost loop of `contNucTen`:
`spinMat(mu,nu) += a(mu,i,j,k) * (conj(b(nu,i,j,k)) - conj(b(nu,k,j,i)))`. -/
def contNucTenBody {R : Type} [CommRing R] [StarRing R] (a b : A2AMatrixNuc R)
    (mu nu i j k : Nat) (spinMat : A2AMatrix R) : Option (A2AMatrix R) := do
  let x ← a.at? mu i j k
  let y ← b.at? nu i j k
  let z ← b.at? nu k j i
  spinMat.addAt? mu nu (x * (star y - star z))

/-- The function `contNucTen(spinMat, a, b)`. The first dimension check of the source
only assigns `nRow_mu` and `nRow_nu`, which are never read; the loops over `mu` and
`nu` run to `Ns`. The result is the final value of `spinMat`. -/
def contNucTen {R : Type} [CommRing R] [StarRing R] (uninit : Nat × Nat × Nat)
    (spinMat : A2AMatrix R) (a b : A2AMatrixNuc R) : Option (A2AMatrix R) :=
  let nRow := modeBounds uninit a b
  (List.range Ns).foldlM (fun sm mu =>
    (List.range Ns).foldlM (fun sm nu =>
      (List.range nRow.1).foldlM (fun sm i =>
        (List.range nRow.2.1).foldlM (fun sm j =>
          (List.range nRow.2.2).foldlM (fun sm k =>
            contNucTenBody a b mu nu i j k sm) sm) sm) sm) sm) spinMat

/-- The local `nRow_m` of `contNuc3ptUp` after the third dimension check, which
compares `c.rows()` with `c.cols()` and with `nRow_i`. -/
def mesonBound {R : Type} (uninit : Nat) (nRow_i : Nat) (c : A2AMatrix R) : Nat :=
  if c.rows ≠ c.cols ∨ c.rows ≠ nRow_i then uninit else c.rows

/-- The body of the innermost loop of `contNuc3ptUp`: the local `tmp` is the four
products combined from left to right, `((t1 - t2) + t3) - t4`, then
`spinMat(mu,nu) += tmp`. Only the operations of the scalars are used, so that the
scalars may be an exact ring or the rounded arithmetic of `ComplexD`. -/
def contNuc3ptUpBody {R : Type} [Add R] [Sub R] [Mul R] [Star R] (a : A2AMatrixNuc R)
    (c : A2AMatrix R) (b : A2AMatrixNuc R) (mu nu i j k m : Nat) (spinMat : A2AMatrix R) :
    Option (A2AMatrix R) := do
  let aijk ← a.at? mu i j k
  let akji ← a.at? mu k j i
  let ckm ← c.at? k m
  let bijm ← b.at? nu i j m
  let bmji ← b.at? nu m j i
  let tmp := aijk * ckm * star bijm - aijk * ckm * star bmji
    + akji * ckm * star bmji - akji * ckm * star bijm
  spinMat.addAt? mu nu tmp

/-- The function `contNuc3ptUp(spinMat, a, c, b)`. -/
def contNuc3ptUp {R : Type} [Add R] [Sub R] [Mul R] [Star R] (uninit : Nat × Nat × Nat)
    (uninitM : Nat) (spinMat : A2AMatrix R) (a : A2AMatrixNuc R) (c : A2AMatrix R)
    (b : A2AMatrixNuc R) : Option (A2AMatrix R) :=
  let nRow := modeBounds uninit a b
  let nRow_m := mesonBound uninitM nRow.1 c
  (List.range Ns).foldlM (fun sm mu =>
    (List.range Ns).foldlM (fun sm nu =>
      (List.range nRow.1).foldlM (fun sm i =>
        (List.range nRow.2.1).foldlM (fun sm j =>
          (List.range nRow.2.2).foldlM (fun sm k =>
            (List.range nRow_m).foldlM (fun sm m =>
              contNuc3ptUpBody a c b mu nu i j k m sm) sm) sm) sm) sm) sm) spinMat

/-! ## Spin projectors and composed operators (`A2AContractionNucleon`) -/

/-- The Eigen expression `A2AMatrix<T>::Identity(rows, cols)`. -/
def A2AMatrix.Identity {R : Type} [Zero R] [One R] (rows cols : Nat) : A2AMatrix R :=
  { rows := rows, cols := cols, coeff := fun r c => if r = c then 1 else 0 }

/-- The Eigen expression `A2AMatrix<T>::Zero(rows, cols)`. -/
def A2AMatrix.zero {R : Type} [OfNat R 0] (rows cols : Nat) : A2AMatrix R :=
  { rows := rows, cols := cols, coeff := fun _ _ => 0 }

/-- The assignment `m.block(startRow, startCol, p, q) = blk` of Eigen, for a block
that lies in `m` and a matrix `blk` of size `p × q`. -/
def A2AMatrix.setBlock {R : Type} (m : A2AMatrix R) (startRow startCol p q : Nat)
    (blk : A2AMatrix R) : A2AMatrix R :=
  { rows := m.rows
    cols := m.cols
    coeff := fun r c =>
      if (startRow ≤ r ∧ r < startRow + p) ∧ (startCol ≤ c ∧ c < startCol + q) then
        blk.coeff (r - startRow) (c - startCol)
      else m.coeff r c }

/-- The assignment `m.topLeftCorner(p, q) = blk`: the block at `(0, 0)`. -/
def A2AMatrix.setTopLeftCorner {R : Type} (m : A2AMatrix R) (p q : Nat) (blk : A2AMatrix R) :
    A2AMatrix R := m.setBlock 0 0 p q blk

/-- The assignment `m.bottomLeftCorner(p, q) = blk`: the block at `(rows - p, 0)`. -/
def A2AMatrix.setBottomLeftCorner {R : Type} (m : A2AMatrix R) (p q : Nat)
    (blk : A2AMatrix R) : A2AMatrix R := m.setBlock (m.rows - p) 0 p q blk

/-- The assignment `m.topRightCorner(p, q) = blk`: the block at `(0, cols - q)`. -/
def A2AMatrix.setTopRightCorner {R : Type} (m : A2AMatrix R) (p q : Nat)
    (blk : A2AMatrix R) : A2AMatrix R := m.setBlock 0 (m.cols - q) p q blk

/-- The assignment `m.bottomRightCorner(p, q) = blk`: the block at
`(rows - p, cols - q)`. -/
def A2AMatrix.setBottomRightCorner {R : Type} (m : A2AMatrix R) (p q : Nat)
    (blk : A2AMatrix R) : A2AMatrix R := m.setBlock (m.rows - p) (m.cols - q) p q blk

/-- The assignment `m(r, c) = v` of one coefficient in range. -/
def A2AMatrix.set {R : Type} (m : A2AMatrix R) (r c : Nat) (v : R) : A2AMatrix R :=
  { rows := m.rows
    cols := m.cols
    coeff := fun r2 c2 => if r2 = r ∧ c2 = c then v else m.coeff r2 c2 }

/-- The matrix product `p * a` of Eigen; `none` when the inner sizes differ. -/
def A2AMatrix.mul? {R : Type} [Add R] [Mul R] [Zero R] (p a : A2AMatrix R) :
    Option (A2AMatrix R) :=
  if p.cols = a.rows then
    some { rows := p.rows, cols := a.cols
           coeff := fun r c => ((List.range p.cols).map fun k => p.coeff r k * a.coeff k c).sum }
  else none

/-- The product `s * m` of a matrix by a scalar. -/
def A2AMatrix.smul {R : Type} [Mul R] (s : R) (m : A2AMatrix R) : A2AMatrix R :=
  { rows := m.rows, cols := m.cols, coeff := fun r c => s * m.coeff r c }

/-- The method `trace()` of Eigen: the sum of the diagonal. -/
def A2AMatrix.trace {R : Type} [Add R] [Zero R] (m : A2AMatrix R) : R :=
  ((List.range (min m.rows m.cols)).map fun i => m.coeff i i).sum

/-- The local `projMat` of `ProjTPlus`: the identity of size `Ns`, then the
bottom-left and the top-right corners of size `Ns/2` set to the identity. -/
def projMatTPlus {R : Type} [Zero R] [One R] : A2AMatrix R :=
  ((A2AMatrix.Identity Ns Ns).setBottomLeftCorner (Ns / 2) (Ns / 2)
    (A2AMatrix.Identity (Ns / 2) (Ns / 2))).setTopRightCorner (Ns / 2) (Ns / 2)
    (A2AMatrix.Identity (Ns / 2) (Ns / 2))

/-- The function `ProjTPlus(res, a)`: `res = 0.5 * (projMat * a)`. Both arguments are
references: the result is the pair of their final values. The former value of `res`
is not read. -/
def ProjTPlus {R : Type} [Field R] (_res a : A2AMatrix R) :
    Option (A2AMatrix R × A2AMatrix R) :=
  (projMatTPlus.mul? a).map fun m => (A2AMatrix.smul (1 / 2) m, a)

/-- The local `projMat` of `ProjTPlusPxy`: `subMat` is the zero matrix of size `Ns/2`
with `subMat(1,1) = 2`, and the four corners of the zero matrix of size `Ns` are set
to `subMat`. -/
def projMatTPlusPxy {R : Type} [OfNat R 0] [OfNat R 2] : A2AMatrix R :=
  let subMat : A2AMatrix R := (A2AMatrix.zero (Ns / 2) (Ns / 2)).set 1 1 2
  ((((A2AMatrix.zero Ns Ns).setTopLeftCorner (Ns / 2) (Ns / 2) subMat).setBottomLeftCorner
    (Ns / 2) (Ns / 2) subMat).setTopRightCorner (Ns / 2) (Ns / 2) subMat).setBottomRightCorner
    (Ns / 2) (Ns / 2) subMat

/-- The function `ProjTPlusPxy(res, a)`: `res = projMat * a`. The result is the pair of
the final values of `res` and `a`. -/
def ProjTPlusPxy {R : Type} [Field R] (_res a : A2AMatrix R) :
    Option (A2AMatrix R × A2AMatrix R) :=
  (projMatTPlusPxy.mul? a).map fun m => (m, a)

/-- The function `TrProjTPlus(acc, a)`: `ProjTPlus(tmpMat, a)` on a local matrix
`tmpMat(Ns, Ns)`, then `acc += tmpMat.trace()`. The result is the final value of
`acc`. -/
def TrProjTPlus {R : Type} [Field R] (acc : R) (a : A2AMatrix R) : Option R :=
  (ProjTPlus (A2AMatrix.zero Ns Ns) a).map fun p => acc + p.1.trace

/-- The function `TrProjTPlusPxy(acc, a)`: as `TrProjTPlus`, with `ProjTPlusPxy`. -/
def TrProjTPlusPxy {R : Type} [Field R] (acc : R) (a : A2AMatrix R) : Option R :=
  (ProjTPlusPxy (A2AMatrix.zero Ns Ns) a).map fun p => acc + p.1.trace

/-- The function `ContractNucleonTPlus(acc, a, b)`: a local matrix `spinMat(Ns, Ns)`
is set to 0, then `contNucTen(spinMat, a, b)` and `TrProjTPlus(acc, spinMat)`. The
result is the final value of `acc`. -/
def ContractNucleonTPlus {R : Type} [Field R] [StarRing R] (uninit : Nat × Nat × Nat)
    (acc : R) (a b : A2AMatrixNuc R) : Option R :=
  (contNucTen uninit (A2AMatrix.zero Ns Ns) a b).bind fun spinMat => TrProjTPlus acc spinMat

/-- The function `ContractNuc3ptTPlusPxy(acc, a, c, b)`: a local matrix
`spinMat(Ns, Ns)` is set to 0, then `contNuc3ptUp(spinMat, a, c, b)` and
`TrProjTPlusPxy(acc, spinMat)`. The result is the final value of `acc`. -/
def ContractNuc3ptTPlusPxy {R : Type} [Field R] [StarRing R] (uninit : Nat × Nat × Nat)
    (uninitM : Nat) (acc : R) (a : A2AMatrixNuc R) (c : A2AMatrix R) (b : A2AMatrixNuc R) :
    Option R :=
  (contNuc3ptUp uninit uninitM (A2AMatrix.zero Ns Ns) a c b).bind fun spinMat =>
    TrProjTPlusPxy acc spinMat

/-! ## A model of `ComplexD` on integer values -/

/-- Modelled from the spec: the number of low bits that rounding to the 53 bits of the
significand of a `double` drops from `n`: the least `s` with `n / 2^s < 2^53`, found
by halving. The first argument is fuel, and `n` itself is enough. -/
def excessBits : Nat → Nat → Nat
  | 0, _ => 0
  | fuel + 1, n => if n < 2 ^ 53 then 0 else excessBits fuel (n / 2) + 1

/-- Modelled from the spec: rounding of a natural number to 53 significant bits, to
nearest and ties to even, the rounding of IEEE 754 binary64 arithmetic. -/
def roundNat (n : Nat) : Nat :=
  let s := excessBits n n
  let q := n / 2 ^ s
  let r := n % 2 ^ s
  let q2 := if 2 * r < 2 ^ s then q else if 2 ^ s < 2 * r then q + 1
    else if q % 2 = 0 then q else q + 1
  q2 * 2 ^ s

/-- Modelled from the spec: rounding of an integer to the nearest `double`. -/
def roundInt : Int → Int
  | .ofNat n => Int.ofNat (roundNat n)
  | .negSucc n => - Int.ofNat (roundNat (n + 1))

/-- Modelled from the spec: the type `RealD` of the Grid library, a `double`, which is
declared outside this repository; here the finite values that are integers, each the
rounding of an integer (overflow to infinity is left out). -/
structure RealD where
  val : Int
  rounded : ∃ w, roundInt w = val

/-- Conversion of an integer to `double`. -/
def RealD.ofInt (z : Int) : RealD := ⟨roundInt z, ⟨z, rfl⟩⟩

/-- The sum of two `double`: the exact sum, rounded. -/
def RealD.add (x y : RealD) : RealD := RealD.ofInt (x.val + y.val)

/-- The difference of two `double`: the exact difference, rounded. -/
def RealD.sub (x y : RealD) : RealD := RealD.ofInt (x.val - y.val)

/-- The product of two `double`: the exact product, rounded. -/
def RealD.mul (x y : RealD) : RealD := RealD.ofInt (x.val * y.val)

/-- The opposite of a `double`, which is exact. -/
def RealD.neg (x : RealD) : RealD := RealD.ofInt (- x.val)

/-- Modelled from the spec: the type `ComplexD` of the Grid library, a
`std::complex<double>`, which is declared outside this repository: a real and an
imaginary part. -/
structure ComplexD where
  re : RealD
  im : RealD

/-- The complex number `re + im i` with integer parts. -/
def ComplexD.ofInt (re im : Int) : ComplexD := ⟨RealD.ofInt re, RealD.ofInt im⟩

/-- The sum of two `ComplexD`, part by part. -/
def ComplexD.add (x y : ComplexD) : ComplexD := ⟨x.re.add y.re, x.im.add y.im⟩

/-- The difference of two `ComplexD`, part by part. -/
def ComplexD.sub (x y : ComplexD) : ComplexD := ⟨x.re.sub y.re, x.im.sub y.im⟩

/-- The product of two `ComplexD`: `(a c - b d) + (a d + b c) i`, every operation
rounded. -/
def ComplexD.mul (x y : ComplexD) : ComplexD :=
  ⟨(x.re.mul y.re).sub (x.im.mul y.im), (x.re.mul y.im).add (x.im.mul y.re)⟩

/-- The conjugate `std::conj`. -/
def ComplexD.conj (x : ComplexD) : ComplexD := ⟨x.re, x.im.neg⟩

instance : DecidableEq RealD := fun x y =>
  if h : x.val = y.val then
    isTrue (by cases x; cases y; simp only at h; subst h; rfl)
  else isFalse (fun e => h (by rw [e]))

instance : DecidableEq ComplexD := fun x y =>
  if h : x.re = y.re ∧ x.im = y.im then
    isTrue (by cases x; cases y; simp only at h; obtain ⟨h1, h2⟩ := h; subst h1; subst h2; rfl)
  else isFalse (fun e => h (by rw [e]; exact ⟨rfl, rfl⟩))

instance : Add ComplexD := ⟨ComplexD.add⟩

instance : Sub ComplexD := ⟨ComplexD.sub⟩

instance : Mul ComplexD := ⟨ComplexD.mul⟩

instance : Star ComplexD := ⟨ComplexD.conj⟩

/-! ## Machine integers and loops with a step -/

/-- Reduction of a value to `unsigned int` (32 bits). -/
def u32 (n : Nat) : Nat := n % 2 ^ 32

/-- The values taken by `x` in `for (x = start; x < stop; x += step)`, in order. The
first argument is fuel: `none` means that the loop has not come to its end within
that many iterations (with `step = 0` it never does). -/
def forLoop (stop step : Nat) : Nat → Nat → Option (List Nat)
  | 0, x => if x < stop then none else some []
  | fuel + 1, x =>
    if x < stop then (forLoop stop step fuel (x + step)).map (List.cons x) else some []

/-- The values of `for (x = 0; x < n; x += step)`; `n` iterations of fuel are enough
for every `step ≥ 1`. -/
def blockStarts (n step : Nat) : Option (List Nat) := forLoop n step n 0

/-! ## Failures -/

/-- The ways in which an operation of the embedding fails. `size` is
`HADRONS_ERROR(Size, msg)`; `hdf5` is an exception of the HDF5 library;
`nullPointer` and `outOfBounds` are writes through a null pointer and outside a
buffer, undefined in C++; `noTermination` stands for a loop that does not end. -/
inductive Failure where
  | size (msg : String)
  | hdf5 (msg : String)
  | nullPointer
  | outOfBounds
  | noTermination
  deriving DecidableEq, Repr

/-- Result of a loop as a step of a computation that can fail. -/
def liftLoop {α : Type} : Option α → Except Failure α
  | some a => .ok a
  | none => .error .noTermination

/-! ## Buffers and tensor views -/

/-- A `Vector<T>` (such as `mBuf_`, `mCache_`): its size and its cells. A cell that
holds `none` has no determined value. -/
structure Buffer (T : Type) where
  size : Nat
  cell : Nat → Option T

/-- A freshly allocated buffer. -/
def Buffer.alloc {T : Type} (size : Nat) : Buffer T := { size := size, cell := fun _ => none }

/-- Read of `data[p]`: reading past the end of the buffer gives no determined value. -/
def Buffer.read {T : Type} (b : Buffer T) (p : Nat) : Option T :=
  if p < b.size then b.cell p else none

/-- Write `data[p] = v`; a write past the end of the buffer fails. -/
def Buffer.write {T : Type} (b : Buffer T) (p : Nat) (v : Option T) : Except Failure (Buffer T) :=
  if p < b.size then .ok { size := b.size, cell := fun q => if q = p then v else b.cell q }
  else .error .outOfBounds

/-- The type `A2AMatrixSetNuc<T>`: a row-major rank 6 `Eigen::TensorMap` on a
buffer, given by the position `data` of its first element and its six extents. -/
structure A2AMatrixSetNuc where
  data : Nat
  dim0 : Nat
  dim1 : Nat
  dim2 : Nat
  dim3 : Nat
  dim4 : Nat
  dim5 : Nat
  deriving DecidableEq, Repr

/-- Position in the buffer of the element `m(a0, a1, a2, a3, a4, a5)` (row-major). -/
def A2AMatrixSetNuc.index (m : A2AMatrixSetNuc) (a0 a1 a2 a3 a4 a5 : Nat) : Nat :=
  m.data + (((((a0 * m.dim1 + a1) * m.dim2 + a2) * m.dim3 + a3) * m.dim4 + a4) * m.dim5 + a5)

/-- Number of elements of the view. -/
def A2AMatrixSetNuc.total (m : A2AMatrixSetNuc) : Nat :=
  m.dim0 * m.dim1 * m.dim2 * m.dim3 * m.dim4 * m.dim5

/-- The six indices of the element at offset `p` from the start of the view. -/
def A2AMatrixSetNuc.unindex (m : A2AMatrixSetNuc) (p : Nat) :
    Nat × Nat × Nat × Nat × Nat × Nat :=
  (p / (m.dim1 * m.dim2 * m.dim3 * m.dim4 * m.dim5),
   p / (m.dim2 * m.dim3 * m.dim4 * m.dim5) % m.dim1,
   p / (m.dim3 * m.dim4 * m.dim5) % m.dim2,
   p / (m.dim4 * m.dim5) % m.dim3,
   p / m.dim5 % m.dim4,
   p % m.dim5)

/-! ## Block I/O (`A2AMatrixNucIo`), for a build with HDF5 -/

/-- Five extents, or five coordinates, of a dataset, in the order of its axes. -/
structure Dim5 where
  d0 : Nat
  d1 : Nat
  d2 : Nat
  d3 : Nat
  d4 : Nat
  deriving DecidableEq, Repr

/-- A rank 5 HDF5 dataset: extents, chunk extents when the layout is chunked, and
cells; a cell that holds `none` has no determined value (it was never written, or
was written from memory outside every buffer). -/
structure H5DataSet (T : Type) where
  dim : Dim5
  chunk : Option Dim5
  cell : Nat → Nat → Nat → Nat → Nat → Option T

/-- An HDF5 file written by `initFile`: a group `dataname` with the metadata and the
dataset `HADRONS_A2AN_NAME`. -/
structure H5File (Md T : Type) where
  dataname : String
  metadata : Md
  dataset : H5DataSet T

/-- The files, by name. -/
abbrev FileSystem (Md T : Type) := String → Option (H5File Md T)

/-- The class `A2AMatrixNucIo`: `filename_`, `dataname_`, `nt_`, `ni_`, `nj_`, `nk_`. -/
structure A2AMatrixNucIo where
  filename : String
  dataname : String
  nt : Nat
  ni : Nat
  nj : Nat
  nk : Nat
  deriving DecidableEq, Repr

/-- Opening `filename_`, entering the group `dataname_` and opening the dataset. -/
def A2AMatrixNucIo.openDataSet {Md T : Type} (io : A2AMatrixNucIo) (fs : FileSystem Md T) :
    Except Failure (H5File Md T) :=
  match fs io.filename with
  | none => .error (.hdf5 "unable to open file")
  | some f => if f.dataname = io.dataname then .ok f else .error (.hdf5 "unable to open group")

/-- The method `initFile(d, chunkSize)`: creates (or overwrites) the file with the
metadata, then the empty dataset of extents `{nt_, Ns, ni_, nj_, nk_}` and chunk
`{1, Ns, chunkSize, chunkSize, chunkSize}`. -/
def A2AMatrixNucIo.initFile {Md T : Type} (io : A2AMatrixNucIo) (d : Md) (chunkSize : Nat)
    (fs : FileSystem Md T) : FileSystem Md T :=
  let dim : Dim5 := ⟨io.nt, Ns, io.ni, io.nj, io.nk⟩
  let chunk : Dim5 := ⟨1, Ns, chunkSize, chunkSize, chunkSize⟩
  fun name =>
    if name = io.filename then
      some { dataname := io.dataname, metadata := d,
             dataset := { dim := dim, chunk := some chunk, cell := fun _ _ _ _ _ => none } }
    else fs name

/-- Whether the hyperslab of extents `count` at `offset` (stride and block 1) lies in
a dataset of extents `dim`. -/
abbrev Dim5.slabFits (dim count offset : Dim5) : Prop :=
  offset.d0 + count.d0 ≤ dim.d0 ∧ offset.d1 + count.d1 ≤ dim.d1 ∧
  offset.d2 + count.d2 ≤ dim.d2 ∧ offset.d3 + count.d3 ≤ dim.d3 ∧
  offset.d4 + count.d4 ≤ dim.d4

/-- Whether the coordinates `c` lie in the hyperslab of extents `count` at `offset`. -/
abbrev Dim5.inSlab (count offset c : Dim5) : Prop :=
  (offset.d0 ≤ c.d0 ∧ c.d0 < offset.d0 + count.d0) ∧
  (offset.d1 ≤ c.d1 ∧ c.d1 < offset.d1 + count.d1) ∧
  (offset.d2 ≤ c.d2 ∧ c.d2 < offset.d2 + count.d2) ∧
  (offset.d3 ≤ c.d3 ∧ c.d3 < offset.d3 + count.d3) ∧
  (offset.d4 ≤ c.d4 ∧ c.d4 < offset.d4 + count.d4)

/-- The method `saveBlock(const T *data, str, i, j, k, blockSizei, blockSizej,
blockSizek)`: selects the hyperslab `count = {nt_, Ns, blockSizei, blockSizej,
blockSizek}` at `offset = {0, str, i, j, k}` and writes into it the
`nt_ * Ns * blockSizei * blockSizej * blockSizek` elements that start at `data`, read
as a row-major array of extents `count`. The memory is the buffer `mem` and `data`
a position in it. HDF5 rejects a selection outside the extents of the dataset. -/
def A2AMatrixNucIo.saveBlockRaw {Md T : Type} (io : A2AMatrixNucIo) (mem : Buffer T)
    (data : Nat) (str i j k blockSizei blockSizej blockSizek : Nat)
    (fs : FileSystem Md T) : Except Failure (FileSystem Md T) := do
  let file ← io.openDataSet fs
  let count : Dim5 := ⟨io.nt, Ns, blockSizei, blockSizej, blockSizek⟩
  let offset : Dim5 := ⟨0, str, i, j, k⟩
  if ¬ file.dataset.dim.slabFits count offset then
    throw (.hdf5 "selection out of the extent of the dataset")
  let cell := fun t s x y z =>
    if Dim5.inSlab count offset ⟨t, s, x, y, z⟩ then
      mem.read (data + ((((t * Ns + (s - str)) * blockSizei + (x - i)) * blockSizej
        + (y - j)) * blockSizek + (z - k)))
    else file.dataset.cell t s x y z
  let written : H5File Md T :=
    { dataname := file.dataname, metadata := file.metadata,
      dataset := { dim := file.dataset.dim, chunk := file.dataset.chunk, cell := cell } }
  pure fun name => if name = io.filename then some written else fs name

/-- The local `offset` of `saveBlock(const A2AMatrixSetNuc<T> &m, ext, str, i, j, k)`:
`(ext*nstr + str)*nt_*blockSizei*blockSizej*blockSizek` in `unsigned int`
arithmetic, with `nstr = m.dimension(1)` and the block sizes `m.dimension(3..5)`. -/
def A2AMatrixNucIo.saveBlockOffset (io : A2AMatrixNucIo) (m : A2AMatrixSetNuc)
    (ext str : Nat) : Nat :=
  let blockSizei := u32 m.dim3
  let blockSizej := u32 m.dim4
  let blockSizek := u32 m.dim5
  let nstr := u32 m.dim1
  u32 ((ext * nstr + str) * io.nt * blockSizei * blockSizej * blockSizek)

/-- The method `saveBlock(const A2AMatrixSetNuc<T> &m, ext, str, i, j, k)`: calls the
low-level `saveBlock` with the pointer `m.data() + offset`. -/
def A2AMatrixNucIo.saveBlock {Md T : Type} (io : A2AMatrixNucIo) (mem : Buffer T)
    (m : A2AMatrixSetNuc) (ext str i j k : Nat) (fs : FileSystem Md T) :
    Except Failure (FileSystem Md T) :=
  io.saveBlockRaw mem (m.data + io.saveBlockOffset m ext str) str i j k
    (u32 m.dim3) (u32 m.dim4) (u32 m.dim5) fs

/-- The size check of `load`: `HADRONS_ERROR(Size, ...)` is raised when the product
`Ns*nt_*ni_*nj_*nk_` (in `unsigned int`) is not zero and
`hdim[0] != Ns`, `hdim[1] != nt_`, `hdim[2] != ni_`, `hdim[3] != nj_` or
`hdim[4] != nk_`. -/
abbrev A2AMatrixNucIo.sizeMismatch (io : A2AMatrixNucIo) (hdim : Dim5) : Prop :=
  u32 (Ns * io.nt * io.ni * io.nj * io.nk) ≠ 0 ∧
  (hdim.d0 ≠ Ns ∨ hdim.d1 ≠ io.nt ∨ hdim.d2 ≠ io.ni ∨ hdim.d3 ≠ io.nj ∨ hdim.d4 ≠ io.nk)

/-- The text `d0 x d1 x d2 x d3 x d4` of the error messages. -/
def Dim5.text (d : Dim5) : String :=
  toString d.d0 ++ "x" ++ toString d.d1 ++ "x" ++ toString d.d2 ++ "x" ++ toString d.d3
    ++ "x" ++ toString d.d4

/-- The first part of `load`: the size check, and the adoption of the mode extents
of the file when `ni_*nj_*nk_` is zero. Returns the handle after the check. -/
def A2AMatrixNucIo.loadCheckSize (io : A2AMatrixNucIo) (hdim : Dim5) :
    Except Failure A2AMatrixNucIo :=
  if io.sizeMismatch hdim then
    .error (.size ("all-to-all matrix size mismatch (got " ++ hdim.text ++ ", expected "
      ++ (Dim5.mk Ns io.nt io.ni io.nj io.nk).text))
  else if u32 (io.ni * io.nj * io.nk) = 0 then
    if hdim.d0 ≠ io.nt ∨ hdim.d1 ≠ Ns then
      .error (.size ("all-to-all time size mismatch (got " ++ toString hdim.d0 ++ "x"
        ++ toString hdim.d1 ++ ", expected " ++ toString io.nt ++ "x" ++ toString Ns ++ ")"))
    else
      .ok { filename := io.filename, dataname := io.dataname, nt := io.nt,
            ni := u32 hdim.d2, nj := u32 hdim.d3, nk := u32 hdim.d4 }
  else .ok io

/-- The second part of `load`: for a chunked dataset, the divisibility check of the
mode extents by the chunk extents; returns `chunkCount` (1 when not chunked). -/
def loadChunkCount (hdim : Dim5) (chunk : Option Dim5) : Except Failure Nat :=
  match chunk with
  | none => .ok 1
  | some c =>
    if hdim.d2 % c.d2 ≠ 0 ∨ hdim.d3 % c.d3 ≠ 0 ∨ hdim.d4 % c.d4 ≠ 0 then
      .error (.size ("all-to-all chunk size mismatch (not a divisor of overall dimensions): "
        ++ "got chunk dims" ++ c.text ++ ", for overall dims " ++ hdim.text))
    else .ok (u32 (hdim.d2 / c.d2))

/-- The coordinates along one axis of an HDF5 hyperslab selection, in increasing
order of block and of position in the block. -/
def hyperslabAxis (start stride count block : Nat) : List Nat :=
  (List.range count).flatMap fun c => (List.range block).map fun b => start + stride * c + b

/-- The coordinates selected by `selectHyperslab(H5S_SELECT_SET, count, offset,
stride, block)`, in row-major order. -/
def selectHyperslab (count offset stride block : Dim5) : List Dim5 :=
  (hyperslabAxis offset.d0 stride.d0 count.d0 block.d0).flatMap fun c0 =>
  (hyperslabAxis offset.d1 stride.d1 count.d1 block.d1).flatMap fun c1 =>
  (hyperslabAxis offset.d2 stride.d2 count.d2 block.d2).flatMap fun c2 =>
  (hyperslabAxis offset.d3 stride.d3 count.d3 block.d3).flatMap fun c3 =>
  (hyperslabAxis offset.d4 stride.d4 count.d4 block.d4).map fun c4 => ⟨c0, c1, c2, c3, c4⟩

/-- The hyperslab parameters `(count, stride, block)` of `load`. -/
def loadSelection (io : A2AMatrixNucIo) (chunk : Option Dim5) (chunkCount : Nat) :
    Dim5 × Dim5 × Dim5 :=
  match chunk with
  | none => (⟨1, Ns, io.ni, io.nj, io.nk⟩, ⟨1, 1, 1, 1, 1⟩, ⟨1, 1, 1, 1, 1⟩)
  | some c => (⟨1, 1, chunkCount, chunkCount, chunkCount⟩, ⟨1, 1, c.d2, c.d3, c.d4⟩,
      ⟨1, Ns, c.d2, c.d3, c.d4⟩)

/-- The call `dataset.read(buf.data(), datatype, memspace, dataspace)` of `load`, the
memory space being the whole of `buf(Ns, ni_, nj_, nk_)`: HDF5 fails when the file
selection leaves the extents of the dataset or does not have as many elements as the
memory space; otherwise the selected cells fill `buf` in row-major order. -/
def readSlab {T : Type} (ds : H5DataSet T) (io : A2AMatrixNucIo) (sel : List Dim5) :
    Except Failure (A2AMatrixNuc (Option T)) :=
  if sel.length ≠ Ns * io.ni * io.nj * io.nk then
    .error (.hdf5 "file and memory selections differ in size")
  else if ¬ (∀ c ∈ sel, c.d0 < ds.dim.d0 ∧ c.d1 < ds.dim.d1 ∧ c.d2 < ds.dim.d2
      ∧ c.d3 < ds.dim.d3 ∧ c.d4 < ds.dim.d4) then
    .error (.hdf5 "selection out of the extent of the dataset")
  else
    .ok { dim0 := Ns, dim1 := io.ni, dim2 := io.nj, dim3 := io.nk
          coeff := fun s i j k =>
            match sel.get? (((s * io.ni + i) * io.nj + j) * io.nk + k) with
            | some c => ds.cell c.d0 c.d1 c.d2 c.d3 c.d4
            | none => none }

/-- The method `load(v, tRead)` (the overload without a grid). `tRead` is the pointee
of the pointer argument, `none` for a null pointer; `v` is indexed by the time slice
and is taken to be large enough. Returns the handle, whose mode extents may have been
set from the file, and `v`. The elapsed times added to `*tRead` are not modelled. -/
def A2AMatrixNucIo.load {Md T : Type} (io : A2AMatrixNucIo) (fs : FileSystem Md T)
    (v : Nat → A2AMatrixNuc (Option T)) (tRead : Option Int) :
    Except Failure (A2AMatrixNucIo × (Nat → A2AMatrixNuc (Option T))) := do
  let file ← io.openDataSet fs
  let hdim := file.dataset.dim
  let io2 ← io.loadCheckSize hdim
  let chunkCount ← loadChunkCount hdim file.dataset.chunk
  let (count, stride, block) := loadSelection io2 file.dataset.chunk chunkCount
  if tRead.isNone then throw .nullPointer
  let v2 ← (List.range io2.nt).reverse.foldlM (fun w t => do
    let buf ← readSlab file.dataset io2 (selectHyperslab count ⟨t, 0, 0, 0, 0⟩ stride block)
    pure fun t2 => if t2 = t then buf else w t2) v
  pure (io2, v2)

/-- The accessor `getNt`. -/
def A2AMatrixNucIo.getNt (io : A2AMatrixNucIo) : Nat := io.nt

/-- The accessor `getNi`. -/
def A2AMatrixNucIo.getNi (io : A2AMatrixNucIo) : Nat := io.ni

/-- The accessor `getNj`. -/
def A2AMatrixNucIo.getNj (io : A2AMatrixNucIo) : Nat := io.nj

/-- The accessor `getNk`. -/
def A2AMatrixNucIo.getNk (io : A2AMatrixNucIo) : Nat := io.nk

/-- Modelled from the spec: the class `GridCartesian` of the Grid library, which is
declared outside this repository; only the components along the time direction that
`load` reads are kept: `_processors[3]`, `_processor_coor[3]`, `LocalDimensions()[3]`
and `GlobalDimensions()[3]`. -/
structure GridCartesian where
  processors3 : Nat
  processor_coor3 : Nat
  localDimensions3 : Nat
  globalDimensions3 : Nat
  deriving DecidableEq, Repr

/-- The size check of the grid-aware `load`: that of `load` with `hdim[1]` compared to
`nt_*grid->_processors[3]`. -/
abbrev A2AMatrixNucIo.sizeMismatchGrid (io : A2AMatrixNucIo) (grid : GridCartesian)
    (hdim : Dim5) : Prop :=
  u32 (Ns * io.nt * io.ni * io.nj * io.nk) ≠ 0 ∧
  (hdim.d0 ≠ Ns ∨ hdim.d1 ≠ u32 (io.nt * grid.processors3) ∨ hdim.d2 ≠ io.ni
    ∨ hdim.d3 ≠ io.nj ∨ hdim.d4 ≠ io.nk)

/-- The first part of the grid-aware `load`: the size check against the global time
extent `nt_*grid->_processors[3]`, and the adoption of the mode extents of the file
when `ni_*nj_*nk_` is zero. Returns the handle after the check. -/
def A2AMatrixNucIo.loadCheckSizeGrid (io : A2AMatrixNucIo) (grid : GridCartesian)
    (hdim : Dim5) : Except Failure A2AMatrixNucIo :=
  if io.sizeMismatchGrid grid hdim then
    .error (.size ("all-to-all matrix size mismatch (got " ++ hdim.text ++ ", expected "
      ++ toString Ns ++ "x" ++ toString (u32 (io.nt * grid.processors3)) ++ "x"
      ++ toString io.ni ++ "x" ++ toString io.nt ++ "x" ++ toString io.ni ++ "x"
      ++ toString io.nj ++ "x" ++ toString io.nk))
  else if u32 (io.ni * io.nj * io.nk) = 0 then
    if hdim.d0 ≠ u32 (io.nt * grid.processors3) ∨ hdim.d1 ≠ Ns then
      .error (.size ("all-to-all time size mismatch (got " ++ toString hdim.d0 ++ "x"
        ++ toString hdim.d1 ++ ", expected " ++ toString (u32 (io.nt * grid.processors3))
        ++ "x" ++ toString Ns ++ ")"))
    else
      .ok { filename := io.filename, dataname := io.dataname, nt := io.nt,
            ni := u32 hdim.d2, nj := u32 hdim.d3, nk := u32 hdim.d4 }
  else .ok io

/-- The iterations of the time loop of the grid-aware `load`, in order: the local time
`t = tp1 - 1` for `tp1` from `localNt` down to 1, paired with the first coordinate
`(t + tshift) % globalNt` of the offset of its hyperslab, where
`tshift = grid->_processor_coor[3] * localNt`. The extents of a grid are values of
type `int` and the sum `t + tshift` is taken as a natural number. -/
def gridTimeSlices (grid : GridCartesian) : List (Nat × Nat) :=
  let localNt := grid.localDimensions3
  let globalNt := grid.globalDimensions3
  let tshift := grid.processor_coor3 * localNt
  (List.range localNt).reverse.map fun t => (t, (t + tshift) % globalNt)

/-- The time loop of the grid-aware `load`: for every iteration `(t, t0)` the hyperslab
at offset `{t0, 0, 0, 0, 0}` is read and stored in `v[t]`. -/
def loadGridLoop {T : Type} (ds : H5DataSet T) (io2 : A2AMatrixNucIo)
    (count stride block : Dim5) (slices : List (Nat × Nat))
    (v : Nat → A2AMatrixNuc (Option T)) : Except Failure (Nat → A2AMatrixNuc (Option T)) :=
  slices.foldlM (fun w p => do
    let buf ← readSlab ds io2 (selectHyperslab count ⟨p.2, 0, 0, 0, 0⟩ stride block)
    pure fun t2 => if t2 = p.1 then buf else w t2) v

/-- The method `load(v, grid, tRead)` (the grid-aware overload of `load`). `tRead` is
the pointee of the pointer argument, `none` for a null pointer; `v` is indexed by the
local time slice. Returns the handle and `v`. -/
def A2AMatrixNucIo.loadGrid {Md T : Type} (io : A2AMatrixNucIo) (fs : FileSystem Md T)
    (v : Nat → A2AMatrixNuc (Option T)) (grid : GridCartesian) (tRead : Option Int) :
    Except Failure (A2AMatrixNucIo × (Nat → A2AMatrixNuc (Option T))) := do
  let file ← io.openDataSet fs
  let hdim := file.dataset.dim
  let io2 ← io.loadCheckSizeGrid grid hdim
  let chunkCount ← loadChunkCount hdim file.dataset.chunk
  let (count, stride, block) := loadSelection io2 file.dataset.chunk chunkCount
  if tRead.isNone then throw .nullPointer
  let v2 ← loadGridLoop file.dataset io2 count stride block (gridTimeSlices grid) v
  pure (io2, v2)

/-! ## The blocked engine (`A2AMatrixNucleonBlockComputation`) -/

/-- The class `A2AMatrixNucleonBlockComputation`: `nt_`, `next_`, `nstr_`,
`blockSize_`, `cacheBlockSize_`, and of the grid `ThisRank()` and `RankCount()`. -/
structure A2AMatrixNucleonBlockComputation where
  nt : Nat
  next : Nat
  nstr : Nat
  blockSize : Nat
  cacheBlockSize : Nat
  myRank : Nat
  nRank : Nat
  deriving DecidableEq, Repr

/-- The buffers of the engine and the files. -/
structure EngineState (Md T : Type) where
  mCache : Buffer T
  mBuf : Buffer T
  fs : FileSystem Md T

/-- The constructor: `mCache_` and `mBuf_` are resized to
`nt_*next_*nstr_*cacheBlockSize_^3` and `nt_*next_*nstr_*blockSize_^3` elements, the
products being taken in `unsigned int`. -/
def A2AMatrixNucleonBlockComputation.init {Md T : Type}
    (eng : A2AMatrixNucleonBlockComputation) (fs : FileSystem Md T) : EngineState Md T :=
  { mCache := Buffer.alloc (u32 (eng.nt * eng.next * eng.nstr * eng.cacheBlockSize
      * eng.cacheBlockSize * eng.cacheBlockSize))
    mBuf := Buffer.alloc (u32 (eng.nt * eng.next * eng.nstr * eng.blockSize
      * eng.blockSize * eng.blockSize))
    fs := fs }

/-- An outer tile of `execute`: its base `(i, j, k)` and its shape
`(N_ii, N_jj, N_kk)`. -/
structure OuterTile where
  i : Nat
  j : Nat
  k : Nat
  N_ii : Nat
  N_jj : Nat
  N_kk : Nat
  deriving DecidableEq, Repr

/-- A cache tile of `execute`: its base `(ii, jj, kk)` in the outer tile and its
shape `(N_iii, N_jjj, N_kkk)`. -/
structure CacheTile where
  ii : Nat
  jj : Nat
  kk : Nat
  N_iii : Nat
  N_jjj : Nat
  N_kkk : Nat
  deriving DecidableEq, Repr

/-- All `(x, y, z)` with `x`, `y`, `z` from three lists, the last varying fastest. -/
def triples (xs ys zs : List Nat) : List (Nat × Nat × Nat) :=
  xs.flatMap fun x => ys.flatMap fun y => zs.map fun z => (x, y, z)

/-- The iterations of three nested loops `for (x = 0; x < n; x += step)` over the
extents `n1`, `n2`, `n3`, in order. An inner loop is only entered when the loops
around it have an iteration. -/
def tripleLoop (n1 n2 n3 step : Nat) : Option (List (Nat × Nat × Nat)) :=
  (blockStarts n1 step).bind fun xs =>
    if xs = [] then some []
    else (blockStarts n2 step).bind fun ys =>
      if ys = [] then some []
      else (blockStarts n3 step).bind fun zs => some (triples xs ys zs)

/-- Modelled from the spec: the macro `MIN` of the Grid library, which is declared
outside this repository: the smaller of its two arguments. -/
abbrev MIN (a b : Nat) : Nat := min a b

/-- The outer tile of base `b = (i, j, k)`: `N_ii = MIN(N_i - i, blockSize_)`,
likewise `N_jj` and `N_kk`. -/
def outerTileAt (N_i N_j N_k blockSize : Nat) (b : Nat × Nat × Nat) : OuterTile :=
  { i := b.1, j := b.2.1, k := b.2.2
    N_ii := MIN (N_i - b.1) blockSize
    N_jj := MIN (N_j - b.2.1) blockSize
    N_kk := MIN (N_k - b.2.2) blockSize }

/-- The outer tiles visited by `execute`, in order: bases in steps of `blockSize_`. -/
def outerTiles (N_i N_j N_k blockSize : Nat) : Option (List OuterTile) :=
  (tripleLoop N_i N_j N_k blockSize).map (List.map (outerTileAt N_i N_j N_k blockSize))

/-- The cache tile of base `b = (ii, jj, kk)`: `N_iii = MIN(N_ii - ii,
cacheBlockSize_)`, likewise `N_jjj` and `N_kkk`. -/
def cacheTileAt (N_ii N_jj N_kk cacheBlockSize : Nat) (b : Nat × Nat × Nat) : CacheTile :=
  { ii := b.1, jj := b.2.1, kk := b.2.2
    N_iii := MIN (N_ii - b.1) cacheBlockSize
    N_jjj := MIN (N_jj - b.2.1) cacheBlockSize
    N_kkk := MIN (N_kk - b.2.2) cacheBlockSize }

/-- The cache tiles visited inside an outer tile of shape `(N_ii, N_jj, N_kk)`, in
order: bases in steps of `cacheBlockSize_`. -/
def cacheTiles (N_ii N_jj N_kk cacheBlockSize : Nat) : Option (List CacheTile) :=
  (tripleLoop N_ii N_jj N_kk cacheBlockSize).map
    (List.map (cacheTileAt N_ii N_jj N_kk cacheBlockSize))

/-- The view `mBlock(mBuf_.data(), next_, nt_, nstr_, N_ii, N_jj, N_kk)`. -/
def A2AMatrixNucleonBlockComputation.mBlock (eng : A2AMatrixNucleonBlockComputation)
    (tile : OuterTile) : A2AMatrixSetNuc :=
  { data := 0, dim0 := eng.next, dim1 := eng.nt, dim2 := eng.nstr
    dim3 := tile.N_ii, dim4 := tile.N_jj, dim5 := tile.N_kk }

/-- The view `mCacheBlock(mCache_.data(), next_, nstr_, nt_, N_iii, N_jjj, N_kkk)`. -/
def A2AMatrixNucleonBlockComputation.mCacheBlock (eng : A2AMatrixNucleonBlockComputation)
    (ct : CacheTile) : A2AMatrixSetNuc :=
  { data := 0, dim0 := eng.next, dim1 := eng.nstr, dim2 := eng.nt
    dim3 := ct.N_iii, dim4 := ct.N_jjj, dim5 := ct.N_kkk }

/-- A kernel (`A2AKernelNucleon`, abstract in the source), together with the mode
fields it is applied to: `kernel i0 j0 k0 e s t iii jjj kkk` is the value that the
call `kernel(m, &left[i0], &right[j0], &q3[k0], orthogDim, t)` stores in
`m(e, s, t, iii, jjj, kkk)`. -/
abbrev Kernel (T : Type) := Nat → Nat → Nat → Nat → Nat → Nat → Nat → Nat → Nat → T

/-- The kernel call: every element of the view `m` is assigned. -/
def applyKernel {T : Type} (kernel : Kernel T) (m : A2AMatrixSetNuc) (i0 j0 k0 : Nat)
    (cache : Buffer T) : Except Failure (Buffer T) :=
  if cache.size < m.data + m.total then .error .outOfBounds
  else .ok
    { size := cache.size
      cell := fun p =>
        if m.data ≤ p ∧ p < m.data + m.total then
          let a := m.unindex (p - m.data)
          some (kernel i0 j0 k0 a.1 a.2.1 a.2.2.1 a.2.2.2.1 a.2.2.2.2.1 a.2.2.2.2.2)
        else cache.cell p }

/-- The iterations `(e, s, t, iii, jjj, kkk)` of the cache copy loop, in order. -/
def copyIterations (eng : A2AMatrixNucleonBlockComputation) (ct : CacheTile) :
    List (Nat × Nat × Nat × Nat × Nat × Nat) :=
  (List.range eng.next).flatMap fun e =>
  (List.range eng.nstr).flatMap fun s =>
  (List.range eng.nt).flatMap fun t =>
  (List.range ct.N_iii).flatMap fun iii =>
  (List.range ct.N_jjj).flatMap fun jjj =>
  (List.range ct.N_kkk).map fun kkk => (e, s, t, iii, jjj, kkk)

/-- The destination `(e, t, s, ii+iii, jj+jjj, kk+kkk)` in `mBlock` of the copy
iteration `(e, s, t, iii, jjj, kkk)` of the cache tile `ct`. -/
def copyDest (ct : CacheTile) (it : Nat × Nat × Nat × Nat × Nat × Nat) :
    Nat × Nat × Nat × Nat × Nat × Nat :=
  (it.1, it.2.2.1, it.2.1, ct.ii + it.2.2.2.1, ct.jj + it.2.2.2.2.1, ct.kk + it.2.2.2.2.2)

/-- The cache copy: `mBlock(e,t,s,ii+iii,jj+jjj,kk+kkk) = mCacheBlock(e,s,t,iii,jjj,kkk)`
for every iteration. -/
def cacheCopy {T : Type} (eng : A2AMatrixNucleonBlockComputation) (tile : OuterTile)
    (ct : CacheTile) (mCache mBuf : Buffer T) : Except Failure (Buffer T) :=
  (copyIterations eng ct).foldlM (fun buf it =>
    let d := copyDest ct it
    buf.write ((eng.mBlock tile).index d.1 d.2.1 d.2.2.1 d.2.2.2.1 d.2.2.2.2.1 d.2.2.2.2.2)
      (mCache.read ((eng.mCacheBlock ct).index it.1 it.2.1 it.2.2.1 it.2.2.2.1 it.2.2.2.2.1
        it.2.2.2.2.2))) mBuf

/-- The struct `IoHelper`. -/
structure IoHelper (Md : Type) where
  io : A2AMatrixNucIo
  md : Md
  e : Nat
  s : Nat
  i : Nat
  j : Nat
  k : Nat

/-- The external indices `h.e = f/nstr_` of the task list `nodeIo_` of one rank
(parallel I/O), for `f = myRank; f < next_; f += nRank`. -/
def nodeIoExt (next nstr myRank nRank : Nat) : Option (List Nat) :=
  (forLoop next nRank next myRank).map (List.map fun f => f / nstr)

/-- The task list `nodeIo_` that `execute` builds for the outer tile `tile`. -/
def A2AMatrixNucleonBlockComputation.nodeIo {Md : Type}
    (eng : A2AMatrixNucleonBlockComputation) (N_i N_j N_k : Nat) (tile : OuterTile)
    (ionameFn filenameFn : Nat → String) (metadataFn : Nat → Md) :
    Option (List (IoHelper Md)) :=
  (nodeIoExt eng.next eng.nstr eng.myRank eng.nRank).map (List.map fun e =>
    { io := { filename := filenameFn e, dataname := ionameFn e, nt := eng.nt
              ni := N_i, nj := N_j, nk := N_k }
      md := metadataFn e, e := e, s := 0, i := tile.i, j := tile.j, k := tile.k })

/-- The I/O handler `saveBlock(m, h)` of the engine: the file is created when the
base of the tile is `(0, 0, 0)`, then the block is written. -/
def A2AMatrixNucleonBlockComputation.saveBlock {Md T : Type}
    (eng : A2AMatrixNucleonBlockComputation) (mem : Buffer T) (m : A2AMatrixSetNuc)
    (h : IoHelper Md) (fs : FileSystem Md T) : Except Failure (FileSystem Md T) :=
  let fs1 := if h.i = 0 ∧ h.j = 0 ∧ h.k = 0 then h.io.initFile h.md eng.blockSize fs else fs
  h.io.saveBlock mem m h.e h.s h.i h.j h.k fs1

/-- The body of the outer loops of `execute` for one outer tile: the cache tiles
(kernel call and cache copy), then the parallel I/O of this rank. -/
def A2AMatrixNucleonBlockComputation.executeTile {Md T : Type}
    (eng : A2AMatrixNucleonBlockComputation) (N_i N_j N_k : Nat) (kernel : Kernel T)
    (ionameFn filenameFn : Nat → String) (metadataFn : Nat → Md)
    (st : EngineState Md T) (tile : OuterTile) : Except Failure (EngineState Md T) := do
  let cts ← liftLoop (cacheTiles tile.N_ii tile.N_jj tile.N_kk eng.cacheBlockSize)
  let st1 ← cts.foldlM (fun (s : EngineState Md T) ct => do
    let cache ← applyKernel kernel (eng.mCacheBlock ct) (tile.i + ct.ii) (tile.j + ct.jj)
      (tile.k + ct.kk) s.mCache
    let buf ← cacheCopy eng tile ct cache s.mBuf
    pure { mCache := cache, mBuf := buf, fs := s.fs }) st
  let tasks ← liftLoop (eng.nodeIo N_i N_j N_k tile ionameFn filenameFn metadataFn)
  let fs2 ← tasks.foldlM (fun fs h => eng.saveBlock st1.mBuf (eng.mBlock tile) h fs) st1.fs
  pure { mCache := st1.mCache, mBuf := st1.mBuf, fs := fs2 }

/-- The method `execute` on one rank, `N_i`, `N_j`, `N_k` being the sizes of `left`,
`right` and `q3`. Timers, logs, barriers and the creation of the directory are left
out. -/
def A2AMatrixNucleonBlockComputation.execute {Md T : Type}
    (eng : A2AMatrixNucleonBlockComputation) (N_i N_j N_k : Nat) (kernel : Kernel T)
    (ionameFn filenameFn : Nat → String) (metadataFn : Nat → Md)
    (st : EngineState Md T) : Except Failure (EngineState Md T) := do
  let tiles ← liftLoop (outerTiles N_i N_j N_k eng.blockSize)
  tiles.foldlM (eng.executeTile N_i N_j N_k kernel ionameFn filenameFn metadataFn) st

/-- The body of the cache loops of `execute` for one cache tile: the kernel call on
`mCacheBlock`, then the cache copy into `mBlock`. -/
def A2AMatrixNucleonBlockComputation.cacheTileStep {Md T : Type}
    (eng : A2AMatrixNucleonBlockComputation) (kernel : Kernel T) (tile : OuterTile)
    (s : EngineState Md T) (ct : CacheTile) : Except Failure (EngineState Md T) := do
  let cache ← applyKernel kernel (eng.mCacheBlock ct) (tile.i + ct.ii) (tile.j + ct.jj)
    (tile.k + ct.kk) s.mCache
  let buf ← cacheCopy eng tile ct cache s.mBuf
  pure { mCache := cache, mBuf := buf, fs := s.fs }

/-- The cache loops of `execute` for one outer tile: the first part of `executeTile`,
before the I/O. -/
def A2AMatrixNucleonBlockComputation.cachePhase {Md T : Type}
    (eng : A2AMatrixNucleonBlockComputation) (kernel : Kernel T)
    (st : EngineState Md T) (tile : OuterTile) : Except Failure (EngineState Md T) := do
  let cts ← liftLoop (cacheTiles tile.N_ii tile.N_jj tile.N_kk eng.cacheBlockSize)
  cts.foldlM (eng.cacheTileStep kernel tile) st

/-! ## Definitions used by the statements -/

/-- The summand of the two-point contraction. -/
def contNucTenTerm {R : Type} [CommRing R] [StarRing R] (a b : A2AMatrixNuc R)
    (mu nu i j k : Nat) : R :=
  a.coeff mu i j k * (star (b.coeff nu i j k) - star (b.coeff nu k j i))

/-- The summand of the three-point contraction, with `c(k,m)` factored out. -/
def contNuc3ptUpTerm {R : Type} [CommRing R] [StarRing R] (a : A2AMatrixNuc R)
    (c : A2AMatrix R) (b : A2AMatrixNuc R) (mu nu i j k m : Nat) : R :=
  c.coeff k m *
    (a.coeff mu i j k * star (b.coeff nu i j m)
      - a.coeff mu i j k * star (b.coeff nu m j i)
      + a.coeff mu k j i * star (b.coeff nu m j i)
      - a.coeff mu k j i * star (b.coeff nu i j m))

/-- A spin matrix: `Ns` rows and `Ns` columns. -/
def IsSpinMat {R : Type} (sm : A2AMatrix R) : Prop := sm.rows = Ns ∧ sm.cols = Ns

/-- The tensor `alpha * A1 + beta * A2`, of the shape of `A1`. -/
def A2AMatrixNuc.lincomb {R : Type} [Add R] [Mul R] (alpha : R) (A1 : A2AMatrixNuc R)
    (beta : R) (A2 : A2AMatrixNuc R) : A2AMatrixNuc R :=
  { dim0 := A1.dim0, dim1 := A1.dim1, dim2 := A1.dim2, dim3 := A1.dim3
    coeff := fun mu i j k => alpha * A1.coeff mu i j k + beta * A2.coeff mu i j k }

/-- The entry `(r, c)` of the `4 × 4` matrix whose four `2 × 2` corner blocks all
equal `blk`. -/
def cornerBlocks {R : Type} (blk : Nat → Nat → R) (r c : Nat) : R := blk (r % 2) (c % 2)

/-- The values `start, start + step, ...` below `stop`: the closed form of the
iterations of `for (x = start; x < stop; x += step)` when `step ≥ 1`. -/
def loopValues (stop step start : Nat) : List Nat :=
  (List.range ((stop - start + step - 1) / step)).map fun q => start + q * step

/-- The interval `[a, a + MIN(n - a, step))` of a tile of base `a` along an axis of
extent `n`. -/
def inBlock (n step a x : Nat) : Prop := a ≤ x ∧ x < a + min (n - a) step

/-- The box of mode indices of an outer tile. -/
def OuterTile.contains (tl : OuterTile) (x y z : Nat) : Prop :=
  (tl.i ≤ x ∧ x < tl.i + tl.N_ii) ∧ (tl.j ≤ y ∧ y < tl.j + tl.N_jj) ∧
  (tl.k ≤ z ∧ z < tl.k + tl.N_kk)

/-- The box, in the outer tile, of a cache tile. -/
def CacheTile.contains (ct : CacheTile) (x y z : Nat) : Prop :=
  (ct.ii ≤ x ∧ x < ct.ii + ct.N_iii) ∧ (ct.jj ≤ y ∧ y < ct.jj + ct.N_jjj) ∧
  (ct.kk ≤ z ∧ z < ct.kk + ct.N_kkk)

/-- The cell `(t, s, i, j, k)` of the dataset of the file `name` after a run of the
engine; `none` when the run failed, the file does not exist or the cell has no
determined value. -/
def fileCell {Md T : Type} (r : Except Failure (EngineState Md T)) (name : String)
    (t s i j k : Nat) : Option T :=
  match r with
  | .ok st =>
    match st.fs name with
    | some f => f.dataset.cell t s i j k
    | none => none
  | .error _ => none

/-- The element at position `p` of the buffer `mBuf_` after a run of the engine; `none`
when the run failed or the element has no determined value. -/
def bufCell {Md T : Type} (r : Except Failure (EngineState Md T)) (p : Nat) : Option T :=
  match r with
  | .ok st => st.mBuf.read p
  | .error _ => none

/-! ## Concrete inputs used to instantiate the theorems -/

/-- A tensor of shape `[4, 2, 1, 2]` over the Gaussian integers. -/
def demoA : A2AMatrixNuc GaussianInt :=
  { dim0 := 4, dim1 := 2, dim2 := 1, dim3 := 2, coeff := fun mu i _ k => ⟨mu + i, k⟩ }

/-- A second tensor of shape `[4, 2, 1, 2]`, not symmetric in `(i, k)`. -/
def demoB : A2AMatrixNuc GaussianInt :=
  { dim0 := 4, dim1 := 2, dim2 := 1, dim3 := 2, coeff := fun nu i _ k => ⟨i, nu + 2 * k⟩ }

/-- A `2 × 2` meson matrix. -/
def demoC : A2AMatrix GaussianInt :=
  { rows := 2, cols := 2, coeff := fun k m => ⟨k, m + 1⟩ }

/-- The tensors of `contNucTenTest`: shape `[4, 50, 50, 50]`, every entry `1 + i`. -/
def testTensor : A2AMatrixNuc GaussianInt := A2AMatrixNuc.const 4 50 50 50 ⟨1, 1⟩

/-- The meson matrix of `contNuc3ptUpTest`: `50 × 50`, every entry `1 + i`. -/
def testMeson : A2AMatrix GaussianInt := A2AMatrix.const 50 50 ⟨1, 1⟩

/-- A tensor of shape `[4, 2, 1, 2]` with integer entries. -/
def intA : A2AMatrixNuc ℤ :=
  { dim0 := 4, dim1 := 2, dim2 := 1, dim3 := 2, coeff := fun mu i _ k => mu + i + 3 * k }

/-- A tensor of shape `[5, 2, 1, 2]` with integer entries: its first extent is not that
of `intA`. -/
def intB : A2AMatrixNuc ℤ :=
  { dim0 := 5, dim1 := 2, dim2 := 1, dim3 := 2, coeff := fun nu i _ k => i + nu + 2 * k }

/-- A `4 × 4` matrix with rational entries. -/
def demoMat : A2AMatrix ℚ := { rows := 4, cols := 4, coeff := fun r c => r * 10 + c }

/-- A tensor of shape `[4, 2, 1, 2]` with rational entries. -/
def ratA : A2AMatrixNuc ℚ :=
  { dim0 := 4, dim1 := 2, dim2 := 1, dim3 := 2, coeff := fun mu i _ k => mu + i / 2 + 3 * k }

/-- A second tensor of shape `[4, 2, 1, 2]` with rational entries. -/
def ratB : A2AMatrixNuc ℚ :=
  { dim0 := 4, dim1 := 2, dim2 := 1, dim3 := 2, coeff := fun nu i _ k => i + nu / 3 + 2 * k }

/-- A `2 × 2` meson matrix with rational entries. -/
def ratC : A2AMatrix ℚ := { rows := 2, cols := 2, coeff := fun k m => k + m / 5 }

/-- The kernel of scenario S4: `out[e,s,t,iii,jjj,kkk] = iii + 10 jjj + 100 kkk + 1000 t`
in every cache tile. -/
def s4Kernel : Kernel Nat :=
  fun _ _ _ _ _ t iii jjj kkk => iii + 10 * jjj + 100 * kkk + 1000 * t

/-- The engine of scenario S4: `N_t = 2`, `N_ext = 1`, `N_str = 1`, `B = 4`, `b = 2`,
on a single rank. -/
def s4Engine : A2AMatrixNucleonBlockComputation :=
  { nt := 2, next := 1, nstr := 1, blockSize := 4, cacheBlockSize := 2, myRank := 0, nRank := 1 }

/-- Scenario S4: a full `execute` with `N_i = N_j = N_k = 4`, on no files. -/
def s4Run : Except Failure (EngineState Unit Nat) :=
  s4Engine.execute 4 4 4 s4Kernel (fun e => "nucleon_" ++ toString e)
    (fun e => "a2a_" ++ toString e ++ ".h5") (fun _ => ()) (s4Engine.init fun _ => none)

/-- An engine with two external indices, two time slices and one structure. -/
def twoExtEngine : A2AMatrixNucleonBlockComputation :=
  { nt := 2, next := 2, nstr := 1, blockSize := 1, cacheBlockSize := 1, myRank := 0, nRank := 1 }

/-- A handle declared with `N_t = 2` and `N_i = N_j = N_k = 1`. -/
def smallIo : A2AMatrixNucIo :=
  { filename := "a2a_0.h5", dataname := "nucleon_0", nt := 2, ni := 1, nj := 1, nk := 1 }

/-- The tile written in the round trip on `smallIo`: `2 * Ns` elements `100 + p`. -/
def smallTile : Buffer Nat := { size := 8, cell := fun p => some (100 + p) }

/-- The vector `v` handed to `load`: no time slice is filled. -/
def emptyV : Nat → A2AMatrixNuc (Option Nat) := fun _ => A2AMatrixNuc.const 0 0 0 0 none

/-- The handle of scenario S5: declared `N_t = 8` and `(N_i, N_j, N_k) = (6, 8, 8)`. -/
def chunkIo : A2AMatrixNucIo :=
  { filename := "a2a_0.h5", dataname := "nucleon_0", nt := 8, ni := 6, nj := 8, nk := 8 }

/-- The file of scenario S5: dataset of extents `[8, 4, 6, 8, 8]`, chunks `[1, 4, 4, 4, 4]`. -/
def chunkFs : FileSystem Unit Nat := fun name =>
  if name = "a2a_0.h5" then
    some { dataname := "nucleon_0", metadata := (),
           dataset := { dim := ⟨8, 4, 6, 8, 8⟩, chunk := some ⟨1, 4, 4, 4, 4⟩,
                        cell := fun _ _ _ _ _ => none } }
  else none

/-- A handle declared with `N_t = 4` and `(N_i, N_j, N_k) = (2, 1, 1)`. -/
def slabIo : A2AMatrixNucIo :=
  { filename := "a2a_0.h5", dataname := "nucleon_0", nt := 4, ni := 2, nj := 1, nk := 1 }

/-- A file with a dataset of extents `[4, 4, 2, 1, 1]` and chunks `[1, 4, 1, 1, 1]`. -/
def slabFs : FileSystem Unit Nat := fun name =>
  if name = "a2a_0.h5" then
    some { dataname := "nucleon_0", metadata := (),
           dataset := { dim := ⟨4, 4, 2, 1, 1⟩, chunk := some ⟨1, 4, 1, 1, 1⟩,
                        cell := fun t s i j k => some (t + s + i + j + k) } }
  else none

/-- A handle declared with `N_t = 4` and `N_i = N_j = N_k = 2`. -/
def cubeIo : A2AMatrixNucIo :=
  { filename := "a2a_0.h5", dataname := "nucleon_0", nt := 4, ni := 2, nj := 2, nk := 2 }

/-- The file that `initFile` creates for `cubeIo` with chunk size 2: its dataset has the
extents `[4, 4, 2, 2, 2]`, which pass every check of `load` on `cubeIo`. -/
def cubeFs : FileSystem Unit Nat := cubeIo.initFile () 2 fun _ => none

/-- A grid with a single rank along time and four time slices. -/
def oneRankGrid : GridCartesian :=
  { processors3 := 1, processor_coor3 := 0, localDimensions3 := 4, globalDimensions3 := 4 }

/-- An engine with two external indices and two structures, on a single rank. -/
def twoStrEngine : A2AMatrixNucleonBlockComputation :=
  { nt := 1, next := 2, nstr := 2, blockSize := 1, cacheBlockSize := 1, myRank := 0, nRank := 1 }

/-- A tensor of shape `[4, 1, 1, 2]` with integer entries: its mode extents `N_i = 1`
and `N_k = 2` differ. -/
def intSkew : A2AMatrixNuc ℤ :=
  { dim0 := 4, dim1 := 1, dim2 := 1, dim3 := 2, coeff := fun mu _ _ k => mu + k }

/-- A handle declared with `N_t = 4` and no mode extents: `N_i = N_j = N_k = 0`. -/
def adoptIo : A2AMatrixNucIo :=
  { filename := "a2a_0.h5", dataname := "nucleon_0", nt := 4, ni := 0, nj := 0, nk := 0 }

/-- The file of `cubeFs`. -/
def cubeFile : H5File Unit Nat :=
  { dataname := "nucleon_0", metadata := (),
    dataset := { dim := ⟨4, 4, 2, 2, 2⟩, chunk := some ⟨1, 4, 2, 2, 2⟩,
                 cell := fun _ _ _ _ _ => none } }

theorem foldlM_option_inv {σ α : Type} (P : σ → Prop) (f : σ → α → Option σ)
    (g : σ → α → σ) (l : List α)
    (h : ∀ s, P s → ∀ x ∈ l, f s x = some (g s x) ∧ P (g s x)) (s : σ) (hs : P s) :
    l.foldlM f s = some (l.foldl g s) ∧ P (l.foldl g s) := by
  induction l generalizing s with
  | nil => exact ⟨rfl, hs⟩
  | cons x xs ih =>
    have hx := h s hs x (List.mem_cons_self x xs)
    have hrest : ∀ s, P s → ∀ y ∈ xs, f s y = some (g s y) ∧ P (g s y) :=
      fun s2 hs2 y hy => h s2 hs2 y (List.mem_cons_of_mem x hy)
    have := ih hrest (g s x) hx.2
    simp only [List.foldlM, List.foldl, hx.1]
    simpa using this

theorem foldl_congr_mem {σ α : Type} (f g : σ → α → σ) (l : List α)
    (h : ∀ s, ∀ x ∈ l, f s x = g s x) (s : σ) : l.foldl f s = l.foldl g s := by
  induction l generalizing s with
  | nil => rfl
  | cons x xs ih =>
    simp only [List.foldl]
    rw [h s x (List.mem_cons_self x xs)]
    exact ih (fun s2 y hy => h s2 y (List.mem_cons_of_mem x hy)) (g s x)

theorem A2AMatrix.ext_coeff {R : Type} (m n : A2AMatrix R) (hr : m.rows = n.rows)
    (hc : m.cols = n.cols) (h : ∀ r c, m.coeff r c = n.coeff r c) : m = n := by
  obtain ⟨r1, c1, f1⟩ := m
  obtain ⟨r2, c2, f2⟩ := n
  simp only at hr hc h
  have hf : f1 = f2 := funext fun r => funext fun c => h r c
  subst hr; subst hc; subst hf
  rfl

theorem addAt_zero {R : Type} [AddMonoid R] (m : A2AMatrix R) (r c : Nat) :
    m.addAt r c 0 = m := by
  apply A2AMatrix.ext_coeff <;> simp [A2AMatrix.addAt]

theorem addAt_addAt {R : Type} [AddMonoid R] (m : A2AMatrix R) (r c : Nat) (v w : R) :
    (m.addAt r c v).addAt r c w = m.addAt r c (v + w) := by
  apply A2AMatrix.ext_coeff
  · rfl
  · rfl
  · intro r2 c2
    simp only [A2AMatrix.addAt]
    split_ifs <;> simp [add_assoc]

/-- Accumulating `t k` for `k < n` into one cell adds the sum of the `t k`. -/
theorem foldl_addAt_range {R : Type} [AddCommMonoid R] (m : A2AMatrix R) (r c n : Nat)
    (t : Nat → R) :
    (List.range n).foldl (fun sm k => sm.addAt r c (t k)) m
      = m.addAt r c (∑ k ∈ Finset.range n, t k) := by
  induction n with
  | zero => simp [addAt_zero]
  | succ n ih =>
    rw [List.range_succ, List.foldl_append, ih, Finset.sum_range_succ]
    simp [addAt_addAt]

theorem addAt_rows {R : Type} [Add R] (m : A2AMatrix R) (r c : Nat) (v : R) :
    (m.addAt r c v).rows = m.rows := rfl

theorem addAt_cols {R : Type} [Add R] (m : A2AMatrix R) (r c : Nat) (v : R) :
    (m.addAt r c v).cols = m.cols := rfl

theorem addAt_coeff {R : Type} [Add R] (m : A2AMatrix R) (r c : Nat) (v : R) (r2 c2 : Nat) :
    (m.addAt r c v).coeff r2 c2
      = if r2 = r ∧ c2 = c then m.coeff r2 c2 + v else m.coeff r2 c2 := rfl

/-- One accumulation loop: if every iteration adds `t x` to the cell `(r, c)`, the loop
adds the sum of the `t x`. -/
theorem foldlM_addAt_range {R : Type} [AddCommMonoid R] (P : A2AMatrix R → Prop)
    (hP : ∀ sm r c v, P sm → P (sm.addAt r c v)) (n r c : Nat)
    (f : A2AMatrix R → Nat → Option (A2AMatrix R)) (t : Nat → R)
    (h : ∀ sm, P sm → ∀ x, x < n → f sm x = some (sm.addAt r c (t x)))
    (sm : A2AMatrix R) (hsm : P sm) :
    (List.range n).foldlM f sm = some (sm.addAt r c (∑ x ∈ Finset.range n, t x)) := by
  have key := foldlM_option_inv P f (fun sm x => sm.addAt r c (t x)) (List.range n)
    (fun s hs x hx => ⟨h s hs x (List.mem_range.1 hx), hP _ _ _ _ hs⟩) sm hsm
  rw [key.1, foldl_addAt_range]

/-- Coefficients after a loop over the columns `nu < m` of row `mu`, each iteration
adding `S nu` to the cell `(mu, nu)`. -/
theorem foldl_addAt_row {R : Type} [AddCommMonoid R] (S : Nat → R) (mu m : Nat)
    (sm : A2AMatrix R) :
    ((List.range m).foldl (fun s nu => s.addAt mu nu (S nu)) sm).rows = sm.rows ∧
    ((List.range m).foldl (fun s nu => s.addAt mu nu (S nu)) sm).cols = sm.cols ∧
    ∀ r c, ((List.range m).foldl (fun s nu => s.addAt mu nu (S nu)) sm).coeff r c
      = if r = mu ∧ c < m then sm.coeff r c + S c else sm.coeff r c := by
  induction m with
  | zero => simp
  | succ m ih =>
    rw [List.range_succ, List.foldl_append]
    obtain ⟨h1, h2, h3⟩ := ih
    refine ⟨by simpa [addAt_rows] using h1, by simpa [addAt_cols] using h2, ?_⟩
    intro r c
    simp only [List.foldl]
    rw [addAt_coeff, h3]
    by_cases hr : r = mu
    · by_cases hc : c = m
      · subst hc; simp [hr]
      · by_cases hlt : c < m
        · have : c < m + 1 := by omega
          simp [hr, hc, hlt, this]
        · have : ¬ c < m + 1 := by omega
          simp [hr, hc, hlt, this]
    · simp [hr]

/-- Coefficients after the two outer loops over `mu < n` and `nu < m`. -/
theorem foldl_addAt_cells {R : Type} [AddCommMonoid R] (S : Nat → Nat → R) (n m : Nat)
    (sm : A2AMatrix R) :
    ((List.range n).foldl (fun s mu =>
        (List.range m).foldl (fun s2 nu => s2.addAt mu nu (S mu nu)) s) sm).rows = sm.rows ∧
    ((List.range n).foldl (fun s mu =>
        (List.range m).foldl (fun s2 nu => s2.addAt mu nu (S mu nu)) s) sm).cols = sm.cols ∧
    ∀ r c, ((List.range n).foldl (fun s mu =>
        (List.range m).foldl (fun s2 nu => s2.addAt mu nu (S mu nu)) s) sm).coeff r c
      = if r < n ∧ c < m then sm.coeff r c + S r c else sm.coeff r c := by
  induction n with
  | zero => simp
  | succ n ih =>
    rw [List.range_succ, List.foldl_append]
    obtain ⟨h1, h2, h3⟩ := ih
    simp only [List.foldl]
    obtain ⟨g1, g2, g3⟩ := foldl_addAt_row (S n) n m
      ((List.range n).foldl (fun s mu =>
        (List.range m).foldl (fun s2 nu => s2.addAt mu nu (S mu nu)) s) sm)
    refine ⟨g1.trans h1, g2.trans h2, ?_⟩
    intro r c
    rw [g3, h3]
    by_cases hr : r = n
    · subst hr; simp
    · by_cases hlt : r < n
      · have : r < n + 1 := by omega
        simp [hr, hlt, this]
      · have : ¬ r < n + 1 := by omega
        simp [hr, hlt, this]

/-! ## The two-point contraction -/

theorem isSpinMat_addAt {R : Type} [Add R] (sm : A2AMatrix R) (r c : Nat) (v : R)
    (h : IsSpinMat sm) : IsSpinMat (sm.addAt r c v) := h

theorem contNucTenBody_eq {R : Type} [CommRing R] [StarRing R] (a b : A2AMatrixNuc R)
    (mu nu i j k : Nat) (sm : A2AMatrix R)
    (ha : mu < a.dim0 ∧ i < a.dim1 ∧ j < a.dim2 ∧ k < a.dim3)
    (hb : nu < b.dim0 ∧ i < b.dim1 ∧ j < b.dim2 ∧ k < b.dim3)
    (hb2 : nu < b.dim0 ∧ k < b.dim1 ∧ j < b.dim2 ∧ i < b.dim3)
    (hsm : mu < sm.rows ∧ nu < sm.cols) :
    contNucTenBody a b mu nu i j k sm
      = some (sm.addAt mu nu (contNucTenTerm a b mu nu i j k)) := by
  unfold contNucTenBody A2AMatrixNuc.at? A2AMatrix.addAt?
  rw [if_pos ha, if_pos hb, if_pos hb2]
  simp only [Option.bind_eq_bind, Option.some_bind, if_pos hsm]
  rfl

theorem contNucTen_loop_k {R : Type} [CommRing R] [StarRing R] (a b : A2AMatrixNuc R)
    (N Nj : Nat)
    (ha : a.dim0 = Ns ∧ a.dim1 = N ∧ a.dim2 = Nj ∧ a.dim3 = N)
    (hb : b.dim0 = Ns ∧ b.dim1 = N ∧ b.dim2 = Nj ∧ b.dim3 = N)
    (mu nu i j : Nat) (hmu : mu < Ns) (hnu : nu < Ns) (hi : i < N) (hj : j < Nj)
    (sm : A2AMatrix R) (hsm : IsSpinMat sm) :
    (List.range N).foldlM (fun s k => contNucTenBody a b mu nu i j k s) sm
      = some (sm.addAt mu nu (∑ k ∈ Finset.range N, contNucTenTerm a b mu nu i j k)) := by
  refine foldlM_addAt_range IsSpinMat (fun s r c v h => isSpinMat_addAt s r c v h) N mu nu _
    (fun k => contNucTenTerm a b mu nu i j k) ?_ sm hsm
  intro s hs k hk
  obtain ⟨ha0, ha1, ha2, ha3⟩ := ha
  obtain ⟨hb0, hb1, hb2, hb3⟩ := hb
  obtain ⟨hs1, hs2⟩ := hs
  exact contNucTenBody_eq a b mu nu i j k s
    ⟨by omega, by omega, by omega, by omega⟩ ⟨by omega, by omega, by omega, by omega⟩
    ⟨by omega, by omega, by omega, by omega⟩ ⟨by omega, by omega⟩

theorem contNucTen_loop_j {R : Type} [CommRing R] [StarRing R] (a b : A2AMatrixNuc R)
    (N Nj : Nat)
    (ha : a.dim0 = Ns ∧ a.dim1 = N ∧ a.dim2 = Nj ∧ a.dim3 = N)
    (hb : b.dim0 = Ns ∧ b.dim1 = N ∧ b.dim2 = Nj ∧ b.dim3 = N)
    (mu nu i : Nat) (hmu : mu < Ns) (hnu : nu < Ns) (hi : i < N)
    (sm : A2AMatrix R) (hsm : IsSpinMat sm) :
    (List.range Nj).foldlM (fun s j =>
        (List.range N).foldlM (fun s2 k => contNucTenBody a b mu nu i j k s2) s) sm
      = some (sm.addAt mu nu (∑ j ∈ Finset.range Nj, ∑ k ∈ Finset.range N,
          contNucTenTerm a b mu nu i j k)) :=
  foldlM_addAt_range IsSpinMat (fun s r c v h => isSpinMat_addAt s r c v h) Nj mu nu _
    (fun j => ∑ k ∈ Finset.range N, contNucTenTerm a b mu nu i j k)
    (fun s hs j hj => contNucTen_loop_k a b N Nj ha hb mu nu i j hmu hnu hi hj s hs) sm hsm

theorem contNucTen_loop_i {R : Type} [CommRing R] [StarRing R] (a b : A2AMatrixNuc R)
    (N Nj : Nat)
    (ha : a.dim0 = Ns ∧ a.dim1 = N ∧ a.dim2 = Nj ∧ a.dim3 = N)
    (hb : b.dim0 = Ns ∧ b.dim1 = N ∧ b.dim2 = Nj ∧ b.dim3 = N)
    (mu nu : Nat) (hmu : mu < Ns) (hnu : nu < Ns)
    (sm : A2AMatrix R) (hsm : IsSpinMat sm) :
    (List.range N).foldlM (fun s i =>
      (List.range Nj).foldlM (fun s2 j =>
        (List.range N).foldlM (fun s3 k => contNucTenBody a b mu nu i j k s3) s2) s) sm
      = some (sm.addAt mu nu (∑ i ∈ Finset.range N, ∑ j ∈ Finset.range Nj,
          ∑ k ∈ Finset.range N, contNucTenTerm a b mu nu i j k)) :=
  foldlM_addAt_range IsSpinMat (fun s r c v h => isSpinMat_addAt s r c v h) N mu nu _
    (fun i => ∑ j ∈ Finset.range Nj, ∑ k ∈ Finset.range N, contNucTenTerm a b mu nu i j k)
    (fun s hs i hi => contNucTen_loop_j a b N Nj ha hb mu nu i hmu hnu hi s hs) sm hsm

/-- The two outer loops over `mu` and `nu`, given what the inner loops do on one cell. -/
theorem foldlM_cells {R : Type} [AddCommMonoid R]
    (f : Nat → Nat → A2AMatrix R → Option (A2AMatrix R)) (S : Nat → Nat → R)
    (h : ∀ mu nu, mu < Ns → nu < Ns → ∀ sm, IsSpinMat sm →
      f mu nu sm = some (sm.addAt mu nu (S mu nu)))
    (out : A2AMatrix R) (hout : IsSpinMat out) :
    (List.range Ns).foldlM (fun s mu => (List.range Ns).foldlM (fun s2 nu => f mu nu s2) s) out
      = some ((List.range Ns).foldl (fun s mu =>
          (List.range Ns).foldl (fun s2 nu => s2.addAt mu nu (S mu nu)) s) out) := by
  refine (foldlM_option_inv IsSpinMat _ (fun s mu =>
      (List.range Ns).foldl (fun s2 nu => s2.addAt mu nu (S mu nu)) s) _ ?_ out hout).1
  intro s hs mu hmu
  refine foldlM_option_inv IsSpinMat _ (fun s2 nu => s2.addAt mu nu (S mu nu)) _ ?_ s hs
  intro s2 hs2 nu hnu
  exact ⟨h mu nu (List.mem_range.1 hmu) (List.mem_range.1 hnu) s2 hs2, hs2⟩

/-- The pure form of `contNucTen`: on tensors of one shape `[Ns, N, Nj, N]` and an
`Ns × Ns` matrix no access is out of range, and the loops are the pure folds. -/
theorem contNucTen_eq_foldl {R : Type} [CommRing R] [StarRing R] (uninit : Nat × Nat × Nat)
    (out : A2AMatrix R) (a b : A2AMatrixNuc R) (N Nj : Nat)
    (ha : a.dim0 = Ns ∧ a.dim1 = N ∧ a.dim2 = Nj ∧ a.dim3 = N)
    (hb : b.dim0 = Ns ∧ b.dim1 = N ∧ b.dim2 = Nj ∧ b.dim3 = N)
    (hout : out.rows = Ns ∧ out.cols = Ns) :
    contNucTen uninit out a b = some ((List.range Ns).foldl (fun s mu =>
      (List.range Ns).foldl (fun s2 nu => s2.addAt mu nu
        (∑ i ∈ Finset.range N, ∑ j ∈ Finset.range Nj, ∑ k ∈ Finset.range N,
          contNucTenTerm a b mu nu i j k)) s) out) := by
  have hbounds : modeBounds uninit a b = (N, Nj, N) := by
    simp [modeBounds, ha.2.1, ha.2.2.1, ha.2.2.2, hb.2.1, hb.2.2.1, hb.2.2.2]
  unfold contNucTen
  simp only [hbounds]
  exact foldlM_cells _ _
    (fun mu nu hmu hnu sm hsm => contNucTen_loop_i a b N Nj ha hb mu nu hmu hnu sm hsm)
    out hout

/-- C1. Two-point contraction: for tensors `A`, `B` of one shape `[Ns, N, Nj, N]` and
an `Ns × Ns` matrix `out`, `contNucTen(out, A, B)` returns (no access is out of
range) an `Ns × Ns` matrix whose entry `(mu, nu)` is
`out[mu,nu] + Σ_{i,j,k} A[mu,i,j,k] * (conj B[nu,i,j,k] - conj B[nu,k,j,i])`: it
accumulates into `out` and does not overwrite it. -/
theorem contNucTen_accumulates {R : Type} [CommRing R] [StarRing R]
    (uninit : Nat × Nat × Nat) (out : A2AMatrix R) (A B : A2AMatrixNuc R) (N Nj : Nat)
    (hA : A.dim0 = Ns ∧ A.dim1 = N ∧ A.dim2 = Nj ∧ A.dim3 = N)
    (hB : B.dim0 = Ns ∧ B.dim1 = N ∧ B.dim2 = Nj ∧ B.dim3 = N)
    (hout : out.rows = Ns ∧ out.cols = Ns) :
    ∃ res, contNucTen uninit out A B = some res ∧ res.rows = Ns ∧ res.cols = Ns ∧
      ∀ mu nu, mu < Ns → nu < Ns →
        res.coeff mu nu = out.coeff mu nu +
          ∑ i ∈ Finset.range N, ∑ j ∈ Finset.range Nj, ∑ k ∈ Finset.range N,
            A.coeff mu i j k * (star (B.coeff nu i j k) - star (B.coeff nu k j i)) := by
  refine ⟨_, contNucTen_eq_foldl uninit out A B N Nj hA hB hout, ?_⟩
  obtain ⟨h1, h2, h3⟩ := foldl_addAt_cells (fun mu nu =>
      ∑ i ∈ Finset.range N, ∑ j ∈ Finset.range Nj, ∑ k ∈ Finset.range N,
        contNucTenTerm A B mu nu i j k) Ns Ns out
  refine ⟨h1.trans hout.1, h2.trans hout.2, ?_⟩
  intro mu nu hmu hnu
  rw [h3, if_pos ⟨hmu, hnu⟩]
  rfl

/-- The two-point contraction on `demoA`, `demoB` (shape `[4, 2, 1, 2]`) and the `4 × 4`
matrix of ones. -/
theorem contNucTen_accumulates_witness :
    (demoA.dim0 = Ns ∧ demoA.dim1 = 2 ∧ demoA.dim2 = 1 ∧ demoA.dim3 = 2) ∧
    (demoB.dim0 = Ns ∧ demoB.dim1 = 2 ∧ demoB.dim2 = 1 ∧ demoB.dim3 = 2) ∧
    ∃ res, contNucTen (7, 7, 7) (A2AMatrix.const 4 4 (1 : GaussianInt)) demoA demoB = some res ∧
      res.rows = Ns ∧ res.cols = Ns ∧
      ∀ mu nu, mu < Ns → nu < Ns →
        res.coeff mu nu = (A2AMatrix.const 4 4 (1 : GaussianInt)).coeff mu nu +
          ∑ i ∈ Finset.range 2, ∑ j ∈ Finset.range 1, ∑ k ∈ Finset.range 2,
            demoA.coeff mu i j k
              * (star (demoB.coeff nu i j k) - star (demoB.coeff nu k j i)) :=
  ⟨⟨rfl, rfl, rfl, rfl⟩, ⟨rfl, rfl, rfl, rfl⟩,
    contNucTen_accumulates (7, 7, 7) (A2AMatrix.const 4 4 1) demoA demoB 2 1
      ⟨rfl, rfl, rfl, rfl⟩ ⟨rfl, rfl, rfl, rfl⟩ ⟨rfl, rfl⟩⟩

/-! ## The three-point contraction -/

theorem contNuc3ptUpBody_eq {R : Type} [CommRing R] [StarRing R] (a : A2AMatrixNuc R)
    (c : A2AMatrix R) (b : A2AMatrixNuc R) (mu nu i j k m : Nat) (sm : A2AMatrix R)
    (ha : mu < a.dim0 ∧ i < a.dim1 ∧ j < a.dim2 ∧ k < a.dim3)
    (ha2 : k < a.dim1 ∧ i < a.dim3)
    (hc : k < c.rows ∧ m < c.cols)
    (hb : nu < b.dim0 ∧ i < b.dim1 ∧ j < b.dim2 ∧ m < b.dim3)
    (hb2 : m < b.dim1 ∧ i < b.dim3)
    (hsm : mu < sm.rows ∧ nu < sm.cols) :
    contNuc3ptUpBody a c b mu nu i j k m sm
      = some (sm.addAt mu nu (contNuc3ptUpTerm a c b mu nu i j k m)) := by
  have e : a.coeff mu i j k * c.coeff k m * star (b.coeff nu i j m)
        - a.coeff mu i j k * c.coeff k m * star (b.coeff nu m j i)
        + a.coeff mu k j i * c.coeff k m * star (b.coeff nu m j i)
        - a.coeff mu k j i * c.coeff k m * star (b.coeff nu i j m)
      = contNuc3ptUpTerm a c b mu nu i j k m := by
    unfold contNuc3ptUpTerm
    ring
  have ha3 : mu < a.dim0 ∧ k < a.dim1 ∧ j < a.dim2 ∧ i < a.dim3 :=
    ⟨ha.1, ha2.1, ha.2.2.1, ha2.2⟩
  have hb3 : nu < b.dim0 ∧ m < b.dim1 ∧ j < b.dim2 ∧ i < b.dim3 :=
    ⟨hb.1, hb2.1, hb.2.2.1, hb2.2⟩
  unfold contNuc3ptUpBody A2AMatrixNuc.at? A2AMatrix.at? A2AMatrix.addAt?
  rw [if_pos ha, if_pos ha3, if_pos hc, if_pos hb, if_pos hb3]
  simp only [Option.bind_eq_bind, Option.some_bind, if_pos hsm]
  exact congrArg (fun v => some (sm.addAt mu nu v)) e

theorem contNuc3ptUp_loop_m {R : Type} [CommRing R] [StarRing R] (a : A2AMatrixNuc R)
    (c : A2AMatrix R) (b : A2AMatrixNuc R) (N Nj : Nat)
    (ha : a.dim0 = Ns ∧ a.dim1 = N ∧ a.dim2 = Nj ∧ a.dim3 = N)
    (hb : b.dim0 = Ns ∧ b.dim1 = N ∧ b.dim2 = Nj ∧ b.dim3 = N)
    (hc : c.rows = N ∧ c.cols = N)
    (mu nu i j k : Nat) (hmu : mu < Ns) (hnu : nu < Ns) (hi : i < N) (hj : j < Nj)
    (hk : k < N) (sm : A2AMatrix R) (hsm : IsSpinMat sm) :
    (List.range N).foldlM (fun s m => contNuc3ptUpBody a c b mu nu i j k m s) sm
      = some (sm.addAt mu nu
          (∑ m ∈ Finset.range N, contNuc3ptUpTerm a c b mu nu i j k m)) := by
  refine foldlM_addAt_range IsSpinMat (fun s r c v h => isSpinMat_addAt s r c v h) N mu nu _
    (fun m => contNuc3ptUpTerm a c b mu nu i j k m) ?_ sm hsm
  intro s hs m hm
  obtain ⟨ha0, ha1, ha2, ha3⟩ := ha
  obtain ⟨hb0, hb1, hb2, hb3⟩ := hb
  obtain ⟨hc1, hc2⟩ := hc
  obtain ⟨hs1, hs2⟩ := hs
  exact contNuc3ptUpBody_eq a c b mu nu i j k m s
    ⟨by omega, by omega, by omega, by omega⟩ ⟨by omega, by omega⟩ ⟨by omega, by omega⟩
    ⟨by omega, by omega, by omega, by omega⟩ ⟨by omega, by omega⟩ ⟨by omega, by omega⟩

theorem contNuc3ptUp_loop_k {R : Type} [CommRing R] [StarRing R] (a : A2AMatrixNuc R)
    (c : A2AMatrix R) (b : A2AMatrixNuc R) (N Nj : Nat)
    (ha : a.dim0 = Ns ∧ a.dim1 = N ∧ a.dim2 = Nj ∧ a.dim3 = N)
    (hb : b.dim0 = Ns ∧ b.dim1 = N ∧ b.dim2 = Nj ∧ b.dim3 = N)
    (hc : c.rows = N ∧ c.cols = N)
    (mu nu i j : Nat) (hmu : mu < Ns) (hnu : nu < Ns) (hi : i < N) (hj : j < Nj)
    (sm : A2AMatrix R) (hsm : IsSpinMat sm) :
    (List.range N).foldlM (fun s k =>
        (List.range N).foldlM (fun s2 m => contNuc3ptUpBody a c b mu nu i j k m s2) s) sm
      = some (sm.addAt mu nu (∑ k ∈ Finset.range N, ∑ m ∈ Finset.range N,
          contNuc3ptUpTerm a c b mu nu i j k m)) :=
  foldlM_addAt_range IsSpinMat (fun s r c v h => isSpinMat_addAt s r c v h) N mu nu _
    (fun k => ∑ m ∈ Finset.range N, contNuc3ptUpTerm a c b mu nu i j k m)
    (fun s hs k hk =>
      contNuc3ptUp_loop_m a c b N Nj ha hb hc mu nu i j k hmu hnu hi hj hk s hs) sm hsm

theorem contNuc3ptUp_loop_j {R : Type} [CommRing R] [StarRing R] (a : A2AMatrixNuc R)
    (c : A2AMatrix R) (b : A2AMatrixNuc R) (N Nj : Nat)
    (ha : a.dim0 = Ns ∧ a.dim1 = N ∧ a.dim2 = Nj ∧ a.dim3 = N)
    (hb : b.dim0 = Ns ∧ b.dim1 = N ∧ b.dim2 = Nj ∧ b.dim3 = N)
    (hc : c.rows = N ∧ c.cols = N)
    (mu nu i : Nat) (hmu : mu < Ns) (hnu : nu < Ns) (hi : i < N)
    (sm : A2AMatrix R) (hsm : IsSpinMat sm) :
    (List.range Nj).foldlM (fun s j =>
      (List.range N).foldlM (fun s2 k =>
        (List.range N).foldlM (fun s3 m => contNuc3ptUpBody a c b mu nu i j k m s3) s2) s) sm
      = some (sm.addAt mu nu (∑ j ∈ Finset.range Nj, ∑ k ∈ Finset.range N,
          ∑ m ∈ Finset.range N, contNuc3ptUpTerm a c b mu nu i j k m)) :=
  foldlM_addAt_range IsSpinMat (fun s r c v h => isSpinMat_addAt s r c v h) Nj mu nu _
    (fun j => ∑ k ∈ Finset.range N, ∑ m ∈ Finset.range N,
      contNuc3ptUpTerm a c b mu nu i j k m)
    (fun s hs j hj =>
      contNuc3ptUp_loop_k a c b N Nj ha hb hc mu nu i j hmu hnu hi hj s hs) sm hsm

theorem contNuc3ptUp_loop_i {R : Type} [CommRing R] [StarRing R] (a : A2AMatrixNuc R)
    (c : A2AMatrix R) (b : A2AMatrixNuc R) (N Nj : Nat)
    (ha : a.dim0 = Ns ∧ a.dim1 = N ∧ a.dim2 = Nj ∧ a.dim3 = N)
    (hb : b.dim0 = Ns ∧ b.dim1 = N ∧ b.dim2 = Nj ∧ b.dim3 = N)
    (hc : c.rows = N ∧ c.cols = N)
    (mu nu : Nat) (hmu : mu < Ns) (hnu : nu < Ns)
    (sm : A2AMatrix R) (hsm : IsSpinMat sm) :
    (List.range N).foldlM (fun s i =>
      (List.range Nj).foldlM (fun s2 j =>
        (List.range N).foldlM (fun s3 k =>
          (List.range N).foldlM (fun s4 m =>
            contNuc3ptUpBody a c b mu nu i j k m s4) s3) s2) s) sm
      = some (sm.addAt mu nu (∑ i ∈ Finset.range N, ∑ j ∈ Finset.range Nj,
          ∑ k ∈ Finset.range N, ∑ m ∈ Finset.range N,
            contNuc3ptUpTerm a c b mu nu i j k m)) :=
  foldlM_addAt_range IsSpinMat (fun s r c v h => isSpinMat_addAt s r c v h) N mu nu _
    (fun i => ∑ j ∈ Finset.range Nj, ∑ k ∈ Finset.range N, ∑ m ∈ Finset.range N,
      contNuc3ptUpTerm a c b mu nu i j k m)
    (fun s hs i hi =>
      contNuc3ptUp_loop_j a c b N Nj ha hb hc mu nu i hmu hnu hi s hs) sm hsm

/-- The pure form of `contNuc3ptUp` on tensors of shape `[Ns, N, Nj, N]`, an `N × N`
meson matrix and an `Ns × Ns` spin matrix. -/
theorem contNuc3ptUp_eq_foldl {R : Type} [CommRing R] [StarRing R]
    (uninit : Nat × Nat × Nat) (uninitM : Nat)
    (out : A2AMatrix R) (a : A2AMatrixNuc R) (c : A2AMatrix R) (b : A2AMatrixNuc R)
    (N Nj : Nat)
    (ha : a.dim0 = Ns ∧ a.dim1 = N ∧ a.dim2 = Nj ∧ a.dim3 = N)
    (hb : b.dim0 = Ns ∧ b.dim1 = N ∧ b.dim2 = Nj ∧ b.dim3 = N)
    (hc : c.rows = N ∧ c.cols = N)
    (hout : out.rows = Ns ∧ out.cols = Ns) :
    contNuc3ptUp uninit uninitM out a c b = some ((List.range Ns).foldl (fun s mu =>
      (List.range Ns).foldl (fun s2 nu => s2.addAt mu nu
        (∑ i ∈ Finset.range N, ∑ j ∈ Finset.range Nj, ∑ k ∈ Finset.range N,
          ∑ m ∈ Finset.range N, contNuc3ptUpTerm a c b mu nu i j k m)) s) out) := by
  have hbounds : modeBounds uninit a b = (N, Nj, N) := by
    simp [modeBounds, ha.2.1, ha.2.2.1, ha.2.2.2, hb.2.1, hb.2.2.1, hb.2.2.2]
  have hm : mesonBound uninitM N c = N := by simp [mesonBound, hc.1, hc.2]
  unfold contNuc3ptUp
  simp only [hbounds, hm]
  exact foldlM_cells _ _
    (fun mu nu hmu hnu sm hsm => contNuc3ptUp_loop_i a c b N Nj ha hb hc mu nu hmu hnu sm hsm)
    out hout

/-- C2. Three-point contraction: for `A`, `B` of shape `[Ns, N, Nj, N]`, a square
`N × N` matrix `C` and an `Ns × Ns` matrix `out`, `contNuc3ptUp(out, A, C, B)`
returns an `Ns × Ns` matrix whose entry `(mu, nu)` is `out[mu,nu]` plus the sum over
`i, k, m < N` and `j < Nj` of `C[k,m] * (A[mu,i,j,k] conj B[nu,i,j,m]
- A[mu,i,j,k] conj B[nu,m,j,i] + A[mu,k,j,i] conj B[nu,m,j,i]
- A[mu,k,j,i] conj B[nu,i,j,m])`. -/
theorem contNuc3ptUp_accumulates {R : Type} [CommRing R] [StarRing R]
    (uninit : Nat × Nat × Nat) (uninitM : Nat)
    (out : A2AMatrix R) (A : A2AMatrixNuc R) (C : A2AMatrix R) (B : A2AMatrixNuc R)
    (N Nj : Nat)
    (hA : A.dim0 = Ns ∧ A.dim1 = N ∧ A.dim2 = Nj ∧ A.dim3 = N)
    (hB : B.dim0 = Ns ∧ B.dim1 = N ∧ B.dim2 = Nj ∧ B.dim3 = N)
    (hC : C.rows = N ∧ C.cols = N)
    (hout : out.rows = Ns ∧ out.cols = Ns) :
    ∃ res, contNuc3ptUp uninit uninitM out A C B = some res ∧
      res.rows = Ns ∧ res.cols = Ns ∧
      ∀ mu nu, mu < Ns → nu < Ns →
        res.coeff mu nu = out.coeff mu nu +
          ∑ i ∈ Finset.range N, ∑ j ∈ Finset.range Nj, ∑ k ∈ Finset.range N,
            ∑ m ∈ Finset.range N, C.coeff k m *
              (A.coeff mu i j k * star (B.coeff nu i j m)
                - A.coeff mu i j k * star (B.coeff nu m j i)
                + A.coeff mu k j i * star (B.coeff nu m j i)
                - A.coeff mu k j i * star (B.coeff nu i j m)) := by
  refine ⟨_, contNuc3ptUp_eq_foldl uninit uninitM out A C B N Nj hA hB hC hout, ?_⟩
  obtain ⟨h1, h2, h3⟩ := foldl_addAt_cells (fun mu nu =>
      ∑ i ∈ Finset.range N, ∑ j ∈ Finset.range Nj, ∑ k ∈ Finset.range N,
        ∑ m ∈ Finset.range N, contNuc3ptUpTerm A C B mu nu i j k m) Ns Ns out
  refine ⟨h1.trans hout.1, h2.trans hout.2, ?_⟩
  intro mu nu hmu hnu
  rw [h3, if_pos ⟨hmu, hnu⟩]
  rfl

/-- The three-point contraction on `demoA`, `demoC`, `demoB` and the `4 × 4` matrix of
ones. -/
theorem contNuc3ptUp_accumulates_witness :
    (demoA.dim0 = Ns ∧ demoA.dim1 = 2 ∧ demoA.dim2 = 1 ∧ demoA.dim3 = 2) ∧
    (demoB.dim0 = Ns ∧ demoB.dim1 = 2 ∧ demoB.dim2 = 1 ∧ demoB.dim3 = 2) ∧
    (demoC.rows = 2 ∧ demoC.cols = 2) ∧
    ∃ res, contNuc3ptUp (7, 7, 7) 7 (A2AMatrix.const 4 4 (1 : GaussianInt)) demoA demoC demoB
        = some res ∧
      res.rows = Ns ∧ res.cols = Ns ∧
      ∀ mu nu, mu < Ns → nu < Ns →
        res.coeff mu nu = (A2AMatrix.const 4 4 (1 : GaussianInt)).coeff mu nu +
          ∑ i ∈ Finset.range 2, ∑ j ∈ Finset.range 1, ∑ k ∈ Finset.range 2,
            ∑ m ∈ Finset.range 2, demoC.coeff k m *
              (demoA.coeff mu i j k * star (demoB.coeff nu i j m)
                - demoA.coeff mu i j k * star (demoB.coeff nu m j i)
                + demoA.coeff mu k j i * star (demoB.coeff nu m j i)
                - demoA.coeff mu k j i * star (demoB.coeff nu i j m)) :=
  ⟨⟨rfl, rfl, rfl, rfl⟩, ⟨rfl, rfl, rfl, rfl⟩, ⟨rfl, rfl⟩,
    contNuc3ptUp_accumulates (7, 7, 7) 7 (A2AMatrix.const 4 4 1) demoA demoC demoB 2 1
      ⟨rfl, rfl, rfl, rfl⟩ ⟨rfl, rfl, rfl, rfl⟩ ⟨rfl, rfl⟩ ⟨rfl, rfl⟩⟩

/-! ## Anti-symmetry of the two-point contraction -/

theorem foldl_addAt_zero {R : Type} [AddMonoid R] (n m : Nat) (sm : A2AMatrix R) :
    (List.range n).foldl (fun s mu =>
      (List.range m).foldl (fun s2 nu => s2.addAt mu nu (0 : R)) s) sm = sm := by
  have inner : ∀ (mu : Nat) (s : A2AMatrix R),
      (List.range m).foldl (fun s2 nu => s2.addAt mu nu (0 : R)) s = s := by
    intro mu s
    induction m with
    | zero => rfl
    | succ m ih => rw [List.range_succ, List.foldl_append, ih]; simp [addAt_zero]
  induction n with
  | zero => rfl
  | succ n ih => rw [List.range_succ, List.foldl_append, ih]; simp [inner]

/-- C10. Anti-symmetry of the two-point contraction: for `A`, `B` of one shape
`[Ns, N, Nj, N]` with `B[nu,i,j,k] = B[nu,k,j,i]` for all indices in range,
`contNucTen` returns its `Ns × Ns` argument `out` unchanged; applied to `out = 0` it
yields the zero matrix exactly. -/
theorem contNucTen_symmetric_unchanged {R : Type} [CommRing R] [StarRing R]
    (uninit : Nat × Nat × Nat) (out : A2AMatrix R) (A B : A2AMatrixNuc R) (N Nj : Nat)
    (hA : A.dim0 = Ns ∧ A.dim1 = N ∧ A.dim2 = Nj ∧ A.dim3 = N)
    (hB : B.dim0 = Ns ∧ B.dim1 = N ∧ B.dim2 = Nj ∧ B.dim3 = N)
    (hout : out.rows = Ns ∧ out.cols = Ns)
    (hsym : ∀ nu i j k, nu < Ns → i < N → j < Nj → k < N →
      B.coeff nu i j k = B.coeff nu k j i) :
    contNucTen uninit out A B = some out := by
  rw [contNucTen_eq_foldl uninit out A B N Nj hA hB hout]
  have hz : (List.range Ns).foldl (fun s mu =>
      (List.range Ns).foldl (fun s2 nu => s2.addAt mu nu
        (∑ i ∈ Finset.range N, ∑ j ∈ Finset.range Nj, ∑ k ∈ Finset.range N,
          contNucTenTerm A B mu nu i j k)) s) out
      = (List.range Ns).foldl (fun s mu =>
          (List.range Ns).foldl (fun s2 nu => s2.addAt mu nu (0 : R)) s) out := by
    refine foldl_congr_mem _ _ _ ?_ out
    intro s mu _
    refine foldl_congr_mem _ _ _ ?_ s
    intro s2 nu hnu
    have hnu2 : nu < Ns := List.mem_range.1 hnu
    congr 1
    refine Finset.sum_eq_zero fun i hi => Finset.sum_eq_zero fun j hj =>
      Finset.sum_eq_zero fun k hk => ?_
    unfold contNucTenTerm
    rw [hsym nu i j k hnu2 (Finset.mem_range.1 hi) (Finset.mem_range.1 hj)
      (Finset.mem_range.1 hk)]
    simp
  rw [hz, foldl_addAt_zero]

/-- The input of `contNucTenTest`: `N = N_j = 50`, `A = B` constant `1 + i`, `out = 0`. -/
theorem contNucTen_symmetric_unchanged_witness :
    (testTensor.dim0 = Ns ∧ testTensor.dim1 = 50 ∧ testTensor.dim2 = 50 ∧
      testTensor.dim3 = 50) ∧
    (∀ nu i j k, nu < Ns → i < 50 → j < 50 → k < 50 →
      testTensor.coeff nu i j k = testTensor.coeff nu k j i) ∧
    contNucTen (7, 7, 7) (A2AMatrix.const 4 4 (0 : GaussianInt)) testTensor testTensor
      = some (A2AMatrix.const 4 4 0) :=
  ⟨⟨rfl, rfl, rfl, rfl⟩, fun _ _ _ _ _ _ _ _ => rfl,
    contNucTen_symmetric_unchanged (7, 7, 7) (A2AMatrix.const 4 4 0) testTensor testTensor
      50 50 ⟨rfl, rfl, rfl, rfl⟩ ⟨rfl, rfl, rfl, rfl⟩ ⟨rfl, rfl⟩
      (fun _ _ _ _ _ _ _ _ => rfl)⟩

/-! ## Evaluations of the block I/O and of the task list -/

/-- C3. On `nRanks = 3`, `N_ext = 7` the task lists are `{0,3,6}`, `{1,4}`, `{2,5}`
when `N_str = 1`; with `N_str = 2` the external index is `f / nstr_` and the lists are
`[0,1,3]`, `[0,2]`, `[1,2]`: the index 0 is on two ranks, the indices 4, 5, 6 on none. -/
theorem nodeIoExt_three_ranks :
    (List.range 3).map (fun r => nodeIoExt 7 1 r 3) = [some [0, 3, 6], some [1, 4], some [2, 5]] ∧
    (List.range 3).map (fun r => nodeIoExt 7 2 r 3) = [some [0, 1, 3], some [0, 2], some [1, 2]] := by
  decide

/-- C4. For the tile view of shape `[2, 2, 1, 1, 1, 1]` (`N_ext = 2`, `N_t = 2`,
`N_str = 1`) and a handle with `nt_ = 2`, the offset that `saveBlock(m, 1, 0, i, j, k)`
adds to `m.data()` is 4, while the element `m(1,0,0,0,0,0)` is at position
`1 * N_t * N_str = 2`; the position 4 is the end of the buffer `mBuf_`. -/
theorem saveBlockOffset_second_ext :
    smallIo.saveBlockOffset (twoExtEngine.mBlock ⟨0, 0, 0, 1, 1, 1⟩) 1 0 = 4 ∧
    (twoExtEngine.mBlock ⟨0, 0, 0, 1, 1, 1⟩).index 1 0 0 0 0 0 = 2 ∧
    (twoExtEngine.init (fun _ => none : FileSystem Unit Nat)).mBuf.size = 4 := by
  decide

/-- C5. Round trip on `N_t = 2`, `N_i = N_j = N_k = 1`, `B = 1`: `initFile` and the
low-level `saveBlock` succeed, and `load` on the same handle raises the Size error. -/
theorem load_after_saveBlock_raises :
    ∃ fs, smallIo.saveBlockRaw smallTile 0 0 0 0 0 1 1 1
        (smallIo.initFile () 1 fun _ => none) = .ok fs ∧
      smallIo.load fs (fun _ => A2AMatrixNuc.const 0 0 0 0 none)
        (some 0) = .error (.size
          "all-to-all matrix size mismatch (got 2x4x1x1x1, expected 4x2x1x1x1") :=
  ⟨_, rfl, rfl⟩

/-- C6. The dataset that `initFile` creates for the handle `(N_t, N_i, N_j, N_k) =
(2, 1, 1, 1)` has extents `[2, Ns, 1, 1, 1]`; the size check of `load` on this handle
raises the Size error on these extents, and accepts the extents `[Ns, 2, 1, 1, 1]`. -/
theorem loadCheckSize_initFile_dims :
    ((smallIo.initFile () 1 (fun _ => none : FileSystem Unit Nat)) smallIo.filename).map
      (fun f => f.dataset.dim) = some ⟨2, Ns, 1, 1, 1⟩ ∧
    smallIo.loadCheckSize ⟨2, Ns, 1, 1, 1⟩ = .error (.size
      "all-to-all matrix size mismatch (got 2x4x1x1x1, expected 4x2x1x1x1") ∧
    smallIo.loadCheckSize ⟨Ns, 2, 1, 1, 1⟩ = .ok smallIo := by
  refine ⟨rfl, rfl, rfl⟩

/-! ## Scenario S4 -/

/-- C9, as stated: it is not the case that after the execute of scenario S4 the
dataset of the file of `e = 0` holds `i + 10 j + 100 k + 1000 t` at `[t, 0, i, j, k]`
for all `t < 2` and `i, j, k < 4`: the cell `[0, 0, 2, 0, 0]` holds 0. -/
theorem s4_dataset_not_global_index :
    ¬ ∀ t : Fin 2, ∀ i j k : Fin 4,
      fileCell s4Run "a2a_0.h5" t.val 0 i.val j.val k.val
        = some (i.val + 10 * j.val + 100 * k.val + 1000 * t.val) := by
  intro h
  have h2 := h 0 2 0 0
  revert h2
  decide

/-- C9, amended: after the execute of scenario S4 the dataset of the file of `e = 0`
holds `(i mod 2) + 10 (j mod 2) + 100 (k mod 2)` at `[0, 0, i, j, k]` for all
`i, j, k < 4`, the indices local to the cache tile. -/
theorem s4_dataset_local_index :
    ∀ i j k : Fin 4,
      fileCell s4Run "a2a_0.h5" 0 0 i.val j.val k.val
        = some (i.val % 2 + 10 * (j.val % 2) + 100 * (k.val % 2)) := by
  decide

/-! ## Loops with a step: closed form -/

theorem loopValues_of_ge (stop step start : Nat) (hstep : 0 < step) (h : stop ≤ start) :
    loopValues stop step start = [] := by
  unfold loopValues
  have h0 : stop - start = 0 := by omega
  have : (stop - start + step - 1) / step = 0 := by
    rw [h0, Nat.zero_add]
    exact Nat.div_eq_of_lt (by omega)
  rw [this]
  rfl

theorem loopValues_of_lt (stop step start : Nat) (hstep : 0 < step) (h : start < stop) :
    loopValues stop step start = start :: loopValues stop step (start + step) := by
  unfold loopValues
  have hc : (stop - start + step - 1) / step
      = (stop - (start + step) + step - 1) / step + 1 := by
    by_cases hd : step ≤ stop - start
    · have e1 : stop - start + step - 1 = (stop - (start + step) + step - 1) + step := by omega
      rw [e1, Nat.add_div_right _ hstep]
    · have e1 : stop - start + step - 1 = (stop - start - 1) + step := by omega
      have e2 : stop - (start + step) + step - 1 = step - 1 := by omega
      rw [e1, Nat.add_div_right _ hstep, e2, Nat.div_eq_of_lt (by omega : stop - start - 1 < step),
        Nat.div_eq_of_lt (by omega : step - 1 < step)]
  rw [hc, List.range_succ_eq_map, List.map_cons, List.map_map]
  congr 1
  · simp
  · apply List.map_congr_left
    intro q _
    simp only [Function.comp, Nat.succ_eq_add_one, Nat.add_mul, Nat.one_mul]
    omega

/-- With a positive step and enough fuel the loop ends, on the values of the closed
form. -/
theorem forLoop_eq (stop step : Nat) (hstep : 0 < step) (fuel start : Nat)
    (h : stop - start ≤ fuel) : forLoop stop step fuel start = some (loopValues stop step start) := by
  induction fuel generalizing start with
  | zero =>
    have hge : stop ≤ start := by omega
    simp [forLoop, loopValues_of_ge stop step start hstep hge, Nat.not_lt.2 hge]
  | succ fuel ih =>
    by_cases hlt : start < stop
    · rw [forLoop, if_pos hlt, ih (start + step) (by omega), loopValues_of_lt stop step start hstep hlt]
      rfl
    · have hge : stop ≤ start := by omega
      rw [forLoop, if_neg hlt, loopValues_of_ge stop step start hstep hge]

theorem blockStarts_eq (n step : Nat) (hstep : 0 < step) :
    blockStarts n step = some (loopValues n step 0) :=
  forLoop_eq n step hstep n 0 (by omega)

theorem mem_loopValues_zero (n step a : Nat) (hstep : 0 < step) :
    a ∈ loopValues n step 0 ↔ step ∣ a ∧ a < n := by
  unfold loopValues
  simp only [List.mem_map, List.mem_range, Nat.sub_zero, Nat.zero_add]
  constructor
  · rintro ⟨q, hq, rfl⟩
    refine ⟨Dvd.intro_left q rfl, ?_⟩
    have h1 : (q + 1) * step ≤ n + step - 1 := (Nat.le_div_iff_mul_le hstep).1 hq
    rw [Nat.add_mul, Nat.one_mul] at h1
    omega
  · rintro ⟨⟨q, rfl⟩, hlt⟩
    refine ⟨q, ?_, Nat.mul_comm q step⟩
    have h1 : (q + 1) * step ≤ n + step - 1 := by
      rw [Nat.add_mul, Nat.one_mul, Nat.mul_comm q step]
      omega
    exact (Nat.le_div_iff_mul_le hstep).2 h1

theorem nodup_loopValues (n step start : Nat) (hstep : 0 < step) :
    (loopValues n step start).Nodup := by
  unfold loopValues
  refine List.Nodup.map ?_ (List.nodup_range _)
  intro q1 q2 h
  have h2 : q1 * step = q2 * step := by simpa using h
  exact Nat.eq_of_mul_eq_mul_right hstep h2

/-- A point lies in the block of at most one base that is a multiple of the step. -/
theorem inBlock_base (n step a x : Nat) (hdvd : step ∣ a) (h : inBlock n step a x) :
    a = x / step * step := by
  obtain ⟨q, rfl⟩ := hdvd
  obtain ⟨h1, h2⟩ := h
  have h3 : x < step * q + step := by
    have : min (n - step * q) step ≤ step := Nat.min_le_right _ _
    omega
  have hq : x / step = q := by
    apply Nat.div_eq_of_lt_le
    · rw [Nat.mul_comm]; exact h1
    · rw [Nat.add_mul, Nat.one_mul, Nat.mul_comm]; exact h3
  rw [hq, Nat.mul_comm]

/-- Every point below the extent lies in the block of the base below it. -/
theorem inBlock_cover (n step x : Nat) (hstep : 0 < step) (hx : x < n) :
    x / step * step ∈ loopValues n step 0 ∧ inBlock n step (x / step * step) x := by
  have hle : x / step * step ≤ x := Nat.div_mul_le_self x step
  have hlt : x < x / step * step + step := Nat.lt_div_mul_add hstep
  refine ⟨(mem_loopValues_zero n step _ hstep).2 ⟨Dvd.intro_left _ rfl, by omega⟩, hle, ?_⟩
  rcases Nat.le_total (n - x / step * step) step with h | h
  · rw [Nat.min_eq_left h]; omega
  · rw [Nat.min_eq_right h]; exact hlt

theorem inBlock_bounds (n step a x : Nat) (ha : a < n) (h : inBlock n step a x) : x < n := by
  obtain ⟨h1, h2⟩ := h
  have : min (n - a) step ≤ n - a := Nat.min_le_left _ _
  omega

theorem mem_triples (xs ys zs : List Nat) (b : Nat × Nat × Nat) :
    b ∈ triples xs ys zs ↔ b.1 ∈ xs ∧ b.2.1 ∈ ys ∧ b.2.2 ∈ zs := by
  obtain ⟨x, y, z⟩ := b
  simp only [triples, List.mem_flatMap, List.mem_map, Prod.mk.injEq]
  constructor
  · rintro ⟨x2, hx, y2, hy, z2, hz, rfl, rfl, rfl⟩
    exact ⟨hx, hy, hz⟩
  · rintro ⟨hx, hy, hz⟩
    exact ⟨x, hx, y, hy, z, hz, rfl, rfl, rfl⟩

theorem nodup_triples (xs ys zs : List Nat) (hx : xs.Nodup) (hy : ys.Nodup) (hz : zs.Nodup) :
    (triples xs ys zs).Nodup := by
  unfold triples
  rw [List.nodup_flatMap]
  constructor
  · intro x _
    rw [List.nodup_flatMap]
    constructor
    · intro y _
      exact List.Nodup.map (fun z1 z2 h => by simpa using h) hz
    · refine List.Nodup.pairwise_of_forall_ne hy ?_
      intro y1 _ y2 _ hne
      simp only [Function.onFun, List.disjoint_left, List.mem_map]
      rintro b ⟨z1, _, rfl⟩ ⟨z2, _, h⟩
      simp only [Prod.mk.injEq] at h
      exact hne h.2.1.symm
  · refine List.Nodup.pairwise_of_forall_ne hx ?_
    intro x1 _ x2 _ hne
    simp only [Function.onFun, List.disjoint_left, List.mem_flatMap, List.mem_map]
    rintro b ⟨y1, _, z1, _, rfl⟩ ⟨y2, _, z2, _, h⟩
    simp only [Prod.mk.injEq] at h
    exact hne h.1.symm

/-- With a positive step the three nested loops end, on all triples of the values of
the closed form. -/
theorem tripleLoop_eq (n1 n2 n3 step : Nat) (hstep : 0 < step) :
    tripleLoop n1 n2 n3 step
      = some (triples (loopValues n1 step 0) (loopValues n2 step 0) (loopValues n3 step 0)) := by
  unfold tripleLoop
  rw [blockStarts_eq n1 step hstep, blockStarts_eq n2 step hstep, blockStarts_eq n3 step hstep]
  simp only [Option.some_bind]
  by_cases h1 : loopValues n1 step 0 = []
  · rw [if_pos h1, h1]; rfl
  · rw [if_neg h1]
    by_cases h2 : loopValues n2 step 0 = []
    · rw [if_pos h2, h2]; simp [triples]
    · rw [if_neg h2]

/-- Two bases of the nested loops whose blocks share a point are equal. -/
theorem base_unique (n1 n2 n3 step : Nat) (hstep : 0 < step) (b c : Nat × Nat × Nat)
    (hb : b ∈ triples (loopValues n1 step 0) (loopValues n2 step 0) (loopValues n3 step 0))
    (hc : c ∈ triples (loopValues n1 step 0) (loopValues n2 step 0) (loopValues n3 step 0))
    (x y z : Nat)
    (h1 : inBlock n1 step b.1 x ∧ inBlock n2 step b.2.1 y ∧ inBlock n3 step b.2.2 z)
    (h2 : inBlock n1 step c.1 x ∧ inBlock n2 step c.2.1 y ∧ inBlock n3 step c.2.2 z) :
    b = c := by
  rw [mem_triples] at hb hc
  have e1 : b.1 = c.1 := by
    rw [inBlock_base n1 step b.1 x ((mem_loopValues_zero _ _ _ hstep).1 hb.1).1 h1.1,
      inBlock_base n1 step c.1 x ((mem_loopValues_zero _ _ _ hstep).1 hc.1).1 h2.1]
  have e2 : b.2.1 = c.2.1 := by
    rw [inBlock_base n2 step b.2.1 y ((mem_loopValues_zero _ _ _ hstep).1 hb.2.1).1 h1.2.1,
      inBlock_base n2 step c.2.1 y ((mem_loopValues_zero _ _ _ hstep).1 hc.2.1).1 h2.2.1]
  have e3 : b.2.2 = c.2.2 := by
    rw [inBlock_base n3 step b.2.2 z ((mem_loopValues_zero _ _ _ hstep).1 hb.2.2).1 h1.2.2,
      inBlock_base n3 step c.2.2 z ((mem_loopValues_zero _ _ _ hstep).1 hc.2.2).1 h2.2.2]
  exact Prod.ext e1 (Prod.ext e2 e3)

/-- Every point of the index space lies in the block of a base of the nested loops. -/
theorem base_cover (n1 n2 n3 step : Nat) (hstep : 0 < step) (x y z : Nat)
    (hx : x < n1) (hy : y < n2) (hz : z < n3) :
    (x / step * step, y / step * step, z / step * step)
        ∈ triples (loopValues n1 step 0) (loopValues n2 step 0) (loopValues n3 step 0) ∧
      inBlock n1 step (x / step * step) x ∧ inBlock n2 step (y / step * step) y ∧
      inBlock n3 step (z / step * step) z := by
  obtain ⟨m1, c1⟩ := inBlock_cover n1 step x hstep hx
  obtain ⟨m2, c2⟩ := inBlock_cover n2 step y hstep hy
  obtain ⟨m3, c3⟩ := inBlock_cover n3 step z hstep hz
  exact ⟨(mem_triples _ _ _ _).2 ⟨m1, m2, m3⟩, c1, c2, c3⟩

/-! ## The outer tiling -/

theorem cacheTiles_eq (N_ii N_jj N_kk b : Nat) (hb : 0 < b) :
    cacheTiles N_ii N_jj N_kk b = some ((triples (loopValues N_ii b 0) (loopValues N_jj b 0)
      (loopValues N_kk b 0)).map (cacheTileAt N_ii N_jj N_kk b)) := by
  unfold cacheTiles
  rw [tripleLoop_eq N_ii N_jj N_kk b hb]
  rfl

theorem cacheTileAt_injective (N_ii N_jj N_kk b : Nat) :
    Function.Injective (cacheTileAt N_ii N_jj N_kk b) := by
  intro c d h
  simp only [cacheTileAt, CacheTile.mk.injEq] at h
  exact Prod.ext h.1 (Prod.ext h.2.1 h.2.2.1)

theorem cacheTileAt_contains (N_ii N_jj N_kk b : Nat) (c : Nat × Nat × Nat) (x y z : Nat) :
    (cacheTileAt N_ii N_jj N_kk b c).contains x y z
      ↔ inBlock N_ii b c.1 x ∧ inBlock N_jj b c.2.1 y ∧ inBlock N_kk b c.2.2 z := Iff.rfl

theorem copyIterations_eq_product (eng : A2AMatrixNucleonBlockComputation) (ct : CacheTile) :
    copyIterations eng ct = List.product (List.range eng.next) (List.product (List.range eng.nstr)
      (List.product (List.range eng.nt) (List.product (List.range ct.N_iii)
        (List.product (List.range ct.N_jjj) (List.range ct.N_kkk))))) := by
  simp only [copyIterations, List.product, List.map_flatMap, List.map_map, Function.comp_def]

theorem nodup_copyIterations (eng : A2AMatrixNucleonBlockComputation) (ct : CacheTile) :
    (copyIterations eng ct).Nodup := by
  rw [copyIterations_eq_product]
  exact List.Nodup.product (List.nodup_range _) (List.Nodup.product (List.nodup_range _)
    (List.Nodup.product (List.nodup_range _) (List.Nodup.product (List.nodup_range _)
      (List.Nodup.product (List.nodup_range _) (List.nodup_range _)))))

theorem mem_copyIterations (eng : A2AMatrixNucleonBlockComputation) (ct : CacheTile)
    (e s t iii jjj kkk : Nat) :
    (e, s, t, iii, jjj, kkk) ∈ copyIterations eng ct
      ↔ e < eng.next ∧ s < eng.nstr ∧ t < eng.nt ∧ iii < ct.N_iii ∧ jjj < ct.N_jjj
        ∧ kkk < ct.N_kkk := by
  rw [copyIterations_eq_product]
  simp only [List.pair_mem_product, List.mem_range]

/-- In exact arithmetic, a commutative ring with conjugation, the four terms of the
three-point contraction cancel when `B`, or `A`, is symmetric in `(i, k)`: for `A`,
`B` of shape `[Ns, N, Nj, N]` and an `N × N` matrix `C`, `contNuc3ptUp` returns its
`Ns × Ns` argument `out` unchanged. -/
theorem contNuc3ptUp_symmetric_exact {R : Type} [CommRing R] [StarRing R]
    (uninit : Nat × Nat × Nat) (uninitM : Nat)
    (out : A2AMatrix R) (A : A2AMatrixNuc R) (C : A2AMatrix R) (B : A2AMatrixNuc R)
    (N Nj : Nat)
    (hA : A.dim0 = Ns ∧ A.dim1 = N ∧ A.dim2 = Nj ∧ A.dim3 = N)
    (hB : B.dim0 = Ns ∧ B.dim1 = N ∧ B.dim2 = Nj ∧ B.dim3 = N)
    (hC : C.rows = N ∧ C.cols = N)
    (hout : out.rows = Ns ∧ out.cols = Ns)
    (hsym : (∀ nu i j k, nu < Ns → i < N → j < Nj → k < N →
        B.coeff nu i j k = B.coeff nu k j i) ∨
      (∀ mu i j k, mu < Ns → i < N → j < Nj → k < N →
        A.coeff mu i j k = A.coeff mu k j i)) :
    contNuc3ptUp uninit uninitM out A C B = some out := by
  rw [contNuc3ptUp_eq_foldl uninit uninitM out A C B N Nj hA hB hC hout]
  have hz : (List.range Ns).foldl (fun s mu =>
      (List.range Ns).foldl (fun s2 nu => s2.addAt mu nu
        (∑ i ∈ Finset.range N, ∑ j ∈ Finset.range Nj, ∑ k ∈ Finset.range N,
          ∑ m ∈ Finset.range N, contNuc3ptUpTerm A C B mu nu i j k m)) s) out
      = (List.range Ns).foldl (fun s mu =>
          (List.range Ns).foldl (fun s2 nu => s2.addAt mu nu (0 : R)) s) out := by
    refine foldl_congr_mem _ _ _ ?_ out
    intro s mu hmu
    have hmu2 : mu < Ns := List.mem_range.1 hmu
    refine foldl_congr_mem _ _ _ ?_ s
    intro s2 nu hnu
    have hnu2 : nu < Ns := List.mem_range.1 hnu
    congr 1
    refine Finset.sum_eq_zero fun i hi => Finset.sum_eq_zero fun j hj =>
      Finset.sum_eq_zero fun k hk => Finset.sum_eq_zero fun m hm => ?_
    unfold contNuc3ptUpTerm
    rcases hsym with hBs | hAs
    · rw [hBs nu i j m hnu2 (Finset.mem_range.1 hi) (Finset.mem_range.1 hj)
        (Finset.mem_range.1 hm)]
      ring
    · rw [hAs mu i j k hmu2 (Finset.mem_range.1 hi) (Finset.mem_range.1 hj)
        (Finset.mem_range.1 hk)]
      ring
  rw [hz, foldl_addAt_zero]

/-- The matrix that `contNucTen` produces from `out = 0`: it returns, and its entries
are the sums of the summands. -/
theorem contNucTen_zero_coeff {R : Type} [CommRing R] [StarRing R]
    (uninit : Nat × Nat × Nat) (A B : A2AMatrixNuc R) (N Nj : Nat)
    (hA : A.dim0 = Ns ∧ A.dim1 = N ∧ A.dim2 = Nj ∧ A.dim3 = N)
    (hB : B.dim0 = Ns ∧ B.dim1 = N ∧ B.dim2 = Nj ∧ B.dim3 = N) :
    ∃ res, contNucTen uninit (A2AMatrix.zero Ns Ns) A B = some res ∧
      res.rows = Ns ∧ res.cols = Ns ∧
      ∀ mu nu, mu < Ns → nu < Ns →
        res.coeff mu nu = ∑ i ∈ Finset.range N, ∑ j ∈ Finset.range Nj,
          ∑ k ∈ Finset.range N, contNucTenTerm A B mu nu i j k := by
  refine ⟨_, contNucTen_eq_foldl uninit _ A B N Nj hA hB ⟨rfl, rfl⟩, ?_⟩
  obtain ⟨h1, h2, h3⟩ := foldl_addAt_cells (fun mu nu =>
      ∑ i ∈ Finset.range N, ∑ j ∈ Finset.range Nj, ∑ k ∈ Finset.range N,
        contNucTenTerm A B mu nu i j k) Ns Ns (A2AMatrix.zero Ns Ns)
  refine ⟨h1, h2, ?_⟩
  intro mu nu hmu hnu
  rw [h3, if_pos ⟨hmu, hnu⟩]
  show (0 : R) + _ = _
  rw [zero_add]

/-- C12. Linearity in `A`: for scalars `alpha`, `beta` and tensors `A1`, `A2`, `B` of
one shape `[Ns, N, Nj, N]`, the matrices `M`, `M1`, `M2` that `contNucTen` produces
from `out = 0` on `(alpha A1 + beta A2, B)`, `(A1, B)` and `(A2, B)` satisfy
`M = alpha M1 + beta M2` entry by entry. -/
theorem contNucTen_linear_in_A {R : Type} [CommRing R] [StarRing R]
    (uninit : Nat × Nat × Nat) (alpha beta : R) (A1 A2 B : A2AMatrixNuc R) (N Nj : Nat)
    (hA1 : A1.dim0 = Ns ∧ A1.dim1 = N ∧ A1.dim2 = Nj ∧ A1.dim3 = N)
    (hA2 : A2.dim0 = Ns ∧ A2.dim1 = N ∧ A2.dim2 = Nj ∧ A2.dim3 = N)
    (hB : B.dim0 = Ns ∧ B.dim1 = N ∧ B.dim2 = Nj ∧ B.dim3 = N) :
    ∃ M M1 M2,
      contNucTen uninit (A2AMatrix.zero Ns Ns) (A2AMatrixNuc.lincomb alpha A1 beta A2) B
        = some M ∧
      contNucTen uninit (A2AMatrix.zero Ns Ns) A1 B = some M1 ∧
      contNucTen uninit (A2AMatrix.zero Ns Ns) A2 B = some M2 ∧
      ∀ mu nu, mu < Ns → nu < Ns →
        M.coeff mu nu = alpha * M1.coeff mu nu + beta * M2.coeff mu nu := by
  obtain ⟨M, hM, _, _, cM⟩ := contNucTen_zero_coeff uninit
    (A2AMatrixNuc.lincomb alpha A1 beta A2) B N Nj hA1 hB
  obtain ⟨M1, hM1, _, _, cM1⟩ := contNucTen_zero_coeff uninit A1 B N Nj hA1 hB
  obtain ⟨M2, hM2, _, _, cM2⟩ := contNucTen_zero_coeff uninit A2 B N Nj hA2 hB
  refine ⟨M, M1, M2, hM, hM1, hM2, ?_⟩
  intro mu nu hmu hnu
  rw [cM mu nu hmu hnu, cM1 mu nu hmu hnu, cM2 mu nu hmu hnu]
  simp only [contNucTenTerm, A2AMatrixNuc.lincomb, add_mul, mul_assoc,
    Finset.sum_add_distrib, Finset.mul_sum]

/-- Linearity on `2 demoA + 3 demoB` against `demoB` (shape `[4, 2, 1, 2]`). -/
theorem contNucTen_linear_in_A_witness :
    (demoA.dim0 = Ns ∧ demoA.dim1 = 2 ∧ demoA.dim2 = 1 ∧ demoA.dim3 = 2) ∧
    (demoB.dim0 = Ns ∧ demoB.dim1 = 2 ∧ demoB.dim2 = 1 ∧ demoB.dim3 = 2) ∧
    ∃ M M1 M2,
      contNucTen (7, 7, 7) (A2AMatrix.zero Ns Ns) (A2AMatrixNuc.lincomb 2 demoA 3 demoB) demoB
        = some M ∧
      contNucTen (7, 7, 7) (A2AMatrix.zero Ns Ns) demoA demoB = some M1 ∧
      contNucTen (7, 7, 7) (A2AMatrix.zero Ns Ns) demoB demoB = some M2 ∧
      ∀ mu nu, mu < Ns → nu < Ns →
        M.coeff mu nu = 2 * M1.coeff mu nu + 3 * M2.coeff mu nu :=
  ⟨⟨rfl, rfl, rfl, rfl⟩, ⟨rfl, rfl, rfl, rfl⟩,
    contNucTen_linear_in_A (7, 7, 7) 2 3 demoA demoB demoB 2 1
      ⟨rfl, rfl, rfl, rfl⟩ ⟨rfl, rfl, rfl, rfl⟩ ⟨rfl, rfl, rfl, rfl⟩⟩

/-- C13. Zero input: for `B` of shape `[Ns, N, Nj, N]`, an `Ns × Ns` matrix `M` and `A`
the zero tensor of the shape of `B`, `contNucTen(M, A, B)` returns `M` with every
entry unchanged. -/
theorem contNucTen_zero_A_unchanged {R : Type} [CommRing R] [StarRing R]
    (uninit : Nat × Nat × Nat) (M : A2AMatrix R) (B : A2AMatrixNuc R) (N Nj : Nat)
    (hB : B.dim0 = Ns ∧ B.dim1 = N ∧ B.dim2 = Nj ∧ B.dim3 = N)
    (hM : M.rows = Ns ∧ M.cols = Ns) :
    contNucTen uninit M (A2AMatrixNuc.const Ns N Nj N 0) B = some M := by
  rw [contNucTen_eq_foldl uninit M _ B N Nj ⟨rfl, rfl, rfl, rfl⟩ hB hM]
  have hz : (List.range Ns).foldl (fun s mu =>
      (List.range Ns).foldl (fun s2 nu => s2.addAt mu nu
        (∑ i ∈ Finset.range N, ∑ j ∈ Finset.range Nj, ∑ k ∈ Finset.range N,
          contNucTenTerm (A2AMatrixNuc.const Ns N Nj N 0) B mu nu i j k)) s) M
      = (List.range Ns).foldl (fun s mu =>
          (List.range Ns).foldl (fun s2 nu => s2.addAt mu nu (0 : R)) s) M := by
    refine foldl_congr_mem _ _ _ ?_ M
    intro s mu _
    refine foldl_congr_mem _ _ _ ?_ s
    intro s2 nu _
    congr 1
    refine Finset.sum_eq_zero fun i _ => Finset.sum_eq_zero fun j _ =>
      Finset.sum_eq_zero fun k _ => ?_
    simp [contNucTenTerm, A2AMatrixNuc.const]
  rw [hz, foldl_addAt_zero]

/-- The zero tensor against `demoB`, accumulated into the `4 × 4` matrix of ones. -/
theorem contNucTen_zero_A_unchanged_witness :
    (demoB.dim0 = Ns ∧ demoB.dim1 = 2 ∧ demoB.dim2 = 1 ∧ demoB.dim3 = 2) ∧
    contNucTen (7, 7, 7) (A2AMatrix.const 4 4 (1 : GaussianInt))
      (A2AMatrixNuc.const Ns 2 1 2 0) demoB = some (A2AMatrix.const 4 4 1) :=
  ⟨⟨rfl, rfl, rfl, rfl⟩,
    contNucTen_zero_A_unchanged (7, 7, 7) (A2AMatrix.const 4 4 1) demoB 2 1
      ⟨rfl, rfl, rfl, rfl⟩ ⟨rfl, rfl⟩⟩

/-- C14. The first extents of `intA` (4) and `intB` (5) differ; for every value of the
uninitialised locals `contNucTen(out, intA, intB)` on the `4 × 4` matrix of ones raises
nothing: it returns, and the entry `(1, 2)` of the result is `1 + 2 = 3`. -/
theorem contNucTen_mismatch_accumulates (uninit : Nat × Nat × Nat) :
    intA.dim0 ≠ intB.dim0 ∧
    (contNucTen uninit (A2AMatrix.const 4 4 (1 : ℤ)) intA intB).map (fun m => m.coeff 1 2)
      = some 3 := by
  have h : contNucTen uninit (A2AMatrix.const 4 4 (1 : ℤ)) intA intB
      = contNucTen (0, 0, 0) (A2AMatrix.const 4 4 (1 : ℤ)) intA intB := rfl
  rw [h]
  decide

/-! ## Spin projectors -/

theorem range_Ns : List.range Ns = [0, 1, 2, 3] := rfl

/-- The matrix that `ProjTPlus` produces: it returns when `a` has `Ns` rows, `a` is
handed back as it was, and row `mu` of the result is half the sum of the rows `mu`
and `(mu + 2) mod 4` of `a`. -/
theorem ProjTPlus_coeff {R : Type} [Field R] (res a : A2AMatrix R) (ha : a.rows = Ns) :
    ∃ M, ProjTPlus res a = some (M, a) ∧ M.rows = Ns ∧ M.cols = a.cols ∧
      ∀ mu nu, mu < Ns →
        M.coeff mu nu = (a.coeff mu nu + a.coeff ((mu + 2) % 4) nu) / 2 := by
  have hc : (projMatTPlus : A2AMatrix R).cols = a.rows := by rw [ha]; rfl
  refine ⟨A2AMatrix.smul (1 / 2)
    { rows := (projMatTPlus : A2AMatrix R).rows, cols := a.cols
      coeff := fun r c => ((List.range (projMatTPlus : A2AMatrix R).cols).map fun k =>
        (projMatTPlus : A2AMatrix R).coeff r k * a.coeff k c).sum }, ?_, rfl, rfl, ?_⟩
  · unfold ProjTPlus A2AMatrix.mul?
    rw [if_pos hc]
    rfl
  · intro mu nu hmu
    have hmu4 : mu < 4 := hmu
    show (1 / 2 : R) * ((List.range Ns).map fun k =>
      (projMatTPlus : A2AMatrix R).coeff mu k * a.coeff k nu).sum = _
    rw [range_Ns]
    interval_cases mu <;>
      simp [projMatTPlus, A2AMatrix.setBottomLeftCorner, A2AMatrix.setTopRightCorner,
        A2AMatrix.setBlock, A2AMatrix.Identity, Ns] <;> ring

theorem ProjTPlusPxy_coeff {R : Type} [Field R] (res a : A2AMatrix R) (ha : a.rows = Ns) :
    ∃ M, ProjTPlusPxy res a = some (M, a) ∧ M.rows = Ns ∧ M.cols = a.cols ∧
      ∀ mu nu, mu < Ns →
        M.coeff mu nu = if mu % 2 = 1 then 2 * (a.coeff 1 nu + a.coeff 3 nu) else 0 := by
  have hc : (projMatTPlusPxy : A2AMatrix R).cols = a.rows := by rw [ha]; rfl
  refine ⟨{ rows := (projMatTPlusPxy : A2AMatrix R).rows, cols := a.cols
            coeff := fun r c => ((List.range (projMatTPlusPxy : A2AMatrix R).cols).map fun k =>
              (projMatTPlusPxy : A2AMatrix R).coeff r k * a.coeff k c).sum }, ?_, rfl, rfl, ?_⟩
  · unfold ProjTPlusPxy A2AMatrix.mul?
    rw [if_pos hc]
    rfl
  · intro mu nu hmu
    have hmu4 : mu < 4 := hmu
    show ((List.range Ns).map fun k =>
      (projMatTPlusPxy : A2AMatrix R).coeff mu k * a.coeff k nu).sum = _
    rw [range_Ns]
    interval_cases mu <;>
      simp [projMatTPlusPxy, A2AMatrix.setBottomLeftCorner, A2AMatrix.setTopRightCorner,
        A2AMatrix.setTopLeftCorner, A2AMatrix.setBottomRightCorner, A2AMatrix.set,
        A2AMatrix.zero, A2AMatrix.setBlock, Ns] <;> ring


theorem four_halves {R : Type} [Field R] (c : R) :
    (c + c) / 2 + (c + c) / 2 + (c + c) / 2 + (c + c) / 2 = 4 * c := by
  by_cases h : (2 : R) = 0
  · have h4 : (4 : R) = 0 := by
      have : (4 : R) = 2 * 2 := by norm_num
      rw [this, h, zero_mul]
    simp [h, h4]
  · field_simp
    ring

theorem half_of_halves {R : Type} [Field R] (x y : R) :
    ((x + y) / 2 + (y + x) / 2) / 2 = (x + y) / 2 := by
  by_cases h : (2 : R) = 0
  · simp [h]
  · field_simp
    ring

/-- The trace of a matrix with `Ns` rows and `Ns` columns. -/
theorem trace_spinMat {R : Type} [AddCommMonoid R] (m : A2AMatrix R)
    (hm : m.rows = Ns ∧ m.cols = Ns) :
    m.trace = m.coeff 0 0 + m.coeff 1 1 + m.coeff 2 2 + m.coeff 3 3 := by
  unfold A2AMatrix.trace
  rw [hm.1, hm.2, Nat.min_self, range_Ns]
  simp [add_assoc]

/-- C15. Time-positive projector: for every `4 × 4` matrix `A`, `ProjTPlus(res, A)`
returns, leaves `A` as it was, and sets `res` to the `4 × 4` matrix `(1/2) (P A)`,
where `P` is the matrix whose four `2 × 2` corner blocks are the identity; equivalently
`res[mu,nu] = (A[mu,nu] + A[(mu+2) mod 4, nu]) / 2`. -/
theorem ProjTPlus_half_corner_identity {R : Type} [Field R] (res A : A2AMatrix R)
    (hA : A.rows = Ns ∧ A.cols = Ns) :
    ∃ M, ProjTPlus res A = some (M, A) ∧ M.rows = Ns ∧ M.cols = Ns ∧
      ∀ mu nu, mu < Ns → nu < Ns →
        M.coeff mu nu = (1 / 2) * ∑ k ∈ Finset.range Ns,
          cornerBlocks (fun r c => if r = c then (1 : R) else 0) mu k * A.coeff k nu ∧
        M.coeff mu nu = (A.coeff mu nu + A.coeff ((mu + 2) % 4) nu) / 2 := by
  obtain ⟨M, hM, hr, hc, hcoeff⟩ := ProjTPlus_coeff res A hA.1
  refine ⟨M, hM, hr, hc.trans hA.2, ?_⟩
  intro mu nu hmu _
  refine ⟨?_, hcoeff mu nu hmu⟩
  rw [hcoeff mu nu hmu]
  have hmu4 : mu < 4 := hmu
  interval_cases mu <;> simp [Ns, Finset.sum_range_succ, cornerBlocks] <;> ring

/-- The time-positive projector on `demoMat`. -/
theorem ProjTPlus_half_corner_identity_witness :
    (demoMat.rows = Ns ∧ demoMat.cols = Ns) ∧
    ∃ M, ProjTPlus (A2AMatrix.zero 4 4) demoMat = some (M, demoMat) ∧ M.rows = Ns
      ∧ M.cols = Ns ∧
      ∀ mu nu, mu < Ns → nu < Ns →
        M.coeff mu nu = (1 / 2) * ∑ k ∈ Finset.range Ns,
          cornerBlocks (fun r c => if r = c then (1 : ℚ) else 0) mu k * demoMat.coeff k nu ∧
        M.coeff mu nu = (demoMat.coeff mu nu + demoMat.coeff ((mu + 2) % 4) nu) / 2 :=
  ⟨⟨rfl, rfl⟩, ProjTPlus_half_corner_identity (A2AMatrix.zero 4 4) demoMat ⟨rfl, rfl⟩⟩

/-- C16. Polarised projector: for every `4 × 4` matrix `A`, `ProjTPlusPxy(res, A)`
returns, leaves `A` as it was, and sets `res` to the `4 × 4` matrix `Pxy A` with no
further factor, where `Pxy` is the matrix whose four `2 × 2` corner blocks are
`diag(0, 2)`; equivalently `res[mu,nu] = 0` for `mu` in `{0, 2}` and
`res[mu,nu] = 2 (A[1,nu] + A[3,nu])` for `mu` in `{1, 3}`. -/
theorem ProjTPlusPxy_corner_diag {R : Type} [Field R] (res A : A2AMatrix R)
    (hA : A.rows = Ns ∧ A.cols = Ns) :
    ∃ M, ProjTPlusPxy res A = some (M, A) ∧ M.rows = Ns ∧ M.cols = Ns ∧
      ∀ mu nu, mu < Ns → nu < Ns →
        M.coeff mu nu = ∑ k ∈ Finset.range Ns,
          cornerBlocks (fun r c => if r = 1 ∧ c = 1 then (2 : R) else 0) mu k * A.coeff k nu ∧
        ((mu = 0 ∨ mu = 2) → M.coeff mu nu = 0) ∧
        ((mu = 1 ∨ mu = 3) → M.coeff mu nu = 2 * (A.coeff 1 nu + A.coeff 3 nu)) := by
  obtain ⟨M, hM, hr, hc, hcoeff⟩ := ProjTPlusPxy_coeff res A hA.1
  refine ⟨M, hM, hr, hc.trans hA.2, ?_⟩
  intro mu nu hmu _
  rw [hcoeff mu nu hmu]
  have hmu4 : mu < 4 := hmu
  interval_cases mu <;> simp [Ns, Finset.sum_range_succ, cornerBlocks] <;> ring

/-- The polarised projector on `demoMat`. -/
theorem ProjTPlusPxy_corner_diag_witness :
    (demoMat.rows = Ns ∧ demoMat.cols = Ns) ∧
    ∃ M, ProjTPlusPxy (A2AMatrix.zero 4 4) demoMat = some (M, demoMat) ∧ M.rows = Ns
      ∧ M.cols = Ns ∧
      ∀ mu nu, mu < Ns → nu < Ns →
        M.coeff mu nu = ∑ k ∈ Finset.range Ns,
          cornerBlocks (fun r c => if r = 1 ∧ c = 1 then (2 : ℚ) else 0) mu k
            * demoMat.coeff k nu ∧
        ((mu = 0 ∨ mu = 2) → M.coeff mu nu = 0) ∧
        ((mu = 1 ∨ mu = 3) →
          M.coeff mu nu = 2 * (demoMat.coeff 1 nu + demoMat.coeff 3 nu)) :=
  ⟨⟨rfl, rfl⟩, ProjTPlusPxy_corner_diag (A2AMatrix.zero 4 4) demoMat ⟨rfl, rfl⟩⟩

/-- The trace of the matrix that `ProjTPlus` produces from a `4 × 4` matrix. -/
theorem ProjTPlus_trace {R : Type} [Field R] (res a : A2AMatrix R)
    (ha : a.rows = Ns ∧ a.cols = Ns) :
    ∃ M, ProjTPlus res a = some (M, a) ∧ M.rows = Ns ∧ M.cols = Ns ∧
      M.trace = (a.coeff 0 0 + a.coeff 2 0) / 2 + (a.coeff 1 1 + a.coeff 3 1) / 2
        + (a.coeff 2 2 + a.coeff 0 2) / 2 + (a.coeff 3 3 + a.coeff 1 3) / 2 := by
  obtain ⟨M, hM, hr, hc, hcoeff⟩ := ProjTPlus_coeff res a ha.1
  refine ⟨M, hM, hr, hc.trans ha.2, ?_⟩
  rw [trace_spinMat M ⟨hr, hc.trans ha.2⟩, hcoeff 0 0 (by decide), hcoeff 1 1 (by decide),
    hcoeff 2 2 (by decide), hcoeff 3 3 (by decide)]

/-- C17. Projector trace on a constant matrix: for every `c`, every initial value
`acc0` of the accumulator and a `4 × 4` matrix `A` with `A[mu,nu] = c` for all
`mu, nu < 4`, `TrProjTPlus(acc, A)` ends with `acc = acc0 + 4 c`. -/
theorem TrProjTPlus_const {R : Type} [Field R] (acc0 c : R) (A : A2AMatrix R)
    (hA : A.rows = Ns ∧ A.cols = Ns)
    (hc : ∀ mu nu, mu < Ns → nu < Ns → A.coeff mu nu = c) :
    TrProjTPlus acc0 A = some (acc0 + 4 * c) := by
  obtain ⟨M, hM, _, _, htr⟩ := ProjTPlus_trace (A2AMatrix.zero Ns Ns) A hA
  unfold TrProjTPlus
  rw [hM, Option.map_some', htr]
  rw [hc 0 0 (by decide) (by decide), hc 2 0 (by decide) (by decide),
    hc 1 1 (by decide) (by decide), hc 3 1 (by decide) (by decide),
    hc 2 2 (by decide) (by decide), hc 0 2 (by decide) (by decide),
    hc 3 3 (by decide) (by decide), hc 1 3 (by decide) (by decide), four_halves]

/-- The input of `testProjTPlus`: `A` constant `1 + i`, `acc = 0`; the result is
`4 (1 + i)`. -/
theorem TrProjTPlus_const_witness :
    ((A2AMatrix.const 4 4 (1 + Complex.I)).rows = Ns ∧
      (A2AMatrix.const 4 4 (1 + Complex.I)).cols = Ns) ∧
    (∀ mu nu, mu < Ns → nu < Ns →
      (A2AMatrix.const 4 4 (1 + Complex.I)).coeff mu nu = 1 + Complex.I) ∧
    TrProjTPlus 0 (A2AMatrix.const 4 4 (1 + Complex.I)) = some (0 + 4 * (1 + Complex.I)) :=
  ⟨⟨rfl, rfl⟩, fun _ _ _ _ => rfl,
    TrProjTPlus_const 0 (1 + Complex.I) (A2AMatrix.const 4 4 (1 + Complex.I)) ⟨rfl, rfl⟩
      (fun _ _ _ _ => rfl)⟩

/-- C18, as stated: over the complex numbers the trace of the matrix that `ProjTPlus`
returns for the `4 × 4` identity is not 4 (it is 2). -/
theorem ProjTPlus_identity_trace_ne_four :
    ¬ ∃ M : A2AMatrix ℂ, ProjTPlus (A2AMatrix.zero 4 4) (A2AMatrix.Identity 4 4)
        = some (M, A2AMatrix.Identity 4 4) ∧ M.trace = 4 := by
  rintro ⟨M, hM, htr⟩
  obtain ⟨M2, hM2, _, _, htr2⟩ := ProjTPlus_trace (A2AMatrix.zero 4 4)
    (A2AMatrix.Identity 4 4 : A2AMatrix ℂ) ⟨rfl, rfl⟩
  rw [hM] at hM2
  have hMM : M = M2 := congrArg Prod.fst (Option.some.inj hM2)
  rw [hMM, htr2] at htr
  simp [A2AMatrix.Identity] at htr
  norm_num at htr

/-- C18, amended: for `A` the `4 × 4` identity, `ProjTPlus` returns a matrix `M` with
`trace(M) = 2`, that is `N_s / 2`. -/
theorem ProjTPlus_identity_trace_eq_two {R : Type} [Field R] (res : A2AMatrix R) :
    ∃ M, ProjTPlus res (A2AMatrix.Identity Ns Ns) = some (M, A2AMatrix.Identity Ns Ns) ∧
      M.trace = 2 := by
  obtain ⟨M, hM, _, _, htr⟩ := ProjTPlus_trace res
    (A2AMatrix.Identity Ns Ns : A2AMatrix R) ⟨rfl, rfl⟩
  refine ⟨M, hM, ?_⟩
  rw [htr]
  simp only [A2AMatrix.Identity]
  by_cases h : (2 : R) = 0
  · simp [h]
  · simp only [if_true, if_false, reduceCtorEq]
    norm_num
    field_simp
    norm_num

/-- C19. Projector idempotence: for every `4 × 4` matrix `A`, `ProjTPlus` applied to
the matrix `M1` that `ProjTPlus` produces from `A` returns a matrix `M2` of the same
size with the same entries, `ProjTPlus(ProjTPlus(A)) = ProjTPlus(A)`; in particular
the traces agree (also for `A` the identity). -/
theorem ProjTPlus_idempotent {R : Type} [Field R] (res res2 A : A2AMatrix R)
    (hA : A.rows = Ns ∧ A.cols = Ns) :
    ∃ M1 M2, ProjTPlus res A = some (M1, A) ∧ ProjTPlus res2 M1 = some (M2, M1) ∧
      M2.rows = M1.rows ∧ M2.cols = M1.cols ∧
      (∀ mu nu, mu < Ns → nu < Ns → M2.coeff mu nu = M1.coeff mu nu) ∧
      M2.trace = M1.trace := by
  obtain ⟨M1, hM1, hr1, hc1, hcoeff1⟩ := ProjTPlus_coeff res A hA.1
  obtain ⟨M2, hM2, hr2, hc2, hcoeff2⟩ := ProjTPlus_coeff res2 M1 hr1
  have hent : ∀ mu nu, mu < Ns → M2.coeff mu nu = M1.coeff mu nu := by
    intro mu nu hmu
    have hmu4 : mu < 4 := hmu
    have h2 : (mu + 2) % 4 < Ns := Nat.mod_lt _ (by decide)
    have h3 : ((mu + 2) % 4 + 2) % 4 = mu := by omega
    rw [hcoeff2 mu nu hmu, hcoeff1 mu nu hmu, hcoeff1 ((mu + 2) % 4) nu h2, h3,
      half_of_halves]
  have hs1 : M1.rows = Ns ∧ M1.cols = Ns := ⟨hr1, hc1.trans hA.2⟩
  have hs2 : M2.rows = Ns ∧ M2.cols = Ns := ⟨hr2, hc2.trans hs1.2⟩
  refine ⟨M1, M2, hM1, hM2, hr2.trans hr1.symm, hc2, fun mu nu hmu _ => hent mu nu hmu, ?_⟩
  rw [trace_spinMat M1 hs1, trace_spinMat M2 hs2, hent 0 0 (by decide), hent 1 1 (by decide),
    hent 2 2 (by decide), hent 3 3 (by decide)]

/-- Idempotence on the `4 × 4` identity over the rational numbers. -/
theorem ProjTPlus_idempotent_witness :
    ((A2AMatrix.Identity 4 4 : A2AMatrix ℚ).rows = Ns ∧
      (A2AMatrix.Identity 4 4 : A2AMatrix ℚ).cols = Ns) ∧
    ∃ M1 M2, ProjTPlus (A2AMatrix.zero 4 4) (A2AMatrix.Identity 4 4 : A2AMatrix ℚ)
        = some (M1, A2AMatrix.Identity 4 4) ∧
      ProjTPlus (A2AMatrix.zero 4 4) M1 = some (M2, M1) ∧
      M2.rows = M1.rows ∧ M2.cols = M1.cols ∧
      (∀ mu nu, mu < Ns → nu < Ns → M2.coeff mu nu = M1.coeff mu nu) ∧
      M2.trace = M1.trace :=
  ⟨⟨rfl, rfl⟩, ProjTPlus_idempotent (A2AMatrix.zero 4 4) (A2AMatrix.zero 4 4)
    (A2AMatrix.Identity 4 4) ⟨rfl, rfl⟩⟩

/-! ## Composed operators -/

/-- The matrix that `contNuc3ptUp` produces from `out = 0`: it returns an `Ns × Ns`
matrix, which does not depend on the uninitialised locals. -/
theorem contNuc3ptUp_zero_spinMat {R : Type} [CommRing R] [StarRing R]
    (A : A2AMatrixNuc R) (C : A2AMatrix R) (B : A2AMatrixNuc R) (N Nj : Nat)
    (hA : A.dim0 = Ns ∧ A.dim1 = N ∧ A.dim2 = Nj ∧ A.dim3 = N)
    (hB : B.dim0 = Ns ∧ B.dim1 = N ∧ B.dim2 = Nj ∧ B.dim3 = N)
    (hC : C.rows = N ∧ C.cols = N) :
    ∃ S, (∀ uninit uninitM, contNuc3ptUp uninit uninitM (A2AMatrix.zero Ns Ns) A C B = some S)
      ∧ S.rows = Ns ∧ S.cols = Ns := by
  obtain ⟨h1, h2, _⟩ := foldl_addAt_cells (fun mu nu =>
      ∑ i ∈ Finset.range N, ∑ j ∈ Finset.range Nj, ∑ k ∈ Finset.range N,
        ∑ m ∈ Finset.range N, contNuc3ptUpTerm A C B mu nu i j k m) Ns Ns
      (A2AMatrix.zero Ns Ns)
  exact ⟨_, fun uninit uninitM =>
    contNuc3ptUp_eq_foldl uninit uninitM _ A C B N Nj hA hB hC ⟨rfl, rfl⟩, h1, h2⟩

/-- The matrix that `contNucTen` produces from `out = 0`: it returns an `Ns × Ns`
matrix, which does not depend on the uninitialised locals. -/
theorem contNucTen_zero_spinMat {R : Type} [CommRing R] [StarRing R]
    (A B : A2AMatrixNuc R) (N Nj : Nat)
    (hA : A.dim0 = Ns ∧ A.dim1 = N ∧ A.dim2 = Nj ∧ A.dim3 = N)
    (hB : B.dim0 = Ns ∧ B.dim1 = N ∧ B.dim2 = Nj ∧ B.dim3 = N) :
    ∃ S, (∀ uninit, contNucTen uninit (A2AMatrix.zero Ns Ns) A B = some S)
      ∧ S.rows = Ns ∧ S.cols = Ns := by
  obtain ⟨h1, h2, _⟩ := foldl_addAt_cells (fun mu nu =>
      ∑ i ∈ Finset.range N, ∑ j ∈ Finset.range Nj, ∑ k ∈ Finset.range N,
        contNucTenTerm A B mu nu i j k) Ns Ns (A2AMatrix.zero Ns Ns)
  exact ⟨_, fun uninit => contNucTen_eq_foldl uninit _ A B N Nj hA hB ⟨rfl, rfl⟩, h1, h2⟩

/-- C20. Composed operators: for `A`, `B` of shape `[Ns, N, Nj, N]` and every initial
value `acc0`, `ContractNucleonTPlus(acc, A, B)` ends with
`acc = acc0 + trace(ProjTPlus(S))`, `S` being the result of `contNucTen` on a fresh
`Ns × Ns` zero matrix, so that the result depends on `acc0`, `A` and `B` only; likewise,
for an `N × N` matrix `C`, `ContractNuc3ptTPlusPxy(acc, A, C, B)` ends with
`acc = acc0 + trace(ProjTPlusPxy(S3))`, `S3` being the result of `contNuc3ptUp` on a
fresh zero matrix. -/
theorem composed_operators {R : Type} [Field R] [StarRing R] (acc0 : R)
    (A : A2AMatrixNuc R) (C : A2AMatrix R) (B : A2AMatrixNuc R) (N Nj : Nat)
    (hA : A.dim0 = Ns ∧ A.dim1 = N ∧ A.dim2 = Nj ∧ A.dim3 = N)
    (hB : B.dim0 = Ns ∧ B.dim1 = N ∧ B.dim2 = Nj ∧ B.dim3 = N)
    (hC : C.rows = N ∧ C.cols = N) :
    (∃ S T, (∀ uninit, contNucTen uninit (A2AMatrix.zero Ns Ns) A B = some S) ∧
      ProjTPlus (A2AMatrix.zero Ns Ns) S = some (T, S) ∧
      ∀ uninit, ContractNucleonTPlus uninit acc0 A B = some (acc0 + T.trace)) ∧
    (∃ S3 T3, (∀ uninit uninitM,
        contNuc3ptUp uninit uninitM (A2AMatrix.zero Ns Ns) A C B = some S3) ∧
      ProjTPlusPxy (A2AMatrix.zero Ns Ns) S3 = some (T3, S3) ∧
      ∀ uninit uninitM,
        ContractNuc3ptTPlusPxy uninit uninitM acc0 A C B = some (acc0 + T3.trace)) := by
  constructor
  · obtain ⟨S, hS, hr, _⟩ := contNucTen_zero_spinMat A B N Nj hA hB
    obtain ⟨T, hT, _⟩ := ProjTPlus_coeff (A2AMatrix.zero Ns Ns) S hr
    refine ⟨S, T, hS, hT, ?_⟩
    intro uninit
    unfold ContractNucleonTPlus TrProjTPlus
    rw [hS uninit, Option.some_bind, hT]
    rfl
  · obtain ⟨S3, hS3, hr, _⟩ := contNuc3ptUp_zero_spinMat A C B N Nj hA hB hC
    obtain ⟨T3, hT3, _⟩ := ProjTPlusPxy_coeff (A2AMatrix.zero Ns Ns) S3 hr
    refine ⟨S3, T3, hS3, hT3, ?_⟩
    intro uninit uninitM
    unfold ContractNuc3ptTPlusPxy TrProjTPlusPxy
    rw [hS3 uninit uninitM, Option.some_bind, hT3]
    rfl

/-- The composed operators on `ratA`, `ratC`, `ratB` with `acc = 1/7`. -/
theorem composed_operators_witness :
    (ratA.dim0 = Ns ∧ ratA.dim1 = 2 ∧ ratA.dim2 = 1 ∧ ratA.dim3 = 2) ∧
    (ratB.dim0 = Ns ∧ ratB.dim1 = 2 ∧ ratB.dim2 = 1 ∧ ratB.dim3 = 2) ∧
    (ratC.rows = 2 ∧ ratC.cols = 2) ∧
    (∃ S T, (∀ uninit, contNucTen uninit (A2AMatrix.zero Ns Ns) ratA ratB = some S) ∧
      ProjTPlus (A2AMatrix.zero Ns Ns) S = some (T, S) ∧
      ∀ uninit, ContractNucleonTPlus uninit (1 / 7) ratA ratB = some (1 / 7 + T.trace)) ∧
    (∃ S3 T3, (∀ uninit uninitM,
        contNuc3ptUp uninit uninitM (A2AMatrix.zero Ns Ns) ratA ratC ratB = some S3) ∧
      ProjTPlusPxy (A2AMatrix.zero Ns Ns) S3 = some (T3, S3) ∧
      ∀ uninit uninitM,
        ContractNuc3ptTPlusPxy uninit uninitM (1 / 7) ratA ratC ratB
          = some (1 / 7 + T3.trace)) :=
  ⟨⟨rfl, rfl, rfl, rfl⟩, ⟨rfl, rfl, rfl, rfl⟩, ⟨rfl, rfl⟩,
    composed_operators (1 / 7) ratA ratC ratB 2 1 ⟨rfl, rfl, rfl, rfl⟩ ⟨rfl, rfl, rfl, rfl⟩
      ⟨rfl, rfl⟩⟩

/-! ## The checks of `load` -/

/-- C21. Scenario S5 on a handle declared with `N_t = 8` and `(N_i, N_j, N_k) = (6, 8, 8)`
and a file with the dataset `[8, 4, 6, 8, 8]` in chunks `[1, 4, 4, 4, 4]`: `load` raises
the Size error of the size check, whose message names the dataset extents and the
handle but not the chunk extents; the chunk check, which is not reached, would have
raised the Size error whose message names both the chunk extents and the dataset
extents. -/
theorem load_chunk_scenario_size_message :
    chunkIo.load chunkFs emptyV (some 0)
      = .error (.size "all-to-all matrix size mismatch (got 8x4x6x8x8, expected 4x8x6x8x8") ∧
    loadChunkCount ⟨8, 4, 6, 8, 8⟩ (some ⟨1, 4, 4, 4, 4⟩)
      = .error (.size ("all-to-all chunk size mismatch (not a divisor of overall dimensions): "
          ++ "got chunk dims1x4x4x4x4, for overall dims 8x4x6x8x8")) :=
  ⟨rfl, rfl⟩

/-- C23. On the dataset `[4, 4, 2, 1, 1]` in chunks `[1, 4, 1, 1, 1]` (the chunk extents
divide the mode extents) `chunkCount` is `2 = N_i / c_i` and is used along the three
mode axes: the hyperslab of `t = 0` has `count = [1, 1, 2, 2, 2]`, holds the cell
`(0, 0, 0, 1, 0)`, which is outside the dataset (`N_j = 1`), and has 32 cells where the
time slice has 8; `load` ends with the failure of the HDF5 read. -/
theorem loadSelection_leaves_time_slice :
    loadChunkCount ⟨4, 4, 2, 1, 1⟩ (some ⟨1, 4, 1, 1, 1⟩) = .ok 2 ∧
    loadSelection slabIo (some ⟨1, 4, 1, 1, 1⟩) 2
      = (⟨1, 1, 2, 2, 2⟩, ⟨1, 1, 1, 1, 1⟩, ⟨1, 4, 1, 1, 1⟩) ∧
    (⟨0, 0, 0, 1, 0⟩ : Dim5)
      ∈ selectHyperslab ⟨1, 1, 2, 2, 2⟩ ⟨0, 0, 0, 0, 0⟩ ⟨1, 1, 1, 1, 1⟩ ⟨1, 4, 1, 1, 1⟩ ∧
    (selectHyperslab ⟨1, 1, 2, 2, 2⟩ ⟨0, 0, 0, 0, 0⟩ ⟨1, 1, 1, 1, 1⟩ ⟨1, 4, 1, 1, 1⟩).length
      = 32 ∧
    slabIo.load slabFs emptyV (some 0)
      = .error (.hdf5 "file and memory selections differ in size") := by
  refine ⟨rfl, rfl, by decide, by decide, rfl⟩

/-- The method `load` once the dataset is open: the size check, the chunk check, the
write through `tRead`, the time loop. -/
theorem load_of_open {Md T : Type} (io : A2AMatrixNucIo) (fs : FileSystem Md T)
    (file : H5File Md T) (v : Nat → A2AMatrixNuc (Option T)) (tRead : Option Int)
    (hopen : io.openDataSet fs = .ok file) :
    io.load fs v tRead = (io.loadCheckSize file.dataset.dim).bind fun io2 =>
      (loadChunkCount file.dataset.dim file.dataset.chunk).bind fun chunkCount =>
        if tRead.isNone then .error .nullPointer
        else ((List.range io2.nt).reverse.foldlM (fun w t =>
          (readSlab file.dataset io2 (selectHyperslab
            (loadSelection io2 file.dataset.chunk chunkCount).1 ⟨t, 0, 0, 0, 0⟩
            (loadSelection io2 file.dataset.chunk chunkCount).2.1
            (loadSelection io2 file.dataset.chunk chunkCount).2.2)).bind fun buf =>
              .ok fun t2 => if t2 = t then buf else w t2) v).bind fun v2 => .ok (io2, v2) := by
  unfold A2AMatrixNucIo.load
  rw [hopen]
  rfl

/-- An error of the size check is the error of `load`. -/
theorem load_error_of_check {Md T : Type} (io : A2AMatrixNucIo) (fs : FileSystem Md T)
    (file : H5File Md T) (v : Nat → A2AMatrixNuc (Option T)) (tRead : Option Int)
    (hopen : io.openDataSet fs = .ok file) (e : Failure)
    (h : io.loadCheckSize file.dataset.dim = .error e) : io.load fs v tRead = .error e := by
  rw [load_of_open io fs file v tRead hopen, h]
  rfl

/-- The handle that a successful `load` returns is the one left by the size check. -/
theorem load_ok_handle {Md T : Type} (io : A2AMatrixNucIo) (fs : FileSystem Md T)
    (file : H5File Md T) (v : Nat → A2AMatrixNuc (Option T)) (tRead : Option Int)
    (hopen : io.openDataSet fs = .ok file) (io3 : A2AMatrixNucIo)
    (v3 : Nat → A2AMatrixNuc (Option T)) (h : io.load fs v tRead = .ok (io3, v3)) :
    io.loadCheckSize file.dataset.dim = .ok io3 := by
  rw [load_of_open io fs file v tRead hopen] at h
  cases h1 : io.loadCheckSize file.dataset.dim with
  | error e => rw [h1] at h; cases h
  | ok io2 =>
    rw [h1] at h
    simp only [Except.bind] at h
    cases h2 : loadChunkCount file.dataset.dim file.dataset.chunk with
    | error e => rw [h2] at h; cases h
    | ok cc =>
      rw [h2] at h
      simp only at h
      split at h
      · cases h
      · split at h
        · cases h
        · cases h
          rfl

/-- The size check of `load` on a handle with a mode extent equal to zero: only the
time and spin extents are compared, and the mode extents of the file are adopted. -/
theorem loadCheckSize_of_zero (io : A2AMatrixNucIo) (hdim : Dim5)
    (hz : io.ni = 0 ∨ io.nj = 0 ∨ io.nk = 0) :
    io.loadCheckSize hdim =
      if hdim.d0 ≠ io.nt ∨ hdim.d1 ≠ Ns then
        .error (.size ("all-to-all time size mismatch (got " ++ toString hdim.d0 ++ "x"
          ++ toString hdim.d1 ++ ", expected " ++ toString io.nt ++ "x" ++ toString Ns ++ ")"))
      else
        .ok { filename := io.filename, dataname := io.dataname, nt := io.nt,
              ni := u32 hdim.d2, nj := u32 hdim.d3, nk := u32 hdim.d4 } := by
  have h0 : io.ni * io.nj * io.nk = 0 := by
    rcases hz with h | h | h <;> simp [h]
  have h1 : Ns * io.nt * io.ni * io.nj * io.nk = 0 := by
    have : Ns * io.nt * io.ni * io.nj * io.nk = Ns * io.nt * (io.ni * io.nj * io.nk) := by ring
    rw [this, h0, Nat.mul_zero]
  unfold A2AMatrixNucIo.loadCheckSize
  rw [if_neg (by simp [A2AMatrixNucIo.sizeMismatch, h1, u32]), if_pos (by simp [h0, u32])]

theorem u32_of_lt (n : Nat) (h : n < 2 ^ 32) : u32 n = n := Nat.mod_eq_of_lt h

/-- C24. Adopting the file's dimensions: for a handle with at least one of `N_i`, `N_j`,
`N_k` equal to zero (whatever `N_t`, so also for `N_t > 0`) and a file whose dataset has
the extents `[h0, h1, h2, h3, h4]`, `load` raises a Size error if `h0 ≠ N_t` or
`h1 ≠ N_s`; otherwise the size check leaves the handle with `N_t` unchanged and
`getNi`, `getNj`, `getNk` equal to `h2`, `h3`, `h4` converted to `unsigned int`, which
are `h2`, `h3`, `h4` themselves for extents below `2^32`, and this is the handle that
`load` returns. -/
theorem load_adopts_file_dims {Md T : Type} (io : A2AMatrixNucIo) (fs : FileSystem Md T)
    (file : H5File Md T) (v : Nat → A2AMatrixNuc (Option T)) (tRead : Option Int)
    (hz : io.ni = 0 ∨ io.nj = 0 ∨ io.nk = 0)
    (hopen : io.openDataSet fs = .ok file) :
    ((file.dataset.dim.d0 ≠ io.nt ∨ file.dataset.dim.d1 ≠ Ns) →
      ∃ msg, io.load fs v tRead = .error (.size msg)) ∧
    (file.dataset.dim.d0 = io.nt → file.dataset.dim.d1 = Ns →
      ∃ io2, io.loadCheckSize file.dataset.dim = .ok io2 ∧
        (∀ io3 v3, io.load fs v tRead = .ok (io3, v3) → io3 = io2) ∧
        io2.getNt = io.nt ∧
        (io2.getNi, io2.getNj, io2.getNk) = (u32 file.dataset.dim.d2,
          u32 file.dataset.dim.d3, u32 file.dataset.dim.d4) ∧
        (file.dataset.dim.d2 < 2 ^ 32 → file.dataset.dim.d3 < 2 ^ 32 →
          file.dataset.dim.d4 < 2 ^ 32 →
          (io2.getNi, io2.getNj, io2.getNk)
            = (file.dataset.dim.d2, file.dataset.dim.d3, file.dataset.dim.d4))) := by
  constructor
  · intro hne
    have hck := loadCheckSize_of_zero io file.dataset.dim hz
    rw [if_pos hne] at hck
    exact ⟨_, load_error_of_check io fs file v tRead hopen _ hck⟩
  · intro h0 h1
    have hck := loadCheckSize_of_zero io file.dataset.dim hz
    rw [if_neg (by simp [h0, h1])] at hck
    refine ⟨_, hck, ?_, rfl, rfl, ?_⟩
    · intro io3 v3 h3
      have := load_ok_handle io fs file v tRead hopen io3 v3 h3
      rw [hck] at this
      cases this
      rfl
    · intro b2 b3 b4
      show (u32 _, u32 _, u32 _) = _
      rw [u32_of_lt _ b2, u32_of_lt _ b3, u32_of_lt _ b4]

/-- The handle `adoptIo` (`N_t = 4`, no mode extents) on the file of `cubeFs`, whose
dataset has the extents `[4, 4, 2, 2, 2]`. -/
theorem load_adopts_file_dims_witness :
    (adoptIo.ni = 0 ∨ adoptIo.nj = 0 ∨ adoptIo.nk = 0) ∧
    adoptIo.openDataSet cubeFs = .ok cubeFile ∧
    ((cubeFile.dataset.dim.d0 ≠ adoptIo.nt ∨ cubeFile.dataset.dim.d1 ≠ Ns) →
      ∃ msg, adoptIo.load cubeFs emptyV (some 0) = .error (.size msg)) ∧
    (cubeFile.dataset.dim.d0 = adoptIo.nt → cubeFile.dataset.dim.d1 = Ns →
      ∃ io2, adoptIo.loadCheckSize cubeFile.dataset.dim = .ok io2 ∧
        (∀ io3 v3, adoptIo.load cubeFs emptyV (some 0) = .ok (io3, v3) → io3 = io2) ∧
        io2.getNt = adoptIo.nt ∧
        (io2.getNi, io2.getNj, io2.getNk) = (u32 cubeFile.dataset.dim.d2,
          u32 cubeFile.dataset.dim.d3, u32 cubeFile.dataset.dim.d4) ∧
        (cubeFile.dataset.dim.d2 < 2 ^ 32 → cubeFile.dataset.dim.d3 < 2 ^ 32 →
          cubeFile.dataset.dim.d4 < 2 ^ 32 →
          (io2.getNi, io2.getNj, io2.getNk)
            = (cubeFile.dataset.dim.d2, cubeFile.dataset.dim.d3, cubeFile.dataset.dim.d4))) :=
  ⟨Or.inl rfl, rfl, load_adopts_file_dims adoptIo cubeFs cubeFile emptyV (some 0)
    (Or.inl rfl) rfl⟩

/-- C30. On the handle `cubeIo` and the file of `cubeFs`, which pass every check of
`load`: with a pointer `tRead` both overloads of `load` return; with `tRead` absent both
end in the write `*tRead = 0.` through the null pointer, which no test guards. -/
theorem load_tRead_absent :
    (cubeIo.load cubeFs emptyV (some 0)).toBool = true ∧
    cubeIo.load cubeFs emptyV none = .error .nullPointer ∧
    (cubeIo.loadGrid cubeFs emptyV oneRankGrid (some 0)).toBool = true ∧
    cubeIo.loadGrid cubeFs emptyV oneRankGrid none = .error .nullPointer := by
  refine ⟨by decide, rfl, by decide, rfl⟩

/-! ## The grid-aware `load` -/

/-- A loop that stores the result of each iteration `p` in slot `p.1`: when it ends
without failure, every slot visited holds the result of its iteration, the slots being
visited once each, and the other slots are unchanged. -/
theorem foldlM_update_ok {β : Type} (f : Nat × Nat → Except Failure β) (l : List (Nat × Nat))
    (hnd : (l.map Prod.fst).Nodup) (v v2 : Nat → β)
    (h : l.foldlM (fun w p => (f p).bind fun buf =>
      .ok fun t2 => if t2 = p.1 then buf else w t2) v = .ok v2) :
    (∀ p ∈ l, f p = .ok (v2 p.1)) ∧ ∀ t, t ∉ l.map Prod.fst → v2 t = v t := by
  induction l generalizing v with
  | nil =>
    cases h
    exact ⟨fun p hp => absurd hp (List.not_mem_nil p), fun _ _ => rfl⟩
  | cons p l ih =>
    rw [List.map_cons, List.nodup_cons] at hnd
    rw [List.foldlM_cons] at h
    cases hf : f p with
    | error e => rw [hf] at h; cases h
    | ok buf =>
      rw [hf] at h
      obtain ⟨ih1, ih2⟩ := ih hnd.2 _ h
      constructor
      · intro q hq
        rcases List.mem_cons.1 hq with rfl | hq
        · rw [ih2 _ hnd.1, if_pos rfl]
          exact hf
        · exact ih1 q hq
      · intro t ht
        rw [List.map_cons, List.mem_cons, not_or] at ht
        rw [ih2 t ht.2, if_neg ht.1]

/-- A successful grid-aware `load` has run its time loop to the end, on the vector it
returns. -/
theorem loadGrid_ok_loop {Md T : Type} (io : A2AMatrixNucIo) (fs : FileSystem Md T)
    (file : H5File Md T) (v : Nat → A2AMatrixNuc (Option T)) (grid : GridCartesian)
    (tRead : Option Int) (hopen : io.openDataSet fs = .ok file) (io2 : A2AMatrixNucIo)
    (v2 : Nat → A2AMatrixNuc (Option T))
    (h : io.loadGrid fs v grid tRead = .ok (io2, v2)) :
    ∃ count stride block,
      loadGridLoop file.dataset io2 count stride block (gridTimeSlices grid) v = .ok v2 := by
  unfold A2AMatrixNucIo.loadGrid at h
  rw [hopen] at h
  change ((io.loadCheckSizeGrid grid file.dataset.dim).bind fun io2 =>
      (loadChunkCount file.dataset.dim file.dataset.chunk).bind fun chunkCount =>
        if tRead.isNone then .error .nullPointer
        else (loadGridLoop file.dataset io2
            (loadSelection io2 file.dataset.chunk chunkCount).1
            (loadSelection io2 file.dataset.chunk chunkCount).2.1
            (loadSelection io2 file.dataset.chunk chunkCount).2.2
            (gridTimeSlices grid) v).bind fun v2 => .ok (io2, v2)) = _ at h
  cases h1 : io.loadCheckSizeGrid grid file.dataset.dim with
  | error e => rw [h1] at h; cases h
  | ok io3 =>
    rw [h1] at h
    simp only [Except.bind] at h
    cases h2 : loadChunkCount file.dataset.dim file.dataset.chunk with
    | error e => rw [h2] at h; cases h
    | ok cc =>
      rw [h2] at h
      simp only at h
      split at h
      · cases h
      · split at h
        · cases h
        · rename_i v3 h3
          cases h
          exact ⟨_, _, _, h3⟩

/-- The time loop on the rank of time coordinate `c`: local `t` from `L - 1` down to 0,
each with the time slice `c * L + t` of the dataset. -/
theorem gridTimeSlices_eq (P L c : Nat) (hc : c < P) :
    gridTimeSlices ⟨P, c, L, P * L⟩ = (List.range L).reverse.map fun t => (t, c * L + t) := by
  unfold gridTimeSlices
  apply List.map_congr_left
  intro t ht
  have ht2 : t < L := by simpa using ht
  have h1 : t + c * L < P * L := by
    calc t + c * L < L + c * L := by omega
      _ = (c + 1) * L := by ring
      _ ≤ P * L := Nat.mul_le_mul_right L hc
  show (t, (t + c * L) % (P * L)) = (t, c * L + t)
  rw [Nat.mod_eq_of_lt h1, Nat.add_comm]

theorem mem_gridTimeSlices (P L c : Nat) (hc : c < P) (t g : Nat) :
    (t, g) ∈ gridTimeSlices ⟨P, c, L, P * L⟩ ↔ t < L ∧ g = c * L + t := by
  rw [gridTimeSlices_eq P L c hc]
  simp only [List.mem_map, List.mem_reverse, List.mem_range, Prod.mk.injEq]
  constructor
  · rintro ⟨t2, h2, rfl, rfl⟩
    exact ⟨h2, rfl⟩
  · rintro ⟨h2, rfl⟩
    exact ⟨t, h2, rfl, rfl⟩

/-- C25. Grid-aware time translation: on a grid with `P` processors along time, local
extent `L` and global extent `P * L`, on the rank with time coordinate `c < P` the time
loop of the grid-aware `load` visits the local `t = L - 1, ..., 0`, each once, with the
time slice `(c * L + t) mod (P * L) = c * L + t` of the dataset; a `load` that returns
has stored in `v[t]` what it read at the offset `[c * L + t, 0, 0, 0, 0]`; and over the
ranks `c < P` every slice `g < P * L` is read by exactly one rank at exactly one local
time. -/
theorem loadGrid_time_translation (P L c : Nat) (hc : c < P) :
    gridTimeSlices ⟨P, c, L, P * L⟩ = (List.range L).reverse.map (fun t => (t, c * L + t)) ∧
    (∀ t, t < L → (c * L + t) % (P * L) = c * L + t) ∧
    (∀ (Md T : Type) (io : A2AMatrixNucIo) (fs : FileSystem Md T) (file : H5File Md T)
      (v : Nat → A2AMatrixNuc (Option T)) (tRead : Option Int) (io2 : A2AMatrixNucIo)
      (v2 : Nat → A2AMatrixNuc (Option T)),
      io.openDataSet fs = .ok file →
      io.loadGrid fs v ⟨P, c, L, P * L⟩ tRead = .ok (io2, v2) →
      ∃ count stride block, ∀ t, t < L →
        readSlab file.dataset io2 (selectHyperslab count ⟨c * L + t, 0, 0, 0, 0⟩ stride block)
          = .ok (v2 t)) ∧
    (∀ g, g < P * L → ∃ c2 t, (c2 < P ∧ (t, g) ∈ gridTimeSlices ⟨P, c2, L, P * L⟩) ∧
      ∀ c3 t3, c3 < P → (t3, g) ∈ gridTimeSlices ⟨P, c3, L, P * L⟩ → c3 = c2 ∧ t3 = t) := by
  refine ⟨gridTimeSlices_eq P L c hc, ?_, ?_, ?_⟩
  · intro t ht
    apply Nat.mod_eq_of_lt
    calc c * L + t < c * L + L := by omega
      _ = (c + 1) * L := by ring
      _ ≤ P * L := Nat.mul_le_mul_right L hc
  · intro Md T io fs file v tRead io2 v2 hopen hload
    obtain ⟨count, stride, block, hloop⟩ :=
      loadGrid_ok_loop io fs file v _ tRead hopen io2 v2 hload
    refine ⟨count, stride, block, ?_⟩
    intro t ht
    have hnd : ((gridTimeSlices ⟨P, c, L, P * L⟩).map Prod.fst).Nodup := by
      rw [gridTimeSlices_eq P L c hc, List.map_map]
      exact List.Nodup.map (fun a b h => h) (List.nodup_reverse.2 (List.nodup_range L))
    exact (foldlM_update_ok (fun p => readSlab file.dataset io2
      (selectHyperslab count ⟨p.2, 0, 0, 0, 0⟩ stride block)) _ hnd v v2 hloop).1
      (t, c * L + t) ((mem_gridTimeSlices P L c hc t _).2 ⟨ht, rfl⟩)
  · intro g hg
    have hL : 0 < L := by
      rcases Nat.eq_zero_or_pos L with h | h
      · rw [h, Nat.mul_zero] at hg; exact absurd hg (Nat.not_lt_zero _)
      · exact h
    have hq : g / L < P := (Nat.div_lt_iff_lt_mul hL).2 hg
    refine ⟨g / L, g % L, ⟨hq, (mem_gridTimeSlices P L _ hq _ _).2
      ⟨Nat.mod_lt _ hL, ?_⟩⟩, ?_⟩
    · rw [Nat.mul_comm]; exact (Nat.div_add_mod g L).symm
    · intro c3 t3 hc3 hmem
      obtain ⟨ht3, rfl⟩ := (mem_gridTimeSlices P L c3 hc3 t3 _).1 hmem
      constructor
      · rw [Nat.add_comm, Nat.add_mul_div_right _ _ hL, Nat.div_eq_of_lt ht3, Nat.zero_add]
      · rw [Nat.add_comm, Nat.add_mul_mod_self_right, Nat.mod_eq_of_lt ht3]

/-- Three ranks along time with two local time slices each, on the rank of time
coordinate 1. -/
theorem loadGrid_time_translation_witness :
    1 < 3 ∧
    gridTimeSlices ⟨3, 1, 2, 3 * 2⟩ = (List.range 2).reverse.map (fun t => (t, 1 * 2 + t)) ∧
    (∀ t, t < 2 → (1 * 2 + t) % (3 * 2) = 1 * 2 + t) ∧
    (∀ (Md T : Type) (io : A2AMatrixNucIo) (fs : FileSystem Md T) (file : H5File Md T)
      (v : Nat → A2AMatrixNuc (Option T)) (tRead : Option Int) (io2 : A2AMatrixNucIo)
      (v2 : Nat → A2AMatrixNuc (Option T)),
      io.openDataSet fs = .ok file →
      io.loadGrid fs v ⟨3, 1, 2, 3 * 2⟩ tRead = .ok (io2, v2) →
      ∃ count stride block, ∀ t, t < 2 →
        readSlab file.dataset io2 (selectHyperslab count ⟨1 * 2 + t, 0, 0, 0, 0⟩ stride block)
          = .ok (v2 t)) ∧
    (∀ g, g < 3 * 2 → ∃ c2 t, (c2 < 3 ∧ (t, g) ∈ gridTimeSlices ⟨3, c2, 2, 3 * 2⟩) ∧
      ∀ c3 t3, c3 < 3 → (t3, g) ∈ gridTimeSlices ⟨3, c3, 2, 3 * 2⟩ → c3 = c2 ∧ t3 = t) :=
  ⟨by decide, loadGrid_time_translation 3 2 1 (by decide)⟩

/-! ## Bounds of the accesses of the engine -/

theorem total_le_cube (c n1 n2 n3 b : Nat) (h1 : n1 ≤ b) (h2 : n2 ≤ b) (h3 : n3 ≤ b) :
    c * n1 * n2 * n3 ≤ c * b * b * b :=
  Nat.mul_le_mul (Nat.mul_le_mul (Nat.mul_le_mul (Nat.le_refl c) h1) h2) h3

theorem radix_lt (q a D d : Nat) (hq : q < D) (ha : a < d) : q * d + a < D * d := by
  calc q * d + a < q * d + d := by omega
    _ = (q + 1) * d := by ring
    _ ≤ D * d := Nat.mul_le_mul_right d hq

theorem radix_div (q a e d : Nat) (ha : a < d) : (q * d + a) / (e * d) = q / e := by
  have hd : 0 < d := by omega
  rw [Nat.mul_comm e d, ← Nat.div_div_eq_div_mul, Nat.add_comm, Nat.add_mul_div_right _ _ hd,
    Nat.div_eq_of_lt ha, Nat.zero_add]

theorem radix_div_one (q a d : Nat) (ha : a < d) : (q * d + a) / d = q := by
  have hd : 0 < d := by omega
  rw [Nat.add_comm, Nat.add_mul_div_right _ _ hd, Nat.div_eq_of_lt ha, Nat.zero_add]

theorem radix_mod (q a d : Nat) (ha : a < d) : (q * d + a) % d = a := by
  rw [Nat.add_comm, Nat.add_mul_mod_self_right, Nat.mod_eq_of_lt ha]

/-- The position of an element of a view lies in the view. -/
theorem index_lt_total (m : A2AMatrixSetNuc) (a0 a1 a2 a3 a4 a5 : Nat)
    (h0 : a0 < m.dim0) (h1 : a1 < m.dim1) (h2 : a2 < m.dim2) (h3 : a3 < m.dim3)
    (h4 : a4 < m.dim4) (h5 : a5 < m.dim5) :
    m.index a0 a1 a2 a3 a4 a5 < m.data + m.total := by
  unfold A2AMatrixSetNuc.index A2AMatrixSetNuc.total
  have := radix_lt _ _ _ _ (radix_lt _ _ _ _ (radix_lt _ _ _ _ (radix_lt _ _ _ _
    (radix_lt _ _ _ _ h0 h1) h2) h3) h4) h5
  omega

/-- The indices of an element are recovered from its position. -/
theorem unindex_index (m : A2AMatrixSetNuc) (a0 a1 a2 a3 a4 a5 : Nat)
    (h1 : a1 < m.dim1) (h2 : a2 < m.dim2) (h3 : a3 < m.dim3)
    (h4 : a4 < m.dim4) (h5 : a5 < m.dim5) :
    m.unindex (m.index a0 a1 a2 a3 a4 a5 - m.data) = (a0, a1, a2, a3, a4, a5) := by
  unfold A2AMatrixSetNuc.unindex A2AMatrixSetNuc.index
  rw [Nat.add_sub_cancel_left]
  simp only [radix_div _ _ _ _ h5, radix_div _ _ _ _ h4, radix_div _ _ _ _ h3,
    radix_div _ _ _ _ h2, radix_div_one _ _ _ h5, radix_div_one _ _ _ h4,
    radix_div_one _ _ _ h3, radix_div_one _ _ _ h2, radix_div_one _ _ _ h1,
    radix_mod _ _ _ h5, radix_mod _ _ _ h4, radix_mod _ _ _ h3, radix_mod _ _ _ h2,
    radix_mod _ _ _ h1]

/-- Two elements of a view at the same position have the same indices. -/
theorem index_inj (m : A2AMatrixSetNuc) (a0 a1 a2 a3 a4 a5 b0 b1 b2 b3 b4 b5 : Nat)
    (h1 : a1 < m.dim1) (h2 : a2 < m.dim2) (h3 : a3 < m.dim3)
    (h4 : a4 < m.dim4) (h5 : a5 < m.dim5)
    (g1 : b1 < m.dim1) (g2 : b2 < m.dim2) (g3 : b3 < m.dim3)
    (g4 : b4 < m.dim4) (g5 : b5 < m.dim5)
    (h : m.index a0 a1 a2 a3 a4 a5 = m.index b0 b1 b2 b3 b4 b5) :
    (a0, a1, a2, a3, a4, a5) = (b0, b1, b2, b3, b4, b5) := by
  rw [← unindex_index m a0 a1 a2 a3 a4 a5 h1 h2 h3 h4 h5,
    ← unindex_index m b0 b1 b2 b3 b4 b5 g1 g2 g3 g4 g5, h]

/-- The kernel call succeeds on a buffer that holds the view, and leaves in every
element of the view the value of the kernel. -/
theorem applyKernel_read {T : Type} (kernel : Kernel T) (m : A2AMatrixSetNuc)
    (i0 j0 k0 : Nat) (cache : Buffer T) (hsize : m.data + m.total ≤ cache.size) :
    ∃ c2, applyKernel kernel m i0 j0 k0 cache = .ok c2 ∧ c2.size = cache.size ∧
      ∀ a0 a1 a2 a3 a4 a5, a0 < m.dim0 → a1 < m.dim1 → a2 < m.dim2 → a3 < m.dim3 →
        a4 < m.dim4 → a5 < m.dim5 →
        c2.read (m.index a0 a1 a2 a3 a4 a5) = some (kernel i0 j0 k0 a0 a1 a2 a3 a4 a5) := by
  unfold applyKernel
  rw [if_neg (by omega)]
  refine ⟨_, rfl, rfl, ?_⟩
  intro a0 a1 a2 a3 a4 a5 h0 h1 h2 h3 h4 h5
  have hlt := index_lt_total m a0 a1 a2 a3 a4 a5 h0 h1 h2 h3 h4 h5
  have hge : m.data ≤ m.index a0 a1 a2 a3 a4 a5 := Nat.le_add_right _ _
  unfold Buffer.read
  rw [if_pos (show m.index a0 a1 a2 a3 a4 a5 < cache.size by omega)]
  show (if _ then _ else _) = _
  rw [if_pos ⟨hge, hlt⟩]
  simp only [unindex_index m a0 a1 a2 a3 a4 a5 h1 h2 h3 h4 h5]

/-- A sequence of writes at distinct positions inside a buffer succeeds; afterwards
each position written holds its value and every other cell is unchanged. -/
theorem foldlM_write {T ι : Type} (pos : ι → Nat) (val : ι → Option T) (l : List ι)
    (b : Buffer T) (hr : ∀ it ∈ l, pos it < b.size) (hnd : (l.map pos).Nodup) :
    ∃ b2, l.foldlM (fun buf it => buf.write (pos it) (val it)) b = .ok b2 ∧
      b2.size = b.size ∧ (∀ it ∈ l, b2.cell (pos it) = val it) ∧
      ∀ q, q ∉ l.map pos → b2.cell q = b.cell q := by
  induction l generalizing b with
  | nil => exact ⟨b, rfl, rfl, fun it hit => absurd hit (List.not_mem_nil it), fun _ _ => rfl⟩
  | cons a l ih =>
    rw [List.map_cons, List.nodup_cons] at hnd
    have ha : pos a < b.size := hr a (List.mem_cons_self a l)
    have hw : b.write (pos a) (val a)
        = .ok { size := b.size, cell := fun q => if q = pos a then val a else b.cell q } := by
      unfold Buffer.write
      rw [if_pos ha]
    obtain ⟨b2, hb2, hs, hc, ho⟩ := ih
      { size := b.size, cell := fun q => if q = pos a then val a else b.cell q }
      (fun it hit => hr it (List.mem_cons_of_mem a hit)) hnd.2
    refine ⟨b2, ?_, hs, ?_, ?_⟩
    · rw [List.foldlM_cons, hw]
      exact hb2
    · intro it hit
      rcases List.mem_cons.1 hit with rfl | hit
      · rw [ho _ hnd.1]
        exact if_pos rfl
      · exact hc it hit
    · intro q hq
      rw [List.map_cons, List.mem_cons, not_or] at hq
      rw [ho q hq.2]
      exact if_neg hq.1

/-- One cache tile: the kernel call and the copy succeed; afterwards the cells of the
tile view in the box of the cache tile hold the values of the kernel, and the other
cells of the tile view are unchanged. -/
theorem cacheTileStep_cells {Md T : Type} (eng : A2AMatrixNucleonBlockComputation)
    (kernel : Kernel T) (tile : OuterTile) (s : EngineState Md T) (ct : CacheTile)
    (hcache : (eng.mCacheBlock ct).total ≤ s.mCache.size)
    (hbuf : (eng.mBlock tile).total ≤ s.mBuf.size)
    (hin : ct.ii + ct.N_iii ≤ tile.N_ii ∧ ct.jj + ct.N_jjj ≤ tile.N_jj
      ∧ ct.kk + ct.N_kkk ≤ tile.N_kk) :
    ∃ s2, eng.cacheTileStep kernel tile s ct = .ok s2 ∧ s2.mCache.size = s.mCache.size ∧
      s2.mBuf.size = s.mBuf.size ∧
      ∀ e t st x y z, e < eng.next → t < eng.nt → st < eng.nstr → x < tile.N_ii →
        y < tile.N_jj → z < tile.N_kk →
        (ct.contains x y z → s2.mBuf.cell ((eng.mBlock tile).index e t st x y z)
          = some (kernel (tile.i + ct.ii) (tile.j + ct.jj) (tile.k + ct.kk) e st t
              (x - ct.ii) (y - ct.jj) (z - ct.kk))) ∧
        (¬ ct.contains x y z → s2.mBuf.cell ((eng.mBlock tile).index e t st x y z)
          = s.mBuf.cell ((eng.mBlock tile).index e t st x y z)) := by
  obtain ⟨c2, hc2, hc2s, hc2r⟩ := applyKernel_read kernel (eng.mCacheBlock ct)
    (tile.i + ct.ii) (tile.j + ct.jj) (tile.k + ct.kk) s.mCache
    (by rw [show (eng.mCacheBlock ct).data = 0 from rfl, Nat.zero_add]; exact hcache)
  have hrange : ∀ it ∈ copyIterations eng ct,
      (eng.mBlock tile).index it.1 it.2.2.1 it.2.1 (ct.ii + it.2.2.2.1)
        (ct.jj + it.2.2.2.2.1) (ct.kk + it.2.2.2.2.2) < s.mBuf.size := by
    rintro ⟨e, st, t, iii, jjj, kkk⟩ hit
    rw [mem_copyIterations] at hit
    have := index_lt_total (eng.mBlock tile) e t st (ct.ii + iii) (ct.jj + jjj) (ct.kk + kkk)
      hit.1 hit.2.2.1 hit.2.1 (show ct.ii + iii < tile.N_ii by omega)
      (show ct.jj + jjj < tile.N_jj by omega) (show ct.kk + kkk < tile.N_kk by omega)
    rw [show (eng.mBlock tile).data = 0 from rfl, Nat.zero_add] at this
    exact Nat.lt_of_lt_of_le this hbuf
  have hinj : ∀ a ∈ copyIterations eng ct, ∀ b ∈ copyIterations eng ct,
      (eng.mBlock tile).index a.1 a.2.2.1 a.2.1 (ct.ii + a.2.2.2.1)
        (ct.jj + a.2.2.2.2.1) (ct.kk + a.2.2.2.2.2)
      = (eng.mBlock tile).index b.1 b.2.2.1 b.2.1 (ct.ii + b.2.2.2.1)
        (ct.jj + b.2.2.2.2.1) (ct.kk + b.2.2.2.2.2) → a = b := by
    rintro ⟨e, st, t, iii, jjj, kkk⟩ ha ⟨e2, st2, t2, iii2, jjj2, kkk2⟩ hb h
    rw [mem_copyIterations] at ha hb
    have := index_inj (eng.mBlock tile) _ _ _ _ _ _ _ _ _ _ _ _
      ha.2.2.1 ha.2.1 (show ct.ii + iii < tile.N_ii by omega)
      (show ct.jj + jjj < tile.N_jj by omega) (show ct.kk + kkk < tile.N_kk by omega)
      hb.2.2.1 hb.2.1 (show ct.ii + iii2 < tile.N_ii by omega)
      (show ct.jj + jjj2 < tile.N_jj by omega) (show ct.kk + kkk2 < tile.N_kk by omega) h
    simp only [Prod.mk.injEq] at this ⊢
    omega
  obtain ⟨b2, hb2, hb2s, hb2c, hb2o⟩ := foldlM_write
    (fun it : Nat × Nat × Nat × Nat × Nat × Nat =>
      (eng.mBlock tile).index it.1 it.2.2.1 it.2.1 (ct.ii + it.2.2.2.1)
        (ct.jj + it.2.2.2.2.1) (ct.kk + it.2.2.2.2.2))
    (fun it => c2.read ((eng.mCacheBlock ct).index it.1 it.2.1 it.2.2.1 it.2.2.2.1
      it.2.2.2.2.1 it.2.2.2.2.2))
    (copyIterations eng ct) s.mBuf hrange
    (List.Nodup.map_on hinj (nodup_copyIterations eng ct))
  have hcopy : cacheCopy eng tile ct c2 s.mBuf = .ok b2 := hb2
  refine ⟨{ mCache := c2, mBuf := b2, fs := s.fs }, ?_, hc2s, hb2s, ?_⟩
  · unfold A2AMatrixNucleonBlockComputation.cacheTileStep
    rw [hc2]
    show (cacheCopy eng tile ct c2 s.mBuf).bind _ = _
    rw [hcopy]
    rfl
  · intro e t st x y z he ht hst hx hy hz
    constructor
    · intro hcont
      obtain ⟨⟨hx1, hx2⟩, ⟨hy1, hy2⟩, ⟨hz1, hz2⟩⟩ := hcont
      have hmem : (e, st, t, x - ct.ii, y - ct.jj, z - ct.kk) ∈ copyIterations eng ct := by
        rw [mem_copyIterations]
        omega
      have h1 := hb2c _ hmem
      have e1 : ct.ii + (x - ct.ii) = x := Nat.add_sub_cancel' hx1
      have e2 : ct.jj + (y - ct.jj) = y := Nat.add_sub_cancel' hy1
      have e3 : ct.kk + (z - ct.kk) = z := Nat.add_sub_cancel' hz1
      simp only [e1, e2, e3] at h1
      show b2.cell _ = _
      rw [h1]
      exact hc2r e st t (x - ct.ii) (y - ct.jj) (z - ct.kk) he hst ht
        (show x - ct.ii < ct.N_iii by omega) (show y - ct.jj < ct.N_jjj by omega)
        (show z - ct.kk < ct.N_kkk by omega)
    · intro hcont
      show b2.cell _ = _
      apply hb2o
      intro hq
      obtain ⟨⟨e2, st2, t2, iii2, jjj2, kkk2⟩, hit, hpos⟩ := List.mem_map.1 hq
      rw [mem_copyIterations] at hit
      have := index_inj (eng.mBlock tile) _ _ _ _ _ _ _ _ _ _ _ _
        hit.2.2.1 hit.2.1 (show ct.ii + iii2 < tile.N_ii by omega)
        (show ct.jj + jjj2 < tile.N_jj by omega) (show ct.kk + kkk2 < tile.N_kk by omega)
        ht hst hx hy hz hpos
      simp only [Prod.mk.injEq] at this
      apply hcont
      unfold CacheTile.contains
      omega

/-- The cache loops over a list of cache tiles with disjoint boxes inside the tile
view: the loops succeed, and every cell in the box of a cache tile holds the value
that the kernel call for that tile has written. -/
theorem cacheTiles_fold_cells {Md T : Type} (eng : A2AMatrixNucleonBlockComputation)
    (kernel : Kernel T) (tile : OuterTile) (cts : List CacheTile)
    (hin : ∀ ct ∈ cts, ct.ii + ct.N_iii ≤ tile.N_ii ∧ ct.jj + ct.N_jjj ≤ tile.N_jj
      ∧ ct.kk + ct.N_kkk ≤ tile.N_kk)
    (hdisj : cts.Pairwise fun a b => ∀ x y z, a.contains x y z → ¬ b.contains x y z)
    (s : EngineState Md T)
    (hcache : ∀ ct ∈ cts, (eng.mCacheBlock ct).total ≤ s.mCache.size)
    (hbuf : (eng.mBlock tile).total ≤ s.mBuf.size) :
    ∃ s2, cts.foldlM (eng.cacheTileStep kernel tile) s = .ok s2 ∧
      s2.mBuf.size = s.mBuf.size ∧
      ∀ e t st x y z, e < eng.next → t < eng.nt → st < eng.nstr → x < tile.N_ii →
        y < tile.N_jj → z < tile.N_kk →
        (∀ ct ∈ cts, ct.contains x y z → s2.mBuf.cell ((eng.mBlock tile).index e t st x y z)
          = some (kernel (tile.i + ct.ii) (tile.j + ct.jj) (tile.k + ct.kk) e st t
              (x - ct.ii) (y - ct.jj) (z - ct.kk))) ∧
        ((∀ ct ∈ cts, ¬ ct.contains x y z) → s2.mBuf.cell ((eng.mBlock tile).index e t st x y z)
          = s.mBuf.cell ((eng.mBlock tile).index e t st x y z)) := by
  induction cts generalizing s with
  | nil =>
    exact ⟨s, rfl, rfl, fun e t st x y z _ _ _ _ _ _ =>
      ⟨fun ct hct => absurd hct (List.not_mem_nil ct), fun _ => rfl⟩⟩
  | cons c cts ih =>
    rw [List.pairwise_cons] at hdisj
    obtain ⟨s1, hs1, hs1c, hs1b, hs1cells⟩ := cacheTileStep_cells eng kernel tile s c
      (hcache c (List.mem_cons_self c cts)) hbuf (hin c (List.mem_cons_self c cts))
    obtain ⟨s2, hs2, hs2b, hs2cells⟩ := ih
      (fun ct hct => hin ct (List.mem_cons_of_mem c hct)) hdisj.2 s1
      (fun ct hct => by rw [hs1c]; exact hcache ct (List.mem_cons_of_mem c hct))
      (by rw [hs1b]; exact hbuf)
    refine ⟨s2, ?_, by rw [hs2b, hs1b], ?_⟩
    · rw [List.foldlM_cons, hs1]
      exact hs2
    · intro e t st x y z he ht hst hx hy hz
      obtain ⟨k1, k2⟩ := hs2cells e t st x y z he ht hst hx hy hz
      obtain ⟨j1, j2⟩ := hs1cells e t st x y z he ht hst hx hy hz
      constructor
      · intro ct hct hcont
        rcases List.mem_cons.1 hct with rfl | hct
        · rw [k2 (fun ct2 hct2 => hdisj.1 ct2 hct2 x y z hcont)]
          exact j1 hcont
        · exact k1 ct hct hcont
      · intro hnone
        rw [k2 (fun ct2 hct2 => hnone ct2 (List.mem_cons_of_mem c hct2))]
        exact j2 (hnone c (List.mem_cons_self c cts))

/-- The buffer `mBuf_` after `executeTile` is the one left by the cache loops: the I/O
does not write into it. -/
theorem executeTile_mBuf {Md T : Type} (eng : A2AMatrixNucleonBlockComputation)
    (N_i N_j N_k : Nat) (kernel : Kernel T) (ionameFn filenameFn : Nat → String)
    (metadataFn : Nat → Md) (st st1 st2 : EngineState Md T) (tile : OuterTile)
    (h1 : eng.cachePhase kernel st tile = .ok st1)
    (h2 : eng.executeTile N_i N_j N_k kernel ionameFn filenameFn metadataFn st tile = .ok st2) :
    st2.mBuf = st1.mBuf := by
  unfold A2AMatrixNucleonBlockComputation.cachePhase at h1
  unfold A2AMatrixNucleonBlockComputation.executeTile at h2
  cases hc : liftLoop (cacheTiles tile.N_ii tile.N_jj tile.N_kk eng.cacheBlockSize) with
  | error e => rw [hc] at h1; cases h1
  | ok cts =>
    rw [hc] at h1 h2
    change cts.foldlM (eng.cacheTileStep kernel tile) st = .ok st1 at h1
    change ((cts.foldlM (eng.cacheTileStep kernel tile) st).bind fun st1 =>
      (liftLoop (eng.nodeIo N_i N_j N_k tile ionameFn filenameFn metadataFn)).bind fun tasks =>
        (tasks.foldlM (fun fs h => eng.saveBlock st1.mBuf (eng.mBlock tile) h fs) st1.fs).bind
          fun fs2 => .ok { mCache := st1.mCache, mBuf := st1.mBuf, fs := fs2 }) = .ok st2 at h2
    rw [h1] at h2
    simp only [Except.bind] at h2
    split at h2
    · cases h2
    · split at h2
      · cases h2
      · cases h2
        rfl

/-- C22. Copy-transpose: for every kernel, every cache block size `b ≥ 1` and every
outer tile of shape `(B_i, B_j, B_k)`, on buffers that hold the views (as the buffers
of the constructor do), the cache loops of `execute` succeed, and afterwards, for all
`e < N_ext`, `t < N_t`, `s < N_str`, `x < B_i`, `y < B_j`, `z < B_k`, the element
`mBlock(e, t, s, x, y, z)` of the tile view is the value that the kernel, called for the
cache tile of base `(b*(x/b), b*(y/b), b*(z/b))`, wrote at
`mCacheBlock(e, s, t, x mod b, y mod b, z mod b)`; the I/O that ends the processing of
the tile leaves these elements as they are. -/
theorem cachePhase_copy_transpose {Md T : Type} (eng : A2AMatrixNucleonBlockComputation)
    (kernel : Kernel T) (tile : OuterTile) (st : EngineState Md T)
    (hb : 1 ≤ eng.cacheBlockSize)
    (hcache : eng.nt * eng.next * eng.nstr * eng.cacheBlockSize * eng.cacheBlockSize
      * eng.cacheBlockSize ≤ st.mCache.size)
    (hbuf : (eng.mBlock tile).total ≤ st.mBuf.size) :
    ∃ st1, eng.cachePhase kernel st tile = .ok st1 ∧
      (∀ e t s x y z, e < eng.next → t < eng.nt → s < eng.nstr → x < tile.N_ii →
        y < tile.N_jj → z < tile.N_kk →
        st1.mBuf.read ((eng.mBlock tile).index e t s x y z)
          = some (kernel (tile.i + eng.cacheBlockSize * (x / eng.cacheBlockSize))
              (tile.j + eng.cacheBlockSize * (y / eng.cacheBlockSize))
              (tile.k + eng.cacheBlockSize * (z / eng.cacheBlockSize)) e s t
              (x % eng.cacheBlockSize) (y % eng.cacheBlockSize) (z % eng.cacheBlockSize))) ∧
      ∀ (N_i N_j N_k : Nat) (ionameFn filenameFn : Nat → String) (metadataFn : Nat → Md)
        (st2 : EngineState Md T),
        eng.executeTile N_i N_j N_k kernel ionameFn filenameFn metadataFn st tile = .ok st2 →
        st2.mBuf = st1.mBuf := by
  have hb0 : 0 < eng.cacheBlockSize := hb
  have hcts := cacheTiles_eq tile.N_ii tile.N_jj tile.N_kk eng.cacheBlockSize hb0
  obtain ⟨st1, hst1, hsize, hcells⟩ := cacheTiles_fold_cells eng kernel tile
    ((triples (loopValues tile.N_ii eng.cacheBlockSize 0) (loopValues tile.N_jj eng.cacheBlockSize 0)
      (loopValues tile.N_kk eng.cacheBlockSize 0)).map
        (cacheTileAt tile.N_ii tile.N_jj tile.N_kk eng.cacheBlockSize))
    (by
      intro ct hct
      obtain ⟨c3, hc3, rfl⟩ := List.mem_map.1 hct
      rw [mem_triples] at hc3
      obtain ⟨_, m1⟩ := (mem_loopValues_zero _ _ _ hb0).1 hc3.1
      obtain ⟨_, m2⟩ := (mem_loopValues_zero _ _ _ hb0).1 hc3.2.1
      obtain ⟨_, m3⟩ := (mem_loopValues_zero _ _ _ hb0).1 hc3.2.2
      simp only [cacheTileAt, MIN]
      omega)
    (by
      refine List.Nodup.pairwise_of_forall_ne ?_ ?_
      · exact List.Nodup.map (cacheTileAt_injective _ _ _ _)
          (nodup_triples _ _ _ (nodup_loopValues _ _ _ hb0) (nodup_loopValues _ _ _ hb0)
            (nodup_loopValues _ _ _ hb0))
      · intro a ha b hb2 hne x y z hxa hxb
        obtain ⟨ba, hba, rfl⟩ := List.mem_map.1 ha
        obtain ⟨bb, hbb, rfl⟩ := List.mem_map.1 hb2
        exact hne (congrArg _ (base_unique _ _ _ _ hb0 ba bb hba hbb x y z
          ((cacheTileAt_contains _ _ _ _ _ _ _ _).1 hxa)
          ((cacheTileAt_contains _ _ _ _ _ _ _ _).1 hxb))))
    st
    (by
      intro ct hct
      obtain ⟨c3, _, rfl⟩ := List.mem_map.1 hct
      refine Nat.le_trans ?_ hcache
      have e1 : eng.nt * eng.next * eng.nstr = eng.next * eng.nstr * eng.nt := by ring
      rw [e1]
      exact total_le_cube _ _ _ _ _ (Nat.min_le_right _ _) (Nat.min_le_right _ _)
        (Nat.min_le_right _ _))
    hbuf
  have hphase : eng.cachePhase kernel st tile = .ok st1 := by
    unfold A2AMatrixNucleonBlockComputation.cachePhase
    rw [hcts]
    exact hst1
  refine ⟨st1, hphase, ?_, ?_⟩
  · intro e t s x y z he ht hs hx hy hz
    obtain ⟨hm, hc⟩ := base_cover tile.N_ii tile.N_jj tile.N_kk eng.cacheBlockSize hb0 x y z
      hx hy hz
    have hcell := (hcells e t s x y z he ht hs hx hy hz).1 _ (List.mem_map.2 ⟨_, hm, rfl⟩)
      ((cacheTileAt_contains _ _ _ _ _ _ _ _).2 hc)
    have hlt := index_lt_total (eng.mBlock tile) e t s x y z he ht hs hx hy hz
    rw [show (eng.mBlock tile).data = 0 from rfl, Nat.zero_add] at hlt
    unfold Buffer.read
    rw [if_pos (by rw [hsize]; exact Nat.lt_of_lt_of_le hlt hbuf), hcell]
    have e1 : ∀ w : Nat, w / eng.cacheBlockSize * eng.cacheBlockSize
        = eng.cacheBlockSize * (w / eng.cacheBlockSize) := fun w => Nat.mul_comm _ _
    have e2 : ∀ w : Nat, w - eng.cacheBlockSize * (w / eng.cacheBlockSize)
        = w % eng.cacheBlockSize := fun w => (Nat.mod_def w _).symm
    simp only [cacheTileAt, e1, e2]
  · intro N_i N_j N_k ionameFn filenameFn metadataFn st2 h2
    exact executeTile_mBuf eng N_i N_j N_k kernel ionameFn filenameFn metadataFn st st1 st2
      tile hphase h2

/-- The outer tile of scenario S4 (shape `(4, 4, 4)`, cache block size 2) with its
kernel, on the buffers of the constructor. -/
theorem cachePhase_copy_transpose_witness :
    (1 ≤ s4Engine.cacheBlockSize ∧
      s4Engine.nt * s4Engine.next * s4Engine.nstr * s4Engine.cacheBlockSize
        * s4Engine.cacheBlockSize * s4Engine.cacheBlockSize
        ≤ (s4Engine.init (fun _ => none : FileSystem Unit Nat)).mCache.size ∧
      (s4Engine.mBlock ⟨0, 0, 0, 4, 4, 4⟩).total
        ≤ (s4Engine.init (fun _ => none : FileSystem Unit Nat)).mBuf.size) ∧
    ∃ st1, s4Engine.cachePhase s4Kernel (s4Engine.init (fun _ => none : FileSystem Unit Nat))
        ⟨0, 0, 0, 4, 4, 4⟩ = .ok st1 ∧
      (∀ e t s x y z, e < s4Engine.next → t < s4Engine.nt → s < s4Engine.nstr → x < 4 →
        y < 4 → z < 4 →
        st1.mBuf.read ((s4Engine.mBlock ⟨0, 0, 0, 4, 4, 4⟩).index e t s x y z)
          = some (s4Kernel (0 + s4Engine.cacheBlockSize * (x / s4Engine.cacheBlockSize))
              (0 + s4Engine.cacheBlockSize * (y / s4Engine.cacheBlockSize))
              (0 + s4Engine.cacheBlockSize * (z / s4Engine.cacheBlockSize)) e s t
              (x % s4Engine.cacheBlockSize) (y % s4Engine.cacheBlockSize)
              (z % s4Engine.cacheBlockSize))) ∧
      ∀ (N_i N_j N_k : Nat) (ionameFn filenameFn : Nat → String) (metadataFn : Nat → Unit)
        (st2 : EngineState Unit Nat),
        s4Engine.executeTile N_i N_j N_k s4Kernel ionameFn filenameFn metadataFn
          (s4Engine.init (fun _ => none : FileSystem Unit Nat)) ⟨0, 0, 0, 4, 4, 4⟩ = .ok st2 →
        st2.mBuf = st1.mBuf :=
  ⟨by decide, cachePhase_copy_transpose s4Engine s4Kernel ⟨0, 0, 0, 4, 4, 4⟩
    (s4Engine.init fun _ => none) (by decide) (by decide) (by decide)⟩

/-! ## File creation and the buffer handed to the write -/

/-- C26. On one rank with `N_ext = 2` and `N_str = 2` the task list of the tile of base
`(0, 0, 0)` holds two tasks, both for the file of `e = 0` (`h.e = f / nstr_`): the first
creates the file and writes its block, and the second, whose base is `(0, 0, 0)` as
well, creates the file again, after which the cell written by the first has no value
left. -/
theorem initFile_again_after_block :
    ∃ (h1 h2 : IoHelper Unit) (fs1 : FileSystem Unit Nat),
      twoStrEngine.nodeIo 1 1 1 ⟨0, 0, 0, 1, 1, 1⟩ (fun e => "nucleon_" ++ toString e)
        (fun e => "a2a_" ++ toString e ++ ".h5") (fun _ => ()) = some [h1, h2] ∧
      h1.io.filename = "a2a_0.h5" ∧ h2.io.filename = "a2a_0.h5" ∧
      (h2.i = 0 ∧ h2.j = 0 ∧ h2.k = 0) ∧
      twoStrEngine.saveBlock smallTile (twoStrEngine.mBlock ⟨0, 0, 0, 1, 1, 1⟩) h1
        (fun _ => none) = .ok fs1 ∧
      (fs1 "a2a_0.h5").bind (fun f => f.dataset.cell 0 0 0 0 0) = some 100 ∧
      ((h2.io.initFile h2.md twoStrEngine.blockSize fs1) "a2a_0.h5").bind
        (fun f => f.dataset.cell 0 0 0 0 0) = none :=
  ⟨_, _, _, rfl, rfl, rfl, ⟨rfl, rfl, rfl⟩, rfl, rfl, rfl⟩

/-- C28. In scenario S4 (`N_ext = 1`, `N_t = 2`, `N_str = 1`, tile `4 × 4 × 4`) the buffer
`mBuf_` of the tile view has 128 elements while the low-level `saveBlock` reads
`N_t * Ns * 4 * 4 * 4 = 512` elements from its start; the element `m(0, 1, 0, 0, 0, 0)`
is 1000, but the cell `[1, 0, 0, 0, 0]` of the dataset, read at position 256 outside the
buffer, has no value, and it is the cell `[0, 1, 0, 0, 0]` that holds 1000. -/
theorem saveBlock_region_leaves_buffer :
    (s4Engine.init (fun _ => none : FileSystem Unit Nat)).mBuf.size = 128 ∧
    s4Engine.nt * Ns * 4 * 4 * 4 = 512 ∧
    bufCell s4Run ((s4Engine.mBlock ⟨0, 0, 0, 4, 4, 4⟩).index 0 1 0 0 0 0) = some 1000 ∧
    fileCell s4Run "a2a_0.h5" 1 0 0 0 0 = none ∧
    fileCell s4Run "a2a_0.h5" 0 1 0 0 0 = some 1000 := by
  decide

/-! ## Index safety of the two-point contraction -/

/-- C29, as stated: for `A = B` of shape `[4, 1, 1, 2]` (`N_i = 1`, `N_k = 2`) the access
`b(nu, k, j, i)` at `k = 1` has the index 1 against the extent `N_i = 1`: it is out of
range, and the contraction takes the out-of-range branch. -/
theorem contNucTen_access_out_of_range :
    (intSkew.dim0 = 4 ∧ (A2AMatrix.zero 4 4 : A2AMatrix ℤ).rows = 4
      ∧ (A2AMatrix.zero 4 4 : A2AMatrix ℤ).cols = 4) ∧
    intSkew.at? 0 1 0 0 = none ∧
    contNucTen (1, 1, 2) (A2AMatrix.zero 4 4) intSkew intSkew = none :=
  ⟨⟨rfl, rfl, rfl⟩, rfl, rfl⟩

/-- C29, amended: for `A`, `B` of one shape `[4, N, N_j, N]`, the first and the third
mode extent being equal, and `out` of shape `4 × 4`, every access of `contNucTen`, at
`a(mu,i,j,k)`, `b(nu,i,j,k)` and `b(nu,k,j,i)`, has each index below its extent, and
the contraction does not take the out-of-range branch. -/
theorem contNucTen_index_safe {R : Type} [CommRing R] [StarRing R]
    (uninit : Nat × Nat × Nat) (out : A2AMatrix R) (A B : A2AMatrixNuc R) (N Nj : Nat)
    (hA : A.dim0 = Ns ∧ A.dim1 = N ∧ A.dim2 = Nj ∧ A.dim3 = N)
    (hB : B.dim0 = Ns ∧ B.dim1 = N ∧ B.dim2 = Nj ∧ B.dim3 = N)
    (hout : out.rows = Ns ∧ out.cols = Ns) :
    (contNucTen uninit out A B).isSome = true ∧
    ∀ mu nu i j k, mu < Ns → nu < Ns → i < N → j < Nj → k < N →
      (A.at? mu i j k).isSome = true ∧ (B.at? nu i j k).isSome = true
        ∧ (B.at? nu k j i).isSome = true := by
  constructor
  · rw [contNucTen_eq_foldl uninit out A B N Nj hA hB hout]
    rfl
  · intro mu nu i j k hmu hnu hi hj hk
    unfold A2AMatrixNuc.at?
    rw [if_pos (by rw [hA.1, hA.2.1, hA.2.2.1, hA.2.2.2]; exact ⟨hmu, hi, hj, hk⟩),
      if_pos (by rw [hB.1, hB.2.1, hB.2.2.1, hB.2.2.2]; exact ⟨hnu, hi, hj, hk⟩),
      if_pos (by rw [hB.1, hB.2.1, hB.2.2.1, hB.2.2.2]; exact ⟨hnu, hk, hj, hi⟩)]
    exact ⟨rfl, rfl, rfl⟩

/-- The contraction on `demoA`, `demoB` (shape `[4, 2, 1, 2]`) and the `4 × 4` matrix
of ones. -/
theorem contNucTen_index_safe_witness :
    (demoA.dim0 = Ns ∧ demoA.dim1 = 2 ∧ demoA.dim2 = 1 ∧ demoA.dim3 = 2) ∧
    (demoB.dim0 = Ns ∧ demoB.dim1 = 2 ∧ demoB.dim2 = 1 ∧ demoB.dim3 = 2) ∧
    ((A2AMatrix.const 4 4 (1 : GaussianInt)).rows = Ns
      ∧ (A2AMatrix.const 4 4 (1 : GaussianInt)).cols = Ns) ∧
    (contNucTen (7, 7, 7) (A2AMatrix.const 4 4 (1 : GaussianInt)) demoA demoB).isSome = true ∧
    ∀ mu nu i j k, mu < Ns → nu < Ns → i < 2 → j < 1 → k < 2 →
      (demoA.at? mu i j k).isSome = true ∧ (demoB.at? nu i j k).isSome = true
        ∧ (demoB.at? nu k j i).isSome = true :=
  ⟨⟨rfl, rfl, rfl, rfl⟩, ⟨rfl, rfl, rfl, rfl⟩, ⟨rfl, rfl⟩,
    contNucTen_index_safe (7, 7, 7) (A2AMatrix.const 4 4 1) demoA demoB 2 1
      ⟨rfl, rfl, rfl, rfl⟩ ⟨rfl, rfl, rfl, rfl⟩ ⟨rfl, rfl⟩⟩

/-! ## Rounded arithmetic: the model of `ComplexD` -/

end Hadrons
